import Mathlib

/-!
# Verification of the grleconvert codecs

Shallow embedding of the GRLE (RLE-LAYER) and GDM (PACKED-DENSITY) codecs from
`src/main.rs` of the grleconvert repository, together with proofs about the
claims of the specification.

Bytes are modelled as `Nat` (with explicit `% 256` where the Rust code
truncates), byte buffers as `List Nat`.  Fallible operations return a
`RunResult`; an out-of-bounds slice or index (a Rust panic) is modelled as
`RunResult.panicked`.  `while` loops over a cursor are modelled by structural
recursion, with an explicit fuel argument when no structural measure exists in
the source (the fuel is always an upper bound on the number of iterations the
Rust loop can perform, so it is never exhausted).
-/

namespace GrleConvert

/-- Outcome of one conversion operation: a successful value, an error return
(`Err` in the Rust source), or a panic (out-of-bounds indexing / slicing). -/
inductive RunResult (α : Type) where
  | ok : α → RunResult α
  | error : String → RunResult α
  | panicked : RunResult α
deriving DecidableEq, Repr

/-- `read_u16_le` from main.rs: little-endian u16 at `offset`.
Reads are total here (`getD 0`); every use below is guarded so that the
indices are in bounds exactly when the Rust code does not panic. -/
def read_u16_le (data : List Nat) (offset : Nat) : Nat :=
  (data.get? offset).getD 0 + 256 * ((data.get? (offset + 1)).getD 0)

/-- Little-endian byte pair of a 16-bit value (`u16::to_le_bytes`). -/
def u16le (v : Nat) : List Nat := [v % 256, v / 256 % 256]

/-! ## GRLE decoder (`decode_grle_rle`, main.rs lines 165-198) -/

/-- The extended-count read of `decode_grle_rle`: consume `0xff` continuation
bytes (each contributing 255), then one terminator byte contributing its own
value; returns the accumulated count and the remaining input. -/
def readCount : List Nat → Nat × List Nat
  | [] => (0, [])
  | b :: bs =>
    if b = 0xff then
      let r := readCount bs
      (r.1 + 255, r.2)
    else (b, bs)

/-- The main `while` loop of `decode_grle_rle`.  The list argument is the
input from cursor position `i` on; `rem` is `expected_size - output.len()`.
The loop body either consumes a run (decreasing `rem` by at least 1) or a
transition (decreasing `rem` by exactly 1), so `rem` itself bounds the number
of iterations; `fuel` is initialised to the expected size and never runs out
before `rem` reaches 0. -/
def decodeAux : Nat → List Nat → Nat → List Nat
  | 0, _, _ => []
  | fuel + 1, prev :: next :: rest, rem =>
    if rem = 0 then []
    else if prev = next then
      -- same value: a run; read the extended count, offset by 2
      let rc := readCount rest
      let cnt := min (rc.1 + 2) rem
      List.replicate cnt prev ++ decodeAux fuel rc.2 (rem - cnt)
    else
      -- transition: emit one pixel, back up so `next` is re-read as `prev`
      prev :: decodeAux fuel (next :: rest) (rem - 1)
  | _ + 1, _, _ => []

/-- `Vec::resize(n, 0)`: truncate or zero-pad to length `n`. -/
def resizeZero (l : List Nat) (n : Nat) : List Nat :=
  l.take n ++ List.replicate (n - l.length) 0

/-- `decode_grle_rle` from main.rs: skip the leading byte, run the pair/rewind
loop, then zero-fill up to `expected_size`. -/
def decode_grle_rle (data : List Nat) (expected : Nat) : List Nat :=
  resizeZero (decodeAux expected (data.drop 1) expected) expected

/-! ## GRLE encoder (`encode_grle_rle`, main.rs lines 242-296) -/

/-- The count bytes the encoder emits for a run of length `r + 2`: the loop
`while remaining >= 255 { push 0xff; remaining -= 255 }; push remaining`
pushes `⌊r/255⌋` copies of `0xff` and then `r % 255`. -/
def countBytes (r : Nat) : List Nat := List.replicate (r / 255) 0xff ++ [r % 255]

/-- Bytes emitted for one maximal run of value `v` and length `r`:
the run form for `r ≥ 2`, a single literal for `r = 1`. -/
def emitRun (v r : Nat) : List Nat :=
  if 2 ≤ r then v :: v :: countBytes (r - 2) else [v]

/-- The encoder's scan, modelled as an accumulating recursion: `encAux v n xs`
encodes the stream when a run of `n + 1` copies of `v` has been scanned and
`xs` remains.  This computes exactly what the `while i < pixels.len()` loop of
`encode_grle_rle` emits (the loop finds each maximal run and emits it). -/
def encAux : Nat → Nat → List Nat → List Nat
  | v, n, [] => emitRun v (n + 1)
  | v, n, x :: xs =>
    if x = v then encAux v (n + 1) xs
    else emitRun v (n + 1) ++ encAux x 0 xs

/-- Everything `encode_grle_rle` pushes after the leading `0x00` byte. -/
def encodeBody : List Nat → List Nat
  | [] => []
  | p :: ps => encAux p 0 ps

/-- `encode_grle_rle` from main.rs: leading `0x00`, the run-length body, and
the single-pixel edge case (`output.len() == 2` ⇒ append the value and `0x00`). -/
def encode_grle_rle (pixels : List Nat) : List Nat :=
  match encodeBody pixels with
  | [v] => [0, v, v, 0]
  | body => 0 :: body

/-! ## GRLE file container -/

/-- ASCII bytes of the magic `"GRLE"`. -/
def grleMagic : List Nat := [71, 82, 76, 69]

/-- Pure core of `convert_grle_to_png` (main.rs lines 200-236): header checks
and the decode.  Returns `(width, height, pixels)`.  `data[0..4]` panics when
the file is shorter than 4 bytes; after the magic check, the header reads at
offsets 4-11 and the slice `data[20..]` panic whenever the file is shorter
than 20 bytes. -/
def convert_grle_to_png (data : List Nat) : RunResult (Nat × Nat × List Nat) :=
  if data.length < 4 then .panicked
  else if data.take 4 ≠ grleMagic then .error "Not a valid GRLE file"
  else if data.length < 20 then .panicked
  else
    .ok (read_u16_le data 6 * 256, read_u16_le data 10 * 256,
      decode_grle_rle (data.drop 20)
        (read_u16_le data 6 * 256 * (read_u16_le data 10 * 256)))

/-- The 20-byte GRLE header followed by the payload, as assembled by
`convert_png_to_grle`: magic, version 1, `width/256`, reserved, `height/256`,
the constant 256, reserved, and the size field (one zero byte then the 24-bit
little-endian value `compressed.len() - 1`). -/
def grleFile (compressed : List Nat) (width height : Nat) : List Nat :=
  grleMagic ++ u16le 1 ++ u16le (width / 256) ++ [0, 0] ++ u16le (height / 256) ++
    u16le 256 ++ [0, 0] ++
    [0, (compressed.length - 1) % 256, (compressed.length - 1) / 256 % 256,
      (compressed.length - 1) / 65536 % 256] ++
    compressed

/-- Pure core of `convert_png_to_grle` (main.rs lines 298-391) on an already
grayscale pixel buffer: the dimension check, the RLE encode and the header
assembly. -/
def convert_png_to_grle (pixels : List Nat) (width height : Nat) : RunResult (List Nat) :=
  if width % 256 ≠ 0 ∨ height % 256 ≠ 0 then
    .error "Dimensions must be multiples of 256"
  else
    .ok (grleFile (encode_grle_rle (pixels.take (width * height))) width height)

/-! ## Lemmas about the RLE count bytes -/

theorem readCount_cons_ff (bs : List Nat) :
    readCount (0xff :: bs) = ((readCount bs).1 + 255, (readCount bs).2) := by
  simp [readCount]

theorem readCount_replicate (k b : Nat) (hb : b ≠ 0xff) (tail : List Nat) :
    readCount (List.replicate k 0xff ++ b :: tail) = (255 * k + b, tail) := by
  induction k with
  | zero => simp [readCount, hb]
  | succ n ih =>
    rw [List.replicate_succ, List.cons_append, readCount_cons_ff, ih]
    simp only [Prod.mk.injEq]
    exact ⟨by omega, trivial⟩

theorem readCount_countBytes (r : Nat) (tail : List Nat) :
    readCount (countBytes r ++ tail) = (r, tail) := by
  have hb : r % 255 ≠ 0xff := by
    have := Nat.mod_lt r (show 0 < 255 by norm_num)
    omega
  unfold countBytes
  rw [List.append_assoc, List.singleton_append, readCount_replicate _ _ hb tail]
  simp only [Prod.mk.injEq]
  refine ⟨?_, trivial⟩
  have := Nat.div_add_mod r 255
  omega

/-! ## Run-structure lemmas for the encoder -/

theorem encAux_head (v n : Nat) (xs : List Nat) : (encAux v n xs).head? = some v := by
  induction xs generalizing n with
  | nil =>
    unfold encAux emitRun
    split <;> rfl
  | cons x xs ih =>
    unfold encAux
    split
    · exact ih _
    · unfold emitRun
      split <;> rfl

theorem encAux_run (m : Nat) : ∀ (v n : Nat) (rest : List Nat), rest.head? ≠ some v →
    encAux v n (List.replicate m v ++ rest) = emitRun v (n + m + 1) ++ encodeBody rest := by
  induction m with
  | zero =>
    intro v n rest hr
    cases rest with
    | nil => simp [encAux, encodeBody]
    | cons x xs =>
      have hx : x ≠ v := by simpa using hr
      simp [encAux, hx, encodeBody]
  | succ m ih =>
    intro v n rest hr
    rw [List.replicate_succ, List.cons_append]
    show (if v = v then encAux v (n + 1) (List.replicate m v ++ rest)
          else emitRun v (n + 1) ++ encAux v 0 (List.replicate m v ++ rest))
        = emitRun v (n + (m + 1) + 1) ++ encodeBody rest
    rw [if_pos rfl, ih v (n + 1) rest hr]
    have : n + 1 + m + 1 = n + (m + 1) + 1 := by omega
    rw [this]

theorem encodeBody_run (L v : Nat) (rest : List Nat) (hL : 1 ≤ L)
    (hr : rest.head? ≠ some v) :
    encodeBody (List.replicate L v ++ rest) = emitRun v L ++ encodeBody rest := by
  obtain ⟨m, rfl⟩ : ∃ m, L = m + 1 := ⟨L - 1, by omega⟩
  rw [List.replicate_succ, List.cons_append]
  show encAux v 0 (List.replicate m v ++ rest) = emitRun v (m + 1) ++ encodeBody rest
  rw [encAux_run m v 0 rest hr]
  have : 0 + m + 1 = m + 1 := by omega
  rw [this]

/-- Leading-run split of a list: number of leading copies of `v`, and the rest. -/
def leadRun (v : Nat) : List Nat → Nat × List Nat
  | [] => (0, [])
  | x :: xs =>
    if x = v then
      let r := leadRun v xs
      (r.1 + 1, r.2)
    else (0, x :: xs)

theorem leadRun_cons_eq (v : Nat) (xs : List Nat) :
    leadRun v (v :: xs) = ((leadRun v xs).1 + 1, (leadRun v xs).2) := by
  simp [leadRun]

theorem leadRun_cons_ne (v x : Nat) (xs : List Nat) (h : x ≠ v) :
    leadRun v (x :: xs) = (0, x :: xs) := by
  simp [leadRun, h]

theorem leadRun_spec (v : Nat) (l : List Nat) :
    l = List.replicate (leadRun v l).1 v ++ (leadRun v l).2 ∧
      (leadRun v l).2.head? ≠ some v ∧ (leadRun v l).2.length ≤ l.length := by
  induction l with
  | nil => simp [leadRun]
  | cons x xs ih =>
    by_cases hx : x = v
    · subst hx
      rw [leadRun_cons_eq]
      refine ⟨?_, ih.2.1, ?_⟩
      · rw [List.replicate_succ, List.cons_append]
        exact congrArg (x :: ·) ih.1
      · have := ih.2.2
        simp only [List.length_cons]
        omega
    · rw [leadRun_cons_ne v x xs hx]
      exact ⟨rfl, by simpa using hx, le_rfl⟩

/-- Run-structure induction: every list is built from maximal runs. -/
theorem runCases {P : List Nat → Prop} (h0 : P [])
    (hstep : ∀ v L rest, 1 ≤ L → rest.head? ≠ some v → P rest →
      P (List.replicate L v ++ rest)) :
    ∀ l, P l := by
  have key : ∀ n (l : List Nat), l.length ≤ n → P l := by
    intro n
    induction n with
    | zero =>
      intro l hl
      rw [List.eq_nil_of_length_eq_zero (Nat.le_zero.mp hl)]
      exact h0
    | succ n ih =>
      intro l hl
      cases l with
      | nil => exact h0
      | cons x xs =>
        obtain ⟨hdecomp, hhead, hlen⟩ := leadRun_spec x xs
        have hx : x :: xs = List.replicate ((leadRun x xs).1 + 1) x ++ (leadRun x xs).2 := by
          rw [List.replicate_succ, List.cons_append]
          exact congrArg (x :: ·) hdecomp
        rw [hx]
        refine hstep x _ _ (by omega) hhead (ih _ ?_)
        simp only [List.length_cons] at hl
        omega
  intro l
  exact key l.length l le_rfl

/-! ## The end-of-buffer condition -/

/-- A buffer round-trips at the `decodeAux` level exactly when it does not end
in a singleton run: empty, or its last two pixels are equal. -/
def okEnd (P : List Nat) : Prop := P.dropLast.getLast? = P.getLast?

instance (P : List Nat) : Decidable (okEnd P) := by
  unfold okEnd
  infer_instance

theorem okEnd_nil : okEnd [] := rfl

theorem okEnd_replicate (L v : Nat) (hL : 2 ≤ L) : okEnd (List.replicate L v) := by
  unfold okEnd
  rw [List.dropLast_replicate, List.getLast?_replicate, List.getLast?_replicate,
    if_neg (by omega), if_neg (by omega)]

theorem not_okEnd_single (v : Nat) : ¬ okEnd [v] := by
  simp [okEnd]

theorem exists_singleton_of_dropLast_nil {rest : List Nat} (hne : rest ≠ [])
    (h : rest.dropLast = []) : ∃ w, rest = [w] := by
  cases rest with
  | nil => exact absurd rfl hne
  | cons x xs =>
    cases xs with
    | nil => exact ⟨x, rfl⟩
    | cons y ys => simp [List.dropLast] at h

theorem okEnd_run_append (v L : Nat) (hL : 1 ≤ L) (rest : List Nat) (hne : rest ≠ [])
    (hh : rest.head? ≠ some v) :
    (okEnd (List.replicate L v ++ rest) ↔ okEnd rest) := by
  unfold okEnd
  rw [List.dropLast_append_of_ne_nil _ hne, List.getLast?_append_of_ne_nil _ hne]
  cases hr2 : rest.dropLast with
  | nil =>
    obtain ⟨w, rfl⟩ := exists_singleton_of_dropLast_nil hne hr2
    have hw : w ≠ v := by simpa using hh
    rw [List.append_nil, List.getLast?_replicate, if_neg (by omega)]
    simp [hw.symm]
  | cons d ds =>
    rw [← hr2, List.getLast?_append_of_ne_nil _ (by rw [hr2]; exact List.cons_ne_nil d ds)]

/-! ## Decoding the encoder's output -/

theorem decodeAux_nil (fuel rem : Nat) : decodeAux fuel [] rem = [] := by
  cases fuel <;> rfl

theorem decodeAux_single (fuel rem v : Nat) : decodeAux fuel [v] rem = [] := by
  cases fuel <;> rfl

/-- Core inversion: on the body of an encoded buffer, the decode loop
reproduces the buffer, except that a final singleton run is dropped (its byte
is the last of the stream, and the loop requires two remaining bytes). -/
theorem decodeAux_encodeBody :
    ∀ (P : List Nat) (fuel : Nat), P.length ≤ fuel →
      decodeAux fuel (encodeBody P) P.length = if okEnd P then P else P.dropLast := by
  refine runCases ?_ ?_
  · intro fuel _
    rw [if_pos okEnd_nil]
    show decodeAux fuel (encodeBody []) 0 = []
    cases fuel <;> rfl
  · intro v L rest hL hh ih fuel hfuel
    have hlen : (List.replicate L v ++ rest).length = L + rest.length := by simp
    rw [encodeBody_run L v rest hL hh, hlen]
    rw [hlen] at hfuel
    by_cases hL2 : 2 ≤ L
    · -- run form: v, v, count bytes
      rw [show emitRun v L = v :: v :: countBytes (L - 2) from by rw [emitRun, if_pos hL2]]
      obtain ⟨f, rfl⟩ : ∃ f, fuel = f + 1 := ⟨fuel - 1, by omega⟩
      rw [List.cons_append, List.cons_append]
      show (if L + rest.length = 0 then []
            else if v = v then
              let rc := readCount (countBytes (L - 2) ++ encodeBody rest)
              let cnt := min (rc.1 + 2) (L + rest.length)
              List.replicate cnt v ++ decodeAux f rc.2 (L + rest.length - cnt)
            else v :: decodeAux f (v :: (countBytes (L - 2) ++ encodeBody rest))
              (L + rest.length - 1))
          = _
      rw [if_neg (by omega), if_pos rfl, readCount_countBytes]
      have hc : min (L - 2 + 2) (L + rest.length) = L := by omega
      simp only [hc]
      have hrem : L + rest.length - L = rest.length := by omega
      rw [hrem, ih f (by omega)]
      by_cases hrest : rest = []
      · subst hrest
        rw [if_pos okEnd_nil, List.append_nil,
          if_pos (okEnd_replicate L v hL2)]
      · have hiff := okEnd_run_append v L hL rest hrest hh
        by_cases ho : okEnd rest
        · rw [if_pos ho, if_pos (hiff.mpr ho)]
        · rw [if_neg ho, if_neg (fun h => ho (hiff.mp h)),
            List.dropLast_append_of_ne_nil _ hrest]
    · -- singleton run: L = 1
      have hL1 : L = 1 := by omega
      subst hL1
      rw [show emitRun v 1 = [v] from by rw [emitRun, if_neg (by omega)]]
      cases hrest : rest with
      | nil =>
        subst hrest
        simp only [encodeBody, List.append_nil, List.length_nil, Nat.add_zero]
        rw [decodeAux_single fuel 1 v]
        rw [if_neg (by simpa using not_okEnd_single v)]
        rfl
      | cons r0 rs =>
        subst hrest
        have hr0 : r0 ≠ v := by simpa using hh
        obtain ⟨tl, htl⟩ : ∃ tl, encodeBody (r0 :: rs) = r0 :: tl := by
          cases hE : encodeBody (r0 :: rs) with
          | nil =>
            have := encAux_head r0 0 rs
            rw [show encAux r0 0 rs = encodeBody (r0 :: rs) from rfl, hE] at this
            simp at this
          | cons a tl =>
            have := encAux_head r0 0 rs
            rw [show encAux r0 0 rs = encodeBody (r0 :: rs) from rfl, hE] at this
            simp at this
            exact ⟨tl, by rw [this]⟩
        rw [htl, List.singleton_append]
        obtain ⟨f, rfl⟩ : ∃ f, fuel = f + 1 := ⟨fuel - 1, by omega⟩
        show (if 1 + (r0 :: rs).length = 0 then []
              else if v = r0 then
                let rc := readCount tl
                let cnt := min (rc.1 + 2) (1 + (r0 :: rs).length)
                List.replicate cnt v ++ decodeAux f rc.2 (1 + (r0 :: rs).length - cnt)
              else v :: decodeAux f (r0 :: tl) (1 + (r0 :: rs).length - 1))
            = _
        rw [if_neg (by omega), if_neg (fun h => hr0 h.symm)]
        rw [show 1 + (r0 :: rs).length - 1 = (r0 :: rs).length from by omega, ← htl]
        rw [ih f (by simp only [List.length_cons] at hfuel ⊢; omega)]
        have hne : (r0 :: rs) ≠ [] := List.cons_ne_nil r0 rs
        have hiff := okEnd_run_append v 1 le_rfl _ hne hh
        by_cases ho : okEnd (r0 :: rs)
        · rw [if_pos ho, if_pos (hiff.mpr ho)]
          rfl
        · rw [if_neg ho, if_neg (fun h => ho (hiff.mp h)),
            List.dropLast_append_of_ne_nil _ hne]
          rfl

/-! ## Round-trip wrappers -/

theorem encAux_length_of_pos (xs : List Nat) : ∀ v n, 1 ≤ n → 3 ≤ (encAux v n xs).length := by
  induction xs with
  | nil =>
    intro v n hn
    show 3 ≤ (emitRun v (n + 1)).length
    rw [emitRun, if_pos (by omega)]
    simp [countBytes]
  | cons x xs ih =>
    intro v n hn
    show 3 ≤ (if x = v then encAux v (n + 1) xs
              else emitRun v (n + 1) ++ encAux x 0 xs).length
    by_cases hx : x = v
    · rw [if_pos hx]
      exact ih v (n + 1) (by omega)
    · rw [if_neg hx]
      have : 3 ≤ (emitRun v (n + 1)).length := by
        rw [emitRun, if_pos (by omega)]
        simp [countBytes]
      simp only [List.length_append]
      omega

theorem encAux_length_pos (v n : Nat) (xs : List Nat) : 1 ≤ (encAux v n xs).length := by
  have h := encAux_head v n xs
  cases hE : encAux v n xs with
  | nil => rw [hE] at h; simp at h
  | cons a tl => simp

theorem encodeBody_length_ge (P : List Nat) (hP : 2 ≤ P.length) :
    2 ≤ (encodeBody P).length := by
  match P, hP with
  | p :: q :: t, _ =>
    show 2 ≤ (encAux p 0 (q :: t)).length
    show 2 ≤ (if q = p then encAux p 1 t else emitRun p 1 ++ encAux q 0 t).length
    by_cases hq : q = p
    · rw [if_pos hq]
      have := encAux_length_of_pos t p 1 le_rfl
      omega
    · rw [if_neg hq]
      have h1 : (emitRun p 1).length = 1 := by rw [emitRun, if_neg (by omega)]; rfl
      have h2 := encAux_length_pos q 0 t
      simp only [List.length_append]
      omega

theorem encode_eq_cons (P : List Nat) (hP : 2 ≤ P.length) :
    encode_grle_rle P = 0 :: encodeBody P := by
  have h2 := encodeBody_length_ge P hP
  unfold encode_grle_rle
  split
  · rename_i v heq
    rw [heq] at h2
    simp at h2
  · rfl

/-- Round trip at the whole-codec level: exact for buffers with a good ending,
and the trailing singleton is replaced by the zero fill otherwise. -/
theorem roundtrip_core (P : List Nat) (hP : 2 ≤ P.length) :
    decode_grle_rle (encode_grle_rle P) P.length
      = if okEnd P then P else P.dropLast ++ [0] := by
  rw [encode_eq_cons P hP]
  unfold decode_grle_rle
  rw [show (0 :: encodeBody P).drop 1 = encodeBody P from rfl]
  rw [decodeAux_encodeBody P P.length le_rfl]
  by_cases ho : okEnd P
  · rw [if_pos ho, if_pos ho]
    unfold resizeZero
    rw [List.take_of_length_le le_rfl]
    simp
  · rw [if_neg ho, if_neg ho]
    unfold resizeZero
    have hlen : P.dropLast.length = P.length - 1 := by simp
    rw [List.take_of_length_le (by omega), hlen,
      show P.length - (P.length - 1) = 1 from by omega]
    rfl

/-- **C1** (amended).  For every 8-bit pixel buffer `P` with
`|P| = 256·256·k`, `k ≥ 1`, whose last two pixels are equal (`okEnd P`) or
whose last pixel is `0`, decoding the RLE encoding of `P` with expected size
`|P|` returns exactly `P`.  (A buffer ending in a nonzero singleton pixel is
the exception: the decoder's pair loop never consumes the stream's last byte,
so that pixel comes back as the zero fill; see the counterexample.) -/
theorem grle_roundtrip (P : List Nat) (k : Nat) (hk : 1 ≤ k)
    (hlen : P.length = 256 * 256 * k) (hbytes : ∀ v ∈ P, v < 256)
    (hend : okEnd P ∨ P.getLast? = some 0) :
    decode_grle_rle (encode_grle_rle P) P.length = P := by
  have h2 : 2 ≤ P.length := by
    have : 256 * 256 * 1 ≤ 256 * 256 * k := Nat.mul_le_mul_left _ hk
    omega
  rw [roundtrip_core P h2]
  by_cases ho : okEnd P
  · rw [if_pos ho]
  · rw [if_neg ho]
    rcases hend with ho' | hz
    · exact absurd ho' ho
    · exact List.dropLast_append_getLast? 0 (Option.mem_def.mpr hz)

/-- Witness for C1 at the concrete buffer of 65536 zero pixels. -/
theorem grle_roundtrip_witness :
    ((List.replicate 65536 0).length = 256 * 256 * 1
        ∧ (∀ v ∈ List.replicate 65536 0, v < 256)
        ∧ (List.replicate 65536 (0 : Nat)).getLast? = some 0)
      ∧ decode_grle_rle (encode_grle_rle (List.replicate 65536 0))
          (List.replicate 65536 (0 : Nat)).length = List.replicate 65536 0 := by
  refine ⟨⟨by rw [List.length_replicate], ?_, ?_⟩, ?_⟩
  · intro v hv
    rw [List.eq_of_mem_replicate hv]
    norm_num
  · rw [List.getLast?_replicate, if_neg (by norm_num)]
  · refine grle_roundtrip _ 1 le_rfl (by rw [List.length_replicate]) ?_ (Or.inr ?_)
    · intro v hv
      rw [List.eq_of_mem_replicate hv]
      norm_num
    · rw [List.getLast?_replicate, if_neg (by norm_num)]

/-- **C1 counterexample.**  The buffer of 65535 zeros followed by a single
`1` has length `256·256·1` and 8-bit values, but does not round-trip: the
final singleton `1` is the last byte of the encoded stream, the decode loop
stops one byte short, and the zero fill puts `0` there instead. -/
theorem grle_roundtrip_counterexample :
    decode_grle_rle (encode_grle_rle (List.replicate 65535 0 ++ [1]))
        (List.replicate 65535 (0 : Nat) ++ [1]).length
      ≠ List.replicate 65535 (0 : Nat) ++ [1] := by
  have h2 : 2 ≤ (List.replicate 65535 (0 : Nat) ++ [1]).length := by
    rw [List.length_append, List.length_replicate]
    norm_num
  rw [roundtrip_core _ h2]
  have ho : ¬ okEnd (List.replicate 65535 (0 : Nat) ++ [1]) := by
    unfold okEnd
    rw [List.dropLast_concat, List.getLast?_concat, List.getLast?_replicate,
      if_neg (by norm_num)]
    simp
  rw [if_neg ho, List.dropLast_concat]
  intro h
  have := congrArg List.getLast? h
  rw [List.getLast?_concat, List.getLast?_concat] at this
  simp at this

/-! ## C6: byte layout of an encoded run -/

theorem encodeBody_append (pre : List Nat) :
    ∀ rest : List Nat, pre.getLast? ≠ rest.head? →
      encodeBody (pre ++ rest) = encodeBody pre ++ encodeBody rest := by
  induction pre using runCases with
  | h0 =>
    intro rest _
    simp [encodeBody]
  | hstep v L pre' hL hh ih =>
    intro rest hlast
    cases pre' with
    | nil =>
      rw [List.append_nil] at hlast ⊢
      rw [List.getLast?_replicate, if_neg (by omega)] at hlast
      have hhd : rest.head? ≠ some v := fun h => hlast h.symm
      have h1 : encodeBody (List.replicate L v) = emitRun v L := by
        conv_lhs => rw [← List.append_nil (List.replicate L v)]
        rw [encodeBody_run L v [] hL (by simp)]
        simp [encodeBody]
      rw [encodeBody_run L v rest hL hhd, h1]
    | cons p0 ps =>
      have hne : p0 :: ps ≠ [] := List.cons_ne_nil p0 ps
      have hhead2 : ((p0 :: ps) ++ rest).head? ≠ some v := by
        rw [List.head?_append_of_ne_nil _ hne]
        exact hh
      have hlast' : (p0 :: ps).getLast? ≠ rest.head? := by
        rw [List.getLast?_append_of_ne_nil _ hne] at hlast
        exact hlast
      rw [List.append_assoc, encodeBody_run L v ((p0 :: ps) ++ rest) hL hhead2,
        ih rest hlast', encodeBody_run L v (p0 :: ps) hL hh, List.append_assoc]

/-- **C6.**  For a maximal run of value `v` and length `L ≥ 2` (the pixels
before it do not end in `v`, the pixels after it do not start with `v`), the
encoder emits, in place, the value twice, `⌊(L−2)/255⌋` bytes `0xFF`, and one
byte `(L−2) mod 255` — exactly `2 + ⌊(L−2)/255⌋ + 1` bytes for the run. -/
theorem grle_run_encoding (pre post : List Nat) (v L : Nat) (hL : 2 ≤ L)
    (hpre : pre.getLast? ≠ some v) (hpost : post.head? ≠ some v) :
    encodeBody (pre ++ (List.replicate L v ++ post))
        = encodeBody pre
          ++ ((v :: v :: (List.replicate ((L - 2) / 255) 0xff ++ [(L - 2) % 255]))
            ++ encodeBody post)
      ∧ (v :: v :: (List.replicate ((L - 2) / 255) 0xff ++ [(L - 2) % 255])).length
          = 2 + (L - 2) / 255 + 1 := by
  constructor
  · have hrep : List.replicate L v ≠ [] := by
      simp only [ne_eq, List.replicate_eq_nil]
      omega
    have hhd : pre.getLast? ≠ (List.replicate L v ++ post).head? := by
      rw [List.head?_append_of_ne_nil _ hrep, List.head?_replicate, if_neg (by omega)]
      exact hpre
    rw [encodeBody_append pre _ hhd, encodeBody_run L v post (by omega) hpost]
    rw [show emitRun v L = v :: v :: countBytes (L - 2) from by rw [emitRun, if_pos hL]]
    rfl
  · simp [countBytes]
    omega

/-- Witness for C6: a run of 300 sevens bracketed by other values. -/
theorem grle_run_encoding_witness :
    encodeBody ([9] ++ (List.replicate 300 7 ++ [5]))
        = encodeBody [9]
          ++ ((7 :: 7 :: (List.replicate ((300 - 2) / 255) 0xff ++ [(300 - 2) % 255]))
            ++ encodeBody [5])
      ∧ (7 :: 7 :: (List.replicate ((300 - 2) / 255) 0xff ++ [(300 - 2) % 255])).length
          = 2 + (300 - 2) / 255 + 1 :=
  grle_run_encoding [9] [5] 7 300 (by norm_num) (by decide) (by decide)

/-! ## C8: the decoder always returns exactly the expected pixel count -/

theorem decodeAux_length_le : ∀ (fuel : Nat) (l : List Nat) (rem : Nat),
    (decodeAux fuel l rem).length ≤ rem := by
  intro fuel
  induction fuel with
  | zero =>
    intro l rem
    simp [decodeAux]
  | succ f ih =>
    intro l rem
    match l with
    | [] => rw [decodeAux_nil]; simp
    | [x] => rw [decodeAux_single]; simp
    | prev :: next :: rest =>
      show (if rem = 0 then []
            else if prev = next then
              let rc := readCount rest
              let cnt := min (rc.1 + 2) rem
              List.replicate cnt prev ++ decodeAux f rc.2 (rem - cnt)
            else prev :: decodeAux f (next :: rest) (rem - 1)).length ≤ rem
      by_cases h0 : rem = 0
      · rw [if_pos h0]; simp
      · rw [if_neg h0]
        by_cases he : prev = next
        · rw [if_pos he]
          simp only [List.length_append, List.length_replicate]
          have h1 := ih (readCount rest).2 (rem - min ((readCount rest).1 + 2) rem)
          have h2 : min ((readCount rest).1 + 2) rem ≤ rem := Nat.min_le_right _ _
          omega
        · rw [if_neg he]
          have := ih (next :: rest) (rem - 1)
          simp only [List.length_cons]
          omega

/-- **C8.**  For every payload and every expected pixel count, the decoder
returns a buffer of exactly the expected count: the pair loop never emits past
the boundary (runs are truncated by the `min`), and the zero resize fills
whatever the loop did not produce. -/
theorem grle_decode_exact_size (data : List Nat) (expected : Nat) :
    (decode_grle_rle data expected).length = expected
      ∧ decode_grle_rle data expected
        = decodeAux expected (data.drop 1) expected
          ++ List.replicate
              (expected - (decodeAux expected (data.drop 1) expected).length) 0 := by
  have hle := decodeAux_length_le expected (data.drop 1) expected
  unfold decode_grle_rle resizeZero
  rw [List.take_of_length_le hle]
  refine ⟨?_, rfl⟩
  simp only [List.length_append, List.length_replicate]
  omega

/-! ## C9: GRLE decoding ignores the version and stored-length fields -/

/-- The output of `convert_grle_to_png` depends only on the length, the first
four bytes, the width/height fields, and the payload from offset 20 on. -/
theorem convert_grle_congr (d1 d2 : List Nat) (hlen : d1.length = d2.length)
    (h4 : d1.take 4 = d2.take 4)
    (h6 : d1.get? 6 = d2.get? 6) (h7 : d1.get? 7 = d2.get? 7)
    (h10 : d1.get? 10 = d2.get? 10) (h11 : d1.get? 11 = d2.get? 11)
    (h20 : d1.drop 20 = d2.drop 20) :
    convert_grle_to_png d1 = convert_grle_to_png d2 := by
  unfold convert_grle_to_png read_u16_le
  simp only [show (6 : Nat) + 1 = 7 from rfl, show (10 : Nat) + 1 = 11 from rfl]
  rw [hlen, h4, h6, h7, h10, h11, h20]

theorem get?_skip4 (a X : List Nat) (ha : a.length = 4) (n : Nat) :
    (a ++ X).get? (4 + n) = X.get? n := by
  rw [List.get?_append_right (by omega), ha]
  congr 1
  omega

theorem drop20_part (a b W : List Nat) (v1 v2 : Nat) (ha : a.length = 4)
    (hb : b.length = 10) :
    (a ++ v1 :: v2 :: (b ++ W)).drop 20 = W.drop 4 := by
  rw [show (20 : Nat) = a.length + 16 from by omega, List.drop_append,
    show ∀ Z : List Nat, (v1 :: v2 :: Z).drop 16 = Z.drop 14 from fun _ => rfl,
    show (14 : Nat) = b.length + 4 from by omega, List.drop_append]

/-- **C9.**  GRLE decoding does not depend on the version field (bytes 4-5)
or the stored payload-length field (bytes 16-19): two files of the same length
agreeing everywhere else decode identically.  Here `a` is the 4-byte magic,
`b` the bytes at offsets 6-15 (width, reserved, height, constant, reserved),
and `c` the payload from offset 20 on. -/
theorem grle_decode_header_independence (a b c : List Nat)
    (v1 v2 w1 w2 w3 w4 u1 u2 x1 x2 x3 x4 : Nat)
    (ha : a.length = 4) (hb : b.length = 10) :
    convert_grle_to_png (a ++ v1 :: v2 :: (b ++ w1 :: w2 :: w3 :: w4 :: c))
      = convert_grle_to_png (a ++ u1 :: u2 :: (b ++ x1 :: x2 :: x3 :: x4 :: c)) := by
  have hb0 : 0 < b.length := by omega
  apply convert_grle_congr
  · simp only [List.length_append, List.length_cons, ha, hb]
  · rw [List.take_left' ha, List.take_left' ha]
  · rw [show (6 : Nat) = 4 + 2 from rfl, get?_skip4 a _ ha 2, get?_skip4 a _ ha 2,
      show ∀ Z : List Nat, Z.get? 2 = Z.get? 2 from fun _ => rfl]
    rw [show ∀ x y (Z : List Nat), (x :: y :: Z).get? 2 = Z.get? 0 from fun _ _ _ => rfl,
      show ∀ x y (Z : List Nat), (x :: y :: Z).get? 2 = Z.get? 0 from fun _ _ _ => rfl]
    rw [List.get?_append hb0, List.get?_append hb0]
  · rw [show (7 : Nat) = 4 + 3 from rfl, get?_skip4 a _ ha 3, get?_skip4 a _ ha 3]
    rw [show ∀ x y (Z : List Nat), (x :: y :: Z).get? 3 = Z.get? 1 from fun _ _ _ => rfl,
      show ∀ x y (Z : List Nat), (x :: y :: Z).get? 3 = Z.get? 1 from fun _ _ _ => rfl]
    rw [List.get?_append (by omega), List.get?_append (by omega)]
  · rw [show (10 : Nat) = 4 + 6 from rfl, get?_skip4 a _ ha 6, get?_skip4 a _ ha 6]
    rw [show ∀ x y (Z : List Nat), (x :: y :: Z).get? 6 = Z.get? 4 from fun _ _ _ => rfl,
      show ∀ x y (Z : List Nat), (x :: y :: Z).get? 6 = Z.get? 4 from fun _ _ _ => rfl]
    rw [List.get?_append (by omega), List.get?_append (by omega)]
  · rw [show (11 : Nat) = 4 + 7 from rfl, get?_skip4 a _ ha 7, get?_skip4 a _ ha 7]
    rw [show ∀ x y (Z : List Nat), (x :: y :: Z).get? 7 = Z.get? 5 from fun _ _ _ => rfl,
      show ∀ x y (Z : List Nat), (x :: y :: Z).get? 7 = Z.get? 5 from fun _ _ _ => rfl]
    rw [List.get?_append (by omega), List.get?_append (by omega)]
  · rw [drop20_part a b _ v1 v2 ha hb, drop20_part a b _ u1 u2 ha hb]
    rfl

/-- Witness for C9: two concrete files differing in version and length
fields. -/
theorem grle_decode_header_independence_witness :
    convert_grle_to_png
        ([71, 82, 76, 69] ++ 1 :: 0 :: ([1, 0, 0, 0, 1, 0, 0, 1, 0, 0]
          ++ 9 :: 9 :: 9 :: 9 :: [0, 5, 5, 7]))
      = convert_grle_to_png
        ([71, 82, 76, 69] ++ 77 :: 3 :: ([1, 0, 0, 0, 1, 0, 0, 1, 0, 0]
          ++ 0 :: 1 :: 2 :: 3 :: [0, 5, 5, 7]) ) :=
  grle_decode_header_independence [71, 82, 76, 69] [1, 0, 0, 0, 1, 0, 0, 1, 0, 0]
    [0, 5, 5, 7] 1 0 9 9 9 9 77 3 0 1 2 3 (by decide) (by decide)

/-! ## C5: the all-zero 256×256 buffer -/

theorem encodeBody_replicate (n v : Nat) (hn : 1 ≤ n) :
    encodeBody (List.replicate n v) = emitRun v n := by
  conv_lhs => rw [← List.append_nil (List.replicate n v)]
  rw [encodeBody_run n v [] hn (by simp)]
  simp [encodeBody]

theorem encodeBody_allzero :
    encodeBody (List.replicate 65536 0) = 0 :: 0 :: (List.replicate 256 0xff ++ [254]) := by
  rw [encodeBody_replicate 65536 0 (by norm_num), emitRun, if_pos (by norm_num)]
  unfold countBytes
  rw [show (65536 - 2 : Nat) / 255 = 256 from by norm_num,
    show (65536 - 2 : Nat) % 255 = 254 from by norm_num]

theorem encode_allzero :
    encode_grle_rle (List.replicate 65536 0)
      = 0 :: 0 :: 0 :: (List.replicate 256 0xff ++ [254]) := by
  rw [encode_eq_cons _ (by rw [List.length_replicate]; norm_num), encodeBody_allzero]

theorem roundtrip_core_of_eq (P : List Nat) (n : Nat) (hn : n = P.length)
    (hP : 2 ≤ P.length) :
    decode_grle_rle (encode_grle_rle P) n = if okEnd P then P else P.dropLast ++ [0] := by
  subst hn
  exact roundtrip_core P hP

/-- **C5** (amended).  Encoding the 256×256 all-zero buffer gives the 20-byte
header, the run header `0x00, 0x00, 0x00`, then 256 continuation `0xFF` bytes
followed by one remainder byte `0xFE` (254) — 257 count bytes in total, a
280-byte file — and decoding that file reproduces exactly 65536 zero bytes.
(The spec instead claims 257 continuation `0xFF`s plus a remainder `0xFF`.) -/
theorem grle_allzero_file :
    convert_png_to_grle (List.replicate 65536 0) 256 256
        = .ok ([71, 82, 76, 69, 1, 0, 1, 0, 0, 0, 1, 0, 0, 1, 0, 0, 0, 3, 1, 0]
            ++ (0 :: 0 :: 0 :: (List.replicate 256 0xff ++ [254])))
      ∧ convert_grle_to_png
          ([71, 82, 76, 69, 1, 0, 1, 0, 0, 0, 1, 0, 0, 1, 0, 0, 0, 3, 1, 0]
            ++ (0 :: 0 :: 0 :: (List.replicate 256 0xff ++ [254])))
          = .ok (256, 256, List.replicate 65536 0) := by
  have hlen : (0 :: 0 :: 0 :: (List.replicate 256 0xff ++ [254])).length = 260 := by
    simp only [List.length_cons, List.length_append, List.length_replicate,
      List.length_nil]
  constructor
  · unfold convert_png_to_grle grleFile
    rw [if_neg (by norm_num)]
    rw [show (256 * 256 : Nat) = (List.replicate 65536 (0 : Nat)).length from by
      rw [List.length_replicate], List.take_length, encode_allzero, hlen]
    rfl
  · unfold convert_grle_to_png
    rw [if_neg (by
      rw [List.length_append, hlen]
      norm_num)]
    rw [if_neg (fun h => h rfl)]
    rw [if_neg (by
      rw [List.length_append, hlen]
      norm_num)]
    have h6 : read_u16_le ([71, 82, 76, 69, 1, 0, 1, 0, 0, 0, 1, 0, 0, 1, 0, 0, 0, 3, 1, 0]
        ++ (0 :: 0 :: 0 :: (List.replicate 256 0xff ++ [254]))) 6 = 1 := rfl
    have h10 : read_u16_le ([71, 82, 76, 69, 1, 0, 1, 0, 0, 0, 1, 0, 0, 1, 0, 0, 0, 3, 1, 0]
        ++ (0 :: 0 :: 0 :: (List.replicate 256 0xff ++ [254]))) 10 = 1 := rfl
    have hdrop : ([71, 82, 76, 69, 1, 0, 1, 0, 0, 0, 1, 0, 0, 1, 0, 0, 0, 3, 1, 0]
          ++ (0 :: 0 :: 0 :: (List.replicate 256 0xff ++ [254]))).drop 20
        = 0 :: 0 :: 0 :: (List.replicate 256 0xff ++ [254]) := rfl
    rw [h6, h10, hdrop, ← encode_allzero,
      roundtrip_core_of_eq _ _ (by rw [List.length_replicate])
        (by rw [List.length_replicate]; norm_num),
      if_pos (okEnd_replicate _ _ (by norm_num))]

/-! ## GDM (PACKED-DENSITY) block codec

`decode_gdm_block` / `encode_gdm_block` from main.rs.  Pixels are u16 values
(Nat here, with the `as u16` truncations written as `% 65536`); the bitmap is
a byte list.  Out-of-bounds indexing — a Rust panic — is modelled by the
decoder returning `none`, with the individual element reads collapsed into
the equivalent bounds checks on the whole read range. -/

/-- Little-endian u32 at `offset` (`read_u32_le` in main.rs). -/
def read_u32_le (data : List Nat) (offset : Nat) : Nat :=
  (data.get? offset).getD 0 + 256 * ((data.get? (offset + 1)).getD 0)
    + 65536 * ((data.get? (offset + 2)).getD 0)
    + 16777216 * ((data.get? (offset + 3)).getD 0)

/-- The per-pixel bitmap read of `decode_gdm_block`: 16 bits straddling
`bitmap[bit_pos/8]` and (when in bounds) `bitmap[bit_pos/8 + 1]`, shifted by
`bit_pos % 8` and masked to `bits_per_pixel` bits.  The `|` of the low byte
with the high byte shifted by 8 is written as `+` (the ranges are disjoint). -/
def extractBits (bitmap : List Nat) (bits_per_pixel pixel_idx : Nat) : Nat :=
  ((((bitmap.get? (pixel_idx * bits_per_pixel / 8)).getD 0
      + (if pixel_idx * bits_per_pixel / 8 + 1 < bitmap.length then
          256 * (bitmap.get? (pixel_idx * bits_per_pixel / 8 + 1)).getD 0
        else 0))
    >>> (pixel_idx * bits_per_pixel % 8)) &&& (2 ^ bits_per_pixel - 1))

/-- `decode_gdm_block` from main.rs (lines 397-442): read bit depth and
palette count, the palette, and either a uniform chunk (`bit_depth = 0`,
every pixel is `palette[0]` or 0 when the palette is empty) or the bit-packed
bitmap, where a value is a palette index when `bit_depth ≤ 2` and the palette
is nonempty (out-of-range indices decode to 0 via `unwrap_or`), and the raw
pixel value otherwise.  Returns the pixels and the block size, or `none` where
the Rust code would panic on an out-of-bounds index or slice. -/
def decode_gdm_block (data : List Nat) (pos chunk_size : Nat) :
    Option (List Nat × Nat) :=
  if pos + 2 ≤ data.length then
    let bit_depth := (data.get? pos).getD 0
    let palette_count := (data.get? (pos + 1)).getD 0
    let palette_size := 2 * palette_count
    let bitmap_size := if 0 < bit_depth then bit_depth * 128 else 0
    let block_size := 2 + palette_size + bitmap_size
    if pos + 2 + palette_size ≤ data.length then
      let palette := (List.range palette_count).map fun i =>
        (data.get? (pos + 2 + 2 * i)).getD 0 + 256 * ((data.get? (pos + 3 + 2 * i)).getD 0)
      if bit_depth = 0 then
        some (List.replicate (chunk_size * chunk_size) ((palette.get? 0).getD 0), block_size)
      else if pos + 2 + palette_size + bitmap_size ≤ data.length then
        let bitmap := (data.drop (pos + 2 + palette_size)).take bitmap_size
        if ∀ i < chunk_size * chunk_size, i * bit_depth / 8 < bitmap.length then
          some ((List.range (chunk_size * chunk_size)).map fun pixel_idx =>
            if bit_depth ≤ 2 ∧ palette ≠ [] then
              (palette.get? (extractBits bitmap bit_depth pixel_idx)).getD 0
            else extractBits bitmap bit_depth pixel_idx,
            block_size)
        else none
      else none
    else none
  else none

/-- One bitmap write of the palette branch of `encode_gdm_block`:
`bitmap[byte_idx] |= (idx as u8) << bit_offset`, and when the index straddles
the byte boundary and the next byte exists,
`bitmap[byte_idx + 1] |= (idx as u8) >> (8 - bit_offset)`. -/
def writeIdxByte (bitmap : List Nat) (bit_depth pixel_idx idx : Nat) : List Nat :=
  let byte_idx := pixel_idx * bit_depth / 8
  let bit_offset := pixel_idx * bit_depth % 8
  let bm1 := bitmap.set byte_idx
    ((bitmap.get? byte_idx).getD 0 ||| ((idx % 256) <<< bit_offset) % 256)
  if 8 < bit_offset + bit_depth ∧ byte_idx + 1 < bm1.length then
    bm1.set (byte_idx + 1)
      ((bm1.get? (byte_idx + 1)).getD 0 ||| (idx % 256) >>> (8 - bit_offset))
  else bm1

/-- One bitmap write of the raw branch of `encode_gdm_block`:
`bitmap[byte_idx] |= (val << bit_offset) as u8` and, when the next byte
exists, `bitmap[byte_idx + 1] |= (val >> (8 - bit_offset)) as u8`. -/
def writeRawByte (bitmap : List Nat) (bit_depth pixel_idx val : Nat) : List Nat :=
  let byte_idx := pixel_idx * bit_depth / 8
  let bit_offset := pixel_idx * bit_depth % 8
  let bm1 := bitmap.set byte_idx
    ((bitmap.get? byte_idx).getD 0 ||| (val <<< bit_offset) % 256)
  if byte_idx + 1 < bm1.length then
    bm1.set (byte_idx + 1)
      ((bm1.get? (byte_idx + 1)).getD 0 ||| (val >>> (8 - bit_offset)) % 256)
  else bm1

/-- The sorted list of distinct pixel values (`sort_unstable` followed by
`dedup`).  Sorting is modelled by insertion sort — extensionally the same
sorted permutation `sort_unstable` produces — and `List.dedup` of the sorted
list is the same sorted duplicate-free list the Rust adjacent-`dedup`
produces. -/
def uniqueSorted (pixels : List Nat) : List Nat :=
  (pixels.insertionSort (· ≤ ·)).dedup

/-- `encode_gdm_block` from main.rs (lines 587-667).  A uniform chunk gets a
`bit_depth = 0` block with a one-entry palette; up to 4 distinct values get a
1- or 2-bit palette block whose bitmap stores indices into the sorted palette
(the `value_to_idx` hash map is index-in-`unique_values`, i.e. `indexOf`);
otherwise a raw block of width `16 - max_val.leading_zeros()` (clamped ≥ 1),
which for `max_val < 2^16` is `log2 max_val + 1`. -/
def encode_gdm_block (pixels : List Nat) (chunk_size : Nat) : List Nat :=
  let total_pixels := chunk_size * chunk_size
  let unique_values := uniqueSorted pixels
  if unique_values.length = 1 then
    0 :: 1 :: u16le ((unique_values.get? 0).getD 0)
  else if unique_values.length ≤ 4 then
    let bit_depth : Nat := if unique_values.length ≤ 2 then 1 else 2
    bit_depth :: unique_values.length ::
      (unique_values.flatMap u16le ++
        (pixels.take total_pixels).enum.foldl
          (fun bm pa => writeIdxByte bm bit_depth pa.1 (unique_values.indexOf pa.2))
          (List.replicate (bit_depth * 128) 0))
  else
    let max_val := (unique_values.getLast?).getD 0
    let bit_depth := max (if max_val = 0 then 0 else Nat.log2 max_val + 1) 1
    bit_depth :: 0 ::
      (pixels.take total_pixels).enum.foldl
        (fun bm pa => writeRawByte bm bit_depth pa.1 pa.2)
        (List.replicate (bit_depth * 128) 0)

/-! ## GDM file decoder (`convert_gdm_to_png`, main.rs lines 444-581) -/

/-- `"MDF` magic (0x22, 'M', 'D', 'F'). -/
def mdfMagic : List Nat := [34, 77, 68, 70]

/-- `!MDF` magic (0x21, 'M', 'D', 'F'). -/
def mdfBangMagic : List Nat := [33, 77, 68, 70]

/-- `compression_boundaries`: the leading 0, the `num_ranges - 1` boundary
bytes following the header, and `num_channels`. -/
def gdmBoundaries (data : List Nat) (header_size nr nc : Nat) : List Nat :=
  0 :: (((List.range (nr - 1)).map fun i => (data.get? (header_size + i)).getD 0) ++ [nc])

/-- `bits_per_range[i] = boundaries[i+1] - boundaries[i]`. -/
def bitsFromBoundaries (nr : Nat) (bd : List Nat) : List Nat :=
  (List.range nr).map fun i => (bd.get? (i + 1)).getD 0 - (bd.get? i).getD 0

/-- The per-pixel combination loop: OR together the per-range values shifted
by the cumulative bit counts of the earlier ranges. -/
def combineRanges : List (List Nat × Nat) → Nat → Nat → Nat
  | [], _, _ => 0
  | (ps, b) :: rest, pixel_idx, shift =>
    (((ps.get? pixel_idx).getD 0) <<< shift) ||| combineRanges rest pixel_idx (shift + b)

/-- Store one combined value into the image: three bytes (R = low, G = mid,
B = high) in RGB mode, the low byte in grayscale mode. -/
def writePixel (useRgb : Bool) (dim : Nat) (img : List Nat) (x y combined : Nat) :
    List Nat :=
  if useRgb then
    ((img.set ((y * dim + x) * 3) (combined % 256)).set ((y * dim + x) * 3 + 1)
        (combined / 256 % 256)).set ((y * dim + x) * 3 + 2) (combined / 65536 % 256)
  else
    img.set (y * dim + x) (combined % 256)

/-- The inner pixel loop for one chunk based at `(baseX, baseY)`:
`rv` pairs each decoded range with its bit count. -/
def writeChunk (useRgb : Bool) (dim cs : Nat) (img : List Nat) (baseX baseY : Nat)
    (rv : List (List Nat × Nat)) : List Nat :=
  (List.range (cs * cs)).foldl
    (fun im pixel_idx =>
      writePixel useRgb dim im (baseX + pixel_idx % cs) (baseY + pixel_idx / cs)
        (combineRanges rv pixel_idx 0))
    img

/-- Decode `numRanges` consecutive blocks for one chunk, threading the
cursor.  `pos + 2 > data.len()` is the source's explicit truncation error. -/
def decodeRangeBlocks (data : List Nat) (cs : Nat) :
    Nat → Nat → RunResult (List (List Nat) × Nat)
  | 0, pos => .ok ([], pos)
  | k + 1, pos =>
    if data.length < pos + 2 then .error "Unexpected end of data"
    else
      match decode_gdm_block data pos cs with
      | none => .panicked
      | some (ps, bs) =>
        match decodeRangeBlocks data cs k (pos + bs) with
        | .ok (rest, pos2) => .ok (ps :: rest, pos2)
        | .error e => .error e
        | .panicked => .panicked

/-- The chunk loop of `convert_gdm_to_png`: for each chunk in row-major
order, decode its range blocks and scatter the combined values into the
image. -/
def decodeGdmChunksAux (data : List Nat) (cs dim : Nat) (useRgb : Bool)
    (bits : List Nat) (cpd : Nat) :
    Nat → Nat → Nat → List Nat → RunResult (List Nat × Nat)
  | 0, pos, _, img => .ok (img, pos)
  | n + 1, pos, chunk_idx, img =>
    match decodeRangeBlocks data cs bits.length pos with
    | .error e => .error e
    | .panicked => .panicked
    | .ok (rv, pos2) =>
      decodeGdmChunksAux data cs dim useRgb bits cpd n pos2 (chunk_idx + 1)
        (writeChunk useRgb dim cs img (chunk_idx % cpd * cs) (chunk_idx / cpd * cs)
          (rv.zip bits))

/-- Body of `convert_gdm_to_png` after the header fields have been read:
`hdr = (dim_log2, chunk_log2, num_channels, num_ranges, header_size)`.
Reading the boundary bytes past the end of the file is a panic. -/
def gdmDecodeBody (data : List Nat) (hdr : Nat × Nat × Nat × Nat × Nat) :
    RunResult (Nat × Bool × List Nat) :=
  match hdr with
  | (dim_log2, chunk_log2, num_channels, num_ranges, header_size) =>
    if data.length < header_size + (num_ranges - 1) then .panicked
    else
      match decodeGdmChunksAux data (1 <<< chunk_log2) (1 <<< (dim_log2 + 5))
          (8 < num_channels)
          (bitsFromBoundaries num_ranges (gdmBoundaries data header_size num_ranges num_channels))
          (1 <<< (dim_log2 + 5) / 1 <<< chunk_log2)
          ((1 <<< (dim_log2 + 5) / 1 <<< chunk_log2) * (1 <<< (dim_log2 + 5) / 1 <<< chunk_log2))
          (header_size + (if 1 < num_ranges then num_ranges - 1 else 0)) 0
          (List.replicate
            ((1 <<< (dim_log2 + 5)) * (1 <<< (dim_log2 + 5))
              * (if 8 < num_channels then 3 else 1)) 0) with
      | .ok (img, _) => .ok ((1 <<< (dim_log2 + 5)), 8 < num_channels, img)
      | .error e => .error e
      | .panicked => .panicked

/-- Pure core of `convert_gdm_to_png`: magic and version checks, the two
header variants, then the chunk loop.  Returns
`(dimension, use_rgb, image bytes)`. -/
def convert_gdm_to_png (data : List Nat) : RunResult (Nat × Bool × List Nat) :=
  if data.length < 16 then .error "File too small"
  else if data.take 4 ≠ mdfMagic ∧ data.take 4 ≠ mdfBangMagic then
    .error "Not a valid GDM file"
  else if data.take 4 = mdfMagic then
    if read_u32_le data 4 ≠ 0 then .error "Unsupported GDM version"
    else gdmDecodeBody data
      ((data.get? 8).getD 0, (data.get? 9).getD 0, (data.get? 11).getD 0,
        (data.get? 12).getD 0, 16)
  else gdmDecodeBody data
    ((data.get? 4).getD 0, (data.get? 5).getD 0, (data.get? 7).getD 0,
      (data.get? 8).getD 0, 9)

/-! ## GDM file encoder (`convert_png_to_gdm`, main.rs lines 669-807) -/

/-- PNG color types relevant to the encoder. -/
inductive ColorType where
  | grayscale
  | rgb
  | rgba
  | other
deriving DecidableEq, Repr

/-- `pixels.chunks(3)` combined as `r | g << 8 | b << 16` (a trailing partial
chunk cannot occur: the PNG buffer is exactly `3 * width * height` bytes). -/
def rgbTriples : List Nat → List Nat
  | r :: g :: b :: rest => (r + 256 * g + 65536 * b) :: rgbTriples rest
  | _ => []

/-- `pixels.chunks(4)` combined as `r | g << 8 | b << 16` (alpha ignored). -/
def rgbaTriples : List Nat → List Nat
  | r :: g :: b :: _ :: rest => (r + 256 * g + 65536 * b) :: rgbaTriples rest
  | _ => []

/-- The color-type dispatch of `convert_png_to_gdm` building the combined
channel values; `none` is the `Unsupported PNG color type` error. -/
def channel_values (ct : ColorType) (pixels : List Nat) (width height : Nat) :
    Option (List Nat) :=
  match ct with
  | .grayscale => some (pixels.take (width * height))
  | .rgb => some (rgbTriples pixels)
  | .rgba => some (rgbaTriples pixels)
  | .other => none

/-- `usize::trailing_zeros`, by halving (64 for 0, as on a 64-bit target);
the fuel `n` bounds the recursion depth. -/
def tzAux : Nat → Nat → Nat
  | 0, _ => 0
  | fuel + 1, n => if n % 2 = 1 then 0 else tzAux fuel (n / 2) + 1

def trailing_zeros (n : Nat) : Nat := if n = 0 then 64 else tzAux n n

/-- The 16-byte `"MDF` header written by the encoder: magic, version 0,
`dim_log2`, `chunk_log2 = 5`, `max_bpp = 2`, `numChannels`, `numRanges`,
`typeIndexChannels = 0`, two padding bytes. -/
def gdmHeader (dim_log2 nc nr : Nat) : List Nat :=
  [34, 77, 68, 70] ++ [0, 0, 0, 0] ++ [dim_log2 % 256, 5, 2, nc % 256, nr % 256, 0, 0, 0]

/-- The pixel gather for the chunk based at `(baseX, baseY)` (the nested
`py`/`px` loops, row-major within the chunk). -/
def gatherChunk (values : List Nat) (dim cs baseX baseY : Nat) : List Nat :=
  (List.range (cs * cs)).map fun i =>
    (values.get? ((baseY + i / cs) * dim + (baseX + i % cs))).getD 0

/-- Encode the blocks of one chunk, one per range, masking the combined
values with `(1 << range_bits) - 1` at the cumulative shift and truncating to
u16 (`as u16`). -/
def encodeRanges (chunk_pixels : List Nat) (cs : Nat) : List Nat → Nat → List Nat
  | [], _ => []
  | b :: rest, shift =>
    encode_gdm_block
      (chunk_pixels.map fun v => ((v >>> shift) &&& ((1 <<< b) - 1)) % 65536) cs
      ++ encodeRanges chunk_pixels cs rest (shift + b)

/-- The chunk loop of the encoder, row-major. -/
def encodeChunks (values : List Nat) (dim cs cpd : Nat) (bits : List Nat) : List Nat :=
  (List.range (cpd * cpd)).flatMap fun chunk_idx =>
    encodeRanges (gatherChunk values dim cs (chunk_idx % cpd * cs) (chunk_idx / cpd * cs))
      cs bits 0

/-- Pure core of `convert_png_to_gdm`: square and power-of-two dimension
checks, the color-type dispatch, the `"MDF` header, the optional boundary
byte, and the chunks.  `params` are `num_channels` and the optional
`compression_channels` split. -/
def convert_png_to_gdm (ct : ColorType) (pixels : List Nat) (width height : Nat)
    (num_channels : Nat) (compression_channels : Option Nat) : RunResult (List Nat) :=
  if width ≠ height then .error "GDM requires square dimensions"
  else if 1 <<< (trailing_zeros width - 5 + 5) ≠ width then
    .error "Dimension must be power of 2 >= 32"
  else
    match channel_values ct pixels width height with
    | none => .error "Unsupported PNG color type"
    | some values =>
      .ok (gdmHeader (trailing_zeros width - 5) num_channels
          (match compression_channels with | some _ => 2 | none => 1)
        ++ (match compression_channels with | some cc => [cc % 256] | none => [])
        ++ encodeChunks values width 32 (width / 32)
            (match compression_channels with
              | some cc => [cc, num_channels - cc]
              | none => [num_channels]))

/-! ## Properties of `uniqueSorted` -/

theorem mem_uniqueSorted (a : Nat) (l : List Nat) : a ∈ uniqueSorted l ↔ a ∈ l := by
  unfold uniqueSorted
  rw [List.mem_dedup]
  exact (List.perm_insertionSort _ l).mem_iff

theorem uniqueSorted_nodup (l : List Nat) : (uniqueSorted l).Nodup :=
  List.nodup_dedup _

theorem uniqueSorted_sorted (l : List Nat) :
    (uniqueSorted l).Sorted (· ≤ ·) :=
  (List.sorted_insertionSort _ l).sublist (List.dedup_sublist _)

theorem dedup_replicate (n v : Nat) (hn : 1 ≤ n) :
    (List.replicate n v).dedup = [v] := by
  induction n with
  | zero => omega
  | succ m ih =>
    cases Nat.lt_or_ge m 1 with
    | inl h =>
      have hm : m = 0 := by omega
      subst hm
      simp
    | inr h =>
      rw [List.replicate_succ, List.dedup_cons_of_mem (by
        rw [List.mem_replicate]
        omega)]
      exact ih h

theorem uniqueSorted_replicate (n v : Nat) (hn : 1 ≤ n) :
    uniqueSorted (List.replicate n v) = [v] := by
  unfold uniqueSorted
  have hsort : (List.replicate n v).insertionSort (· ≤ ·) = List.replicate n v := by
    rw [List.eq_replicate_iff]
    refine ⟨by rw [List.length_insertionSort, List.length_replicate], ?_⟩
    intro b hb
    exact List.eq_of_mem_replicate ((List.perm_insertionSort _ _).mem_iff.mp hb)
  rw [hsort]
  exact dedup_replicate n v hn

/-- A uniform chunk encodes as the 4-byte block `bitDepth = 0`,
`paletteCount = 1`, and the value as a little-endian u16. -/
theorem encode_gdm_block_uniform (n v cs : Nat) (hn : 1 ≤ n) :
    encode_gdm_block (List.replicate n v) cs = [0, 1, v % 256, v / 256 % 256] := by
  unfold encode_gdm_block
  rw [uniqueSorted_replicate n v hn]
  rfl

/-! ## Shape lemmas for the GDM block decoder -/

theorem decode_gdm_block_len2 (data : List Nat) (pos cs : Nat)
    (h : data.length < pos + 2) : decode_gdm_block data pos cs = none := by
  unfold decode_gdm_block
  rw [if_neg (by omega)]

/-- In-bounds bound for the bitmap reads of a 32×32 chunk. -/
theorem bitmap_read_bound (d : Nat) (hd : 1 ≤ d) :
    ∀ i < 32 * 32, i * d / 8 < d * 128 := by
  intro i hi
  have h1 : i * d ≤ 1023 * d := Nat.mul_le_mul_right d (by omega)
  have h3 : 1023 * d / 8 < d * 128 := by
    rw [Nat.div_lt_iff_lt_mul (by norm_num)]
    have h4 : 1023 * d < 1024 * d := (Nat.mul_lt_mul_right (by omega)).mpr (by norm_num)
    calc 1023 * d < 1024 * d := h4
      _ = d * 128 * 8 := by ring
  have h2 : i * d / 8 ≤ 1023 * d / 8 := Nat.div_le_div_right h1
  omega

/-- Decoding a palette block (`bitDepth ∈ {1,2}`, nonempty palette) laid out
at position 0: pixels are palette lookups of the extracted indices, with 0 for
an out-of-range index. -/
theorem decode_gdm_block_palette (d pc : Nat) (pb bm rest : List Nat)
    (hd1 : 1 ≤ d) (hd2 : d ≤ 2) (hpc : 1 ≤ pc) (hpb : pb.length = 2 * pc)
    (hbm : bm.length = d * 128) :
    decode_gdm_block (d :: pc :: (pb ++ (bm ++ rest))) 0 32
      = some ((List.range 1024).map fun i =>
          (((List.range pc).map fun j =>
              (pb.get? (2 * j)).getD 0 + 256 * ((pb.get? (2 * j + 1)).getD 0)).get?
            (extractBits bm d i)).getD 0,
        2 + 2 * pc + d * 128) := by
  have hlen : (d :: pc :: (pb ++ (bm ++ rest))).length
      = 2 + 2 * pc + d * 128 + rest.length := by
    simp only [List.length_cons, List.length_append, hpb, hbm]
    omega
  have hshape : d :: pc :: (pb ++ (bm ++ rest)) = (d :: pc :: pb) ++ (bm ++ rest) := by
    simp
  have hslice : ((d :: pc :: (pb ++ (bm ++ rest))).drop (0 + 2 + 2 * pc)).take (d * 128)
      = bm := by
    rw [show (0 + 2 + 2 * pc : Nat) = (d :: pc :: pb).length from by
        simp only [List.length_cons, hpb]
        omega,
      hshape, List.drop_left, List.take_left' hbm]
  have hpal : ∀ j < pc,
      ((d :: pc :: (pb ++ (bm ++ rest))).get? (0 + 2 + 2 * j)).getD 0
          + 256 * (((d :: pc :: (pb ++ (bm ++ rest))).get? (0 + 3 + 2 * j)).getD 0)
        = (pb.get? (2 * j)).getD 0 + 256 * ((pb.get? (2 * j + 1)).getD 0) := by
    intro j hj
    rw [show (0 + 2 + 2 * j : Nat) = 2 * j + 1 + 1 from by omega,
      show (0 + 3 + 2 * j : Nat) = 2 * j + 1 + 1 + 1 from by omega,
      List.get?_cons_succ, List.get?_cons_succ, List.get?_cons_succ, List.get?_cons_succ]
    rw [List.get?_append (by omega), List.get?_append (by omega)]
  unfold decode_gdm_block
  simp only [List.get?_cons_zero, List.get?_cons_succ, List.get?_cons_zero,
    Option.getD_some]
  rw [if_pos (by omega), if_pos (show 0 < d from by omega)]
  rw [if_pos (by omega), if_neg (by omega), if_pos (by omega), hslice, hbm]
  rw [if_pos (bitmap_read_bound d hd1)]
  apply congrArg some
  have hplist : ((List.range pc).map fun j =>
      ((d :: pc :: (pb ++ (bm ++ rest))).get? (0 + 2 + 2 * j)).getD 0
        + 256 * (((d :: pc :: (pb ++ (bm ++ rest))).get? (0 + 3 + 2 * j)).getD 0))
      = (List.range pc).map fun j =>
        (pb.get? (2 * j)).getD 0 + 256 * ((pb.get? (2 * j + 1)).getD 0) := by
    apply List.map_congr_left
    intro j hj
    exact hpal j (List.mem_range.mp hj)
  rw [hplist]
  have hne : ((List.range pc).map fun j =>
      (pb.get? (2 * j)).getD 0 + 256 * ((pb.get? (2 * j + 1)).getD 0)) ≠ [] := by
    intro hnil
    have := congrArg List.length hnil
    simp only [List.length_map, List.length_range, List.length_nil] at this
    omega
  refine congrArg (·, 2 + 2 * pc + d * 128) ?_
  apply List.map_congr_left
  intro i _
  rw [if_pos ⟨hd2, hne⟩]

/-- Decoding a raw block (`paletteCount = 0`) laid out at position 0:
pixels are the extracted bit fields themselves. -/
theorem decode_gdm_block_raw (d : Nat) (bm rest : List Nat)
    (hd1 : 1 ≤ d) (hbm : bm.length = d * 128) :
    decode_gdm_block (d :: 0 :: (bm ++ rest)) 0 32
      = some ((List.range 1024).map fun i => extractBits bm d i, 2 + d * 128) := by
  have hlen : (d :: 0 :: (bm ++ rest)).length = 2 + d * 128 + rest.length := by
    simp only [List.length_cons, List.length_append, hbm]
    omega
  have hslice : ((d :: 0 :: (bm ++ rest)).drop (0 + 2 + 2 * 0)).take (d * 128) = bm := by
    rw [show ((d :: 0 :: (bm ++ rest)).drop (0 + 2 + 2 * 0)) = bm ++ rest from rfl,
      List.take_left' hbm]
  unfold decode_gdm_block
  simp only [List.get?_cons_zero, List.get?_cons_succ, Option.getD_some]
  rw [if_pos (by omega), if_pos (show 0 < d from by omega)]
  rw [if_pos (by omega), if_neg (by omega), if_pos (by omega), hslice, hbm]
  rw [if_pos (bitmap_read_bound d hd1)]
  apply congrArg some
  refine congrArg (·, 2 + d * 128) ?_
  apply List.map_congr_left
  intro i _
  rw [if_neg (by
    rintro ⟨-, hne⟩
    exact hne rfl)]

/-- Decoding a uniform block at position 0: every pixel is the palette
entry. -/
theorem decode_gdm_block_uniform (v : Nat) (rest : List Nat) (hv : v < 65536) (cs : Nat) :
    decode_gdm_block (0 :: 1 :: ([v % 256, v / 256 % 256] ++ rest)) 0 cs
      = some (List.replicate (cs * cs) v, 4) := by
  have hv2 : v % 256 + 256 * (v / 256 % 256) = v := by omega
  have hga : (0 :: 1 :: ([v % 256, v / 256 % 256] ++ rest)).get? (0 + 2 + 2 * 0)
      = some (v % 256) := rfl
  have hgb : (0 :: 1 :: ([v % 256, v / 256 % 256] ++ rest)).get? (0 + 3 + 2 * 0)
      = some (v / 256 % 256) := rfl
  unfold decode_gdm_block
  simp only [List.get?_cons_zero, List.get?_cons_succ, Option.getD_some]
  rw [if_pos (by
    simp only [List.length_cons, List.length_append]
    omega), if_pos (by
    simp only [List.length_cons, List.length_append]
    omega)]
  rw [if_pos (by trivial)]
  simp only [show List.range 1 = [0] from rfl, List.map_cons, List.map_nil, hga, hgb,
    List.get?_cons_zero, Option.getD_some, hv2]
  rfl

/-- **C5 counterexample.**  The claim (following the spec) says the count
bytes for the all-zero 256×256 buffer are 257 continuation `0xFF`s plus a
remainder byte `0xFF`.  The encoder actually emits
`⌊65534/255⌋ = 256` continuation `0xFF`s and the remainder `65534 mod 255 =
254 = 0xFE`: the claimed payload has the wrong length (and wrong remainder
byte). -/
theorem grle_allzero_claimed_bytes_wrong :
    encode_grle_rle (List.replicate 65536 0)
      ≠ 0 :: 0 :: 0 :: (List.replicate 257 0xff ++ [0xff]) := by
  rw [encode_allzero]
  intro h
  have hlen := congrArg List.length h
  simp only [List.length_cons, List.length_append, List.length_replicate,
    List.length_nil] at hlen
  omega

/-! ## C3: the decoders panic on truncated input (the claim says they must
return an error instead) -/

/-- **C3.**  The spec says the codec never panics on malformed input, but the
code indexes before checking: an empty (or any < 20 byte) GRLE file panics at
the `data[0..4]` magic slice or the header reads, and a 16-byte GDM file
whose header announces 5 compression ranges panics reading the boundary
bytes (`data[header_size + i]`).  The model returns `.panicked`
(out-of-bounds access) rather than an error on these inputs. -/
theorem codec_panics_on_truncated_input :
    convert_grle_to_png [] = .panicked
      ∧ convert_grle_to_png [71, 82, 76, 69, 1, 0] = .panicked
      ∧ convert_gdm_to_png [34, 77, 68, 70, 0, 0, 0, 0, 0, 5, 2, 8, 5, 0, 0, 0]
          = .panicked :=
  ⟨rfl, rfl, rfl⟩

/-! ## C10: the block decoder is total on invariant-violating blocks -/

/-- **C10.**  On an in-bounds block with `bitDepth ∈ {1, 2}` and a nonempty
palette, a bitmap value that is an out-of-range palette index decodes to the
pixel 0 (`unwrap_or(&0)`); and a block with `bitDepth = 0`,
`paletteCount = 0` decodes to an all-zero chunk (`first().unwrap_or(&0)`).
Neither case is an error: the result is `some`, never `none`. -/
theorem gdm_block_invariant_violations (d pc : Nat) (pb bm rest : List Nat)
    (hd1 : 1 ≤ d) (hd2 : d ≤ 2) (hpc : 1 ≤ pc) (hpb : pb.length = 2 * pc)
    (hbm : bm.length = d * 128) :
    (∃ pixels, decode_gdm_block (d :: pc :: (pb ++ (bm ++ rest))) 0 32
        = some (pixels, 2 + 2 * pc + d * 128)
      ∧ ∀ i < 1024, pc ≤ extractBits bm d i → pixels.get? i = some 0)
    ∧ ∀ junk : List Nat, decode_gdm_block (0 :: 0 :: junk) 0 32
        = some (List.replicate 1024 0, 2) := by
  constructor
  · refine ⟨_, decode_gdm_block_palette d pc pb bm rest hd1 hd2 hpc hpb hbm, ?_⟩
    intro i hi hoob
    rw [List.get?_eq_getElem?, List.getElem?_map, List.getElem?_range hi]
    simp only [Option.map_some']
    have hnone : ((List.range pc).map fun j =>
        (pb.get? (2 * j)).getD 0 + 256 * ((pb.get? (2 * j + 1)).getD 0)).get?
        (extractBits bm d i) = none := by
      rw [List.get?_eq_getElem?, List.getElem?_eq_none]
      rw [List.length_map, List.length_range]
      exact hoob
    rw [hnone]
    rfl
  · intro junk
    unfold decode_gdm_block
    simp only [List.get?_cons_zero, List.get?_cons_succ, Option.getD_some]
    rw [if_pos (by simp), if_pos (by
      simp only [List.length_cons]
      omega)]
    rw [if_pos (by trivial)]
    rfl

set_option maxRecDepth 4000 in
/-- Witness for C10 at a concrete block: depth 1, palette `[7]`, bitmap all
`0xFF` (every extracted index is 1, out of range for the 1-entry palette),
plus the `00 00` block. -/
theorem gdm_block_invariant_violations_witness :
    decode_gdm_block (0 :: 0 :: [9]) 0 32 = some (List.replicate 1024 0, 2)
      ∧ ∃ pixels,
          decode_gdm_block (1 :: 1 :: ([7, 0] ++ (List.replicate 128 255 ++ []))) 0 32
            = some (pixels, 132)
        ∧ pixels.get? 0 = some 0 := by
  have h := gdm_block_invariant_violations 1 1 [7, 0] (List.replicate 128 255) []
    le_rfl (by norm_num) le_rfl (by decide) (by rw [List.length_replicate])
  obtain ⟨⟨pixels, hdec, hoob⟩, hzero⟩ := h
  refine ⟨hzero [9], pixels, ?_, ?_⟩
  · exact (show (2 + 2 * 1 + 1 * 128 : Nat) = 132 from rfl) ▸ hdec
  · refine hoob 0 (by norm_num) ?_
    have h1 : extractBits (List.replicate 128 255) 1 0 = 1 := by decide
    omega

/-! ## Single-chunk encoder runs (for C4 and C7) -/

/-- Gathering the single chunk of a 32×32 image is the identity. -/
theorem gatherChunk_base (values : List Nat) (cs : Nat) (hlen : values.length = cs * cs) :
    gatherChunk values cs cs 0 0 = values := by
  unfold gatherChunk
  apply List.ext_get?
  intro j
  rw [List.get?_eq_getElem?, List.getElem?_map]
  by_cases hj : j < cs * cs
  · rw [List.getElem?_range hj]
    simp only [Option.map_some']
    have hidx : (0 + j / cs) * cs + (0 + j % cs) = j := by
      have h1 := Nat.div_add_mod j cs
      have h2 : j / cs * cs = cs * (j / cs) := Nat.mul_comm _ _
      cases Nat.eq_zero_or_pos cs with
      | inl h0 =>
        subst h0
        simp at hj
      | inr h0 =>
        simp only [Nat.zero_add]
        omega
    rw [hidx]
    have hjv : j < values.length := by omega
    rw [List.get?_eq_getElem?, List.getElem?_eq_getElem hjv]
    simp
  · rw [List.getElem?_eq_none (by rw [List.length_range]; omega),
      List.get?_eq_getElem?, List.getElem?_eq_none (by omega)]
    rfl

/-- A single-chunk (32×32), single-range `convert_png_to_gdm` run on a
grayscale input: header, no boundary bytes, and the one block of the masked
values. -/
theorem convert_png_to_gdm_single (pixels : List Nat) (nc : Nat)
    (hlen : pixels.length = 1024) :
    convert_png_to_gdm .grayscale pixels 32 32 nc none
      = .ok (gdmHeader 0 nc 1
          ++ encode_gdm_block (pixels.map fun v => (v &&& ((1 <<< nc) - 1)) % 65536) 32) := by
  unfold convert_png_to_gdm
  rw [if_neg (fun h => h rfl), if_neg (by
    intro h
    exact h (by rfl))]
  have hcv : channel_values .grayscale pixels 32 32 = some pixels := by
    unfold channel_values
    rw [show (32 * 32 : Nat) = pixels.length from by omega, List.take_length]
  rw [hcv]
  have henc : encodeChunks pixels 32 32 (32 / 32) [nc]
      = encode_gdm_block (pixels.map fun v => ((v >>> 0) &&& ((1 <<< nc) - 1)) % 65536) 32 := by
    unfold encodeChunks
    rw [show (32 / 32 : Nat) = 1 from rfl, show (1 * 1 : Nat) = 1 from rfl,
      show List.range 1 = [0] from rfl]
    simp only [List.flatMap_cons, List.flatMap_nil, List.append_nil]
    simp only [Nat.zero_mod, Nat.zero_div, Nat.zero_mul]
    rw [gatherChunk_base pixels 32 (by omega)]
    show encode_gdm_block _ 32 ++ encodeRanges pixels 32 [] (0 + nc) = _
    rw [show encodeRanges pixels 32 [] (0 + nc) = [] from rfl, List.append_nil]
  dsimp only
  rw [show (trailing_zeros 32 - 5 : Nat) = 0 from rfl]
  rw [List.append_nil, henc]
  simp only [Nat.shiftRight_zero]

/-- **C4 evaluation.**  An 8-bit grayscale input with `numChannels = 16 > 8`
is *accepted* by the encoder: `convert_png_to_gdm` returns a file (the gray
bytes taken as the combined values), not the `BadColorMode` error the spec
requires.  The `_use_rgb` flag computed for exactly this check in the source
is dead. -/
theorem gdm_grayscale_numchannels16_accepted :
    convert_png_to_gdm .grayscale (List.replicate 1024 0) 32 32 16 none
      = .ok [34, 77, 68, 70, 0, 0, 0, 0, 0, 5, 2, 16, 1, 0, 0, 0, 0, 1, 0, 0] := by
  rw [convert_png_to_gdm_single (List.replicate 1024 0) 16 (by rw [List.length_replicate])]
  rw [List.map_replicate, encode_gdm_block_uniform 1024 _ 32 (by norm_num)]
  rfl

/-- **C7.**  A chunk range whose pixel values are all equal encodes as the
4-byte uniform block `00 | 01 | value as LE u16`; in particular the 32×32
single-range file with `numChannels = 4` and every pixel 5 is exactly the
16-byte `"MDF` header followed by `00 01 05 00` — a 20-byte file. -/
theorem gdm_uniform_chunk_encoding (n v cs : Nat) (hn : 1 ≤ n) (hv : v < 65536) :
    encode_gdm_block (List.replicate n v) cs = [0, 1, v % 256, v / 256 % 256]
      ∧ convert_png_to_gdm .grayscale (List.replicate 1024 5) 32 32 4 none
        = .ok [34, 77, 68, 70, 0, 0, 0, 0, 0, 5, 2, 4, 1, 0, 0, 0, 0, 1, 5, 0]
      ∧ [34, 77, 68, 70, 0, 0, 0, 0, 0, 5, 2, 4, 1, 0, 0, 0, 0, 1, 5, 0].length = 20 := by
  refine ⟨encode_gdm_block_uniform n v cs hn, ?_, by rfl⟩
  rw [convert_png_to_gdm_single (List.replicate 1024 5) 4 (by rw [List.length_replicate])]
  rw [List.map_replicate, encode_gdm_block_uniform 1024 _ 32 (by norm_num)]
  rfl

/-- Witness for C7 at `n = 1024`, `v = 7`. -/
theorem gdm_uniform_chunk_encoding_witness :
    encode_gdm_block (List.replicate 1024 7) 32 = [0, 1, 7, 0]
      ∧ convert_png_to_gdm .grayscale (List.replicate 1024 5) 32 32 4 none
        = .ok [34, 77, 68, 70, 0, 0, 0, 0, 0, 5, 2, 4, 1, 0, 0, 0, 0, 1, 5, 0] := by
  have h := gdm_uniform_chunk_encoding 1024 7 32 (by norm_num) (by norm_num)
  exact ⟨h.1, h.2.1⟩

/-! ## Bit-packing arithmetic

The encoder's bitmap writes OR pixel values into a byte array at increasing
bit positions.  We characterise the array after the first `m` writes as the
little-endian byte decomposition `byteListOf N len` of the packed number
`N = Σ vals[i]·2^(i·d)`, and read pixels back off `N`. -/

theorem lor_mul_two_pow (k : Nat) : ∀ a m : Nat, a < 2 ^ k → a ||| m * 2 ^ k = a + m * 2 ^ k := by
  induction k with
  | zero =>
    intro a m ha
    have ha0 : a = 0 := by omega
    subst ha0
    simp
  | succ k ih =>
    intro a m ha
    have hb2 : m * 2 ^ (k + 1) % 2 = 0 := by
      rw [pow_succ, ← Nat.mul_assoc]
      exact Nat.mul_mod_left (m * 2 ^ k) 2
    have hmod : (a ||| m * 2 ^ (k + 1)) % 2 = a % 2 := by
      have h1 := Nat.or_mod_two_eq_one (a := a) (b := m * 2 ^ (k + 1))
      have h2 : (a ||| m * 2 ^ (k + 1)) % 2 < 2 := Nat.mod_lt _ (by norm_num)
      have h3 : a % 2 < 2 := Nat.mod_lt _ (by norm_num)
      omega
    have hdiv : (a ||| m * 2 ^ (k + 1)) / 2 = a / 2 ||| m * 2 ^ k := by
      rw [Nat.or_div_two]
      congr 1
      rw [pow_succ, ← Nat.mul_assoc]
      exact Nat.mul_div_cancel _ (by norm_num)
    have hstep := ih (a / 2) m (by
      rw [pow_succ] at ha
      omega)
    have hx := Nat.div_add_mod (a ||| m * 2 ^ (k + 1)) 2
    have hy := Nat.div_add_mod a 2
    have hz : m * 2 ^ (k + 1) = 2 * (m * 2 ^ k) := by ring
    omega

/-- The little-endian byte decomposition of `N`, `len` bytes long. -/
def byteListOf (N len : Nat) : List Nat :=
  (List.range len).map fun j => N / 2 ^ (8 * j) % 256

theorem byteListOf_length (N len : Nat) : (byteListOf N len).length = len := by
  rw [byteListOf, List.length_map, List.length_range]

theorem byteListOf_get? (N len j : Nat) (hj : j < len) :
    (byteListOf N len).get? j = some (N / 2 ^ (8 * j) % 256) := by
  rw [byteListOf, List.get?_eq_getElem?, List.getElem?_map, List.getElem?_range hj]
  rfl

theorem byteListOf_get?_ge (N len j : Nat) (hj : len ≤ j) :
    (byteListOf N len).get? j = none := by
  rw [List.get?_eq_getElem?, List.getElem?_eq_none]
  rw [byteListOf_length]
  exact hj

/-- Setting an entry to its current value is the identity. -/
theorem set_get_self (l : List Nat) (j : Nat) :
    l.set j ((l.get? j).getD 0) = l := by
  apply List.ext_get?
  intro k
  by_cases hk : k = j
  · subst hk
    rw [List.get?_set_eq]
    cases h : l.get? k with
    | none => rfl
    | some x => rfl
  · rw [List.get?_set_ne _ _ (fun h => hk h.symm)]

/-- Bytes below the write position are unchanged by adding `c·2^(8(j+1))`. -/
theorem byte_low_unchanged (x c j b : Nat) (hj : j + 1 ≤ b) :
    (x + c * 2 ^ (8 * b)) / 2 ^ (8 * j) % 256 = x / 2 ^ (8 * j) % 256 := by
  obtain ⟨e, he⟩ : ∃ e, 8 * b = 8 * j + (8 + e) := ⟨8 * b - 8 * j - 8, by omega⟩
  rw [he, show x + c * 2 ^ (8 * j + (8 + e))
      = x + 2 ^ (8 * j) * (c * 2 ^ e * 256) from by
    rw [pow_add, pow_add, show ((2 : Nat) ^ 8) = 256 from by norm_num]
    ring]
  rw [Nat.add_mul_div_left _ _ (Nat.two_pow_pos (8 * j)),
    Nat.add_mul_mod_self_right]

/-- The low-byte write of the bitmap packer: ORing `(v <<< o) % 256` into
byte `b` of the decomposition of `N` yields byte `b` of `N + v·2^(8b+o)`,
provided the bits of `N` stop below position `8b + o`. -/
theorem byte_update_low (N v b o : Nat) (ho : o ≤ 7) (hN : N < 2 ^ (8 * b + o)) :
    N / 2 ^ (8 * b) % 256 ||| (v <<< o) % 256
      = (N + v * 2 ^ (8 * b + o)) / 2 ^ (8 * b) % 256 := by
  obtain ⟨q, r, hr, rfl⟩ : ∃ q r, r < 2 ^ (8 - o) ∧ v = 2 ^ (8 - o) * q + r :=
    ⟨v / 2 ^ (8 - o), v % 2 ^ (8 - o), Nat.mod_lt _ (Nat.two_pow_pos _),
      (Nat.div_add_mod v (2 ^ (8 - o))).symm⟩
  have h256 : (2 : Nat) ^ (8 - o) * 2 ^ o = 256 := by
    rw [← pow_add, show 8 - o + o = 8 from by omega]
    norm_num
  have hA : N / 2 ^ (8 * b) < 2 ^ o := by
    rw [Nat.div_lt_iff_lt_mul (Nat.two_pow_pos (8 * b))]
    calc N < 2 ^ (8 * b + o) := hN
      _ = 2 ^ o * 2 ^ (8 * b) := by rw [pow_add, Nat.mul_comm]
  have hro : r * 2 ^ o < 256 := by
    have h1 : r * 2 ^ o ≤ (2 ^ (8 - o) - 1) * 2 ^ o := Nat.mul_le_mul_right _ (by omega)
    have h2 := Nat.sub_mul (2 ^ (8 - o)) 1 (2 ^ o)
    have h3 : (1 : Nat) * 2 ^ o = 2 ^ o := Nat.one_mul _
    have h4 : 0 < (2 : Nat) ^ o := Nat.two_pow_pos o
    omega
  have hc : ((2 ^ (8 - o) * q + r) <<< o) % 256 = r * 2 ^ o := by
    rw [Nat.shiftLeft_eq,
      show (2 ^ (8 - o) * q + r) * 2 ^ o = r * 2 ^ o + q * 256 from by
        rw [← h256]
        ring,
      Nat.add_mul_mod_self_right, Nat.mod_eq_of_lt hro]
  have hrhs : (N + (2 ^ (8 - o) * q + r) * 2 ^ (8 * b + o)) / 2 ^ (8 * b)
      = N / 2 ^ (8 * b) + r * 2 ^ o + q * 256 := by
    rw [show N + (2 ^ (8 - o) * q + r) * 2 ^ (8 * b + o)
        = N + 2 ^ (8 * b) * (r * 2 ^ o + q * 256) from by
      rw [pow_add, ← h256]
      ring]
    rw [Nat.add_mul_div_left _ _ (Nat.two_pow_pos (8 * b))]
    ring
  have hAmod : N / 2 ^ (8 * b) % 256 = N / 2 ^ (8 * b) := by
    apply Nat.mod_eq_of_lt
    have h5 : (2 : Nat) ^ o ≤ 2 ^ 7 := Nat.pow_le_pow_right (by norm_num) ho
    have h6 : (2 : Nat) ^ 7 = 128 := by norm_num
    omega
  rw [hc, hAmod, hrhs, Nat.add_mul_mod_self_right,
    Nat.mod_eq_of_lt (show N / 2 ^ (8 * b) + r * 2 ^ o < 256 from by
      have h5 : (2 : Nat) ^ (8 - o) * 2 ^ o - 2 ^ o = (2 ^ (8 - o) - 1) * 2 ^ o := by
        rw [Nat.sub_mul, Nat.one_mul]
      have h6 : r * 2 ^ o ≤ (2 ^ (8 - o) - 1) * 2 ^ o := Nat.mul_le_mul_right _ (by omega)
      have h7 : 0 < (2 : Nat) ^ o := Nat.two_pow_pos o
      omega),
    lor_mul_two_pow o _ _ hA]

/-- The high-byte write of the bitmap packer: ORing `(v >>> (8-o)) % 256`
into byte `b+1` of the decomposition of `N` yields byte `b+1` of
`N + v·2^(8b+o)`. -/
theorem byte_update_high (N v b o : Nat) (ho : o ≤ 7) (hN : N < 2 ^ (8 * b + o)) :
    N / 2 ^ (8 * (b + 1)) % 256 ||| (v >>> (8 - o)) % 256
      = (N + v * 2 ^ (8 * b + o)) / 2 ^ (8 * (b + 1)) % 256 := by
  obtain ⟨q, r, hr, rfl⟩ : ∃ q r, r < 2 ^ (8 - o) ∧ v = 2 ^ (8 - o) * q + r :=
    ⟨v / 2 ^ (8 - o), v % 2 ^ (8 - o), Nat.mod_lt _ (Nat.two_pow_pos _),
      (Nat.div_add_mod v (2 ^ (8 - o))).symm⟩
  have h256 : (2 : Nat) ^ (8 - o) * 2 ^ o = 256 := by
    rw [← pow_add, show 8 - o + o = 8 from by omega]
    norm_num
  have hA : N / 2 ^ (8 * b) < 2 ^ o := by
    rw [Nat.div_lt_iff_lt_mul (Nat.two_pow_pos (8 * b))]
    calc N < 2 ^ (8 * b + o) := hN
      _ = 2 ^ o * 2 ^ (8 * b) := by rw [pow_add, Nat.mul_comm]
  have hNz : N / 2 ^ (8 * (b + 1)) = 0 :=
    Nat.div_eq_of_lt (lt_of_lt_of_le hN (Nat.pow_le_pow_right (by norm_num) (by omega)))
  have hvq : (2 ^ (8 - o) * q + r) >>> (8 - o) = q := by
    rw [Nat.shiftRight_eq_div_pow, Nat.mul_add_div (Nat.two_pow_pos _),
      Nat.div_eq_of_lt hr, Nat.add_zero]
  have hsum : N / 2 ^ (8 * b) + r * 2 ^ o < 256 := by
    have h5 : (2 : Nat) ^ (8 - o) * 2 ^ o - 2 ^ o = (2 ^ (8 - o) - 1) * 2 ^ o := by
      rw [Nat.sub_mul, Nat.one_mul]
    have h6 : r * 2 ^ o ≤ (2 ^ (8 - o) - 1) * 2 ^ o := Nat.mul_le_mul_right _ (by omega)
    have h7 : (2 : Nat) ^ o ≤ 2 ^ 7 := Nat.pow_le_pow_right (by norm_num) ho
    have h8 : 0 < (2 : Nat) ^ o := Nat.two_pow_pos o
    omega
  have hrhs : (N + (2 ^ (8 - o) * q + r) * 2 ^ (8 * b + o)) / 2 ^ (8 * (b + 1)) = q := by
    rw [show 8 * (b + 1) = 8 * b + 8 from by ring,
      show (2 : Nat) ^ (8 * b + 8) = 2 ^ (8 * b) * 2 ^ 8 from pow_add 2 (8 * b) 8,
      ← Nat.div_div_eq_div_mul,
      show N + (2 ^ (8 - o) * q + r) * 2 ^ (8 * b + o)
        = N + 2 ^ (8 * b) * (r * 2 ^ o + q * 256) from by
        rw [pow_add, ← h256]
        ring,
      Nat.add_mul_div_left _ _ (Nat.two_pow_pos (8 * b)),
      show (2 : Nat) ^ 8 = 256 from by norm_num,
      show N / 2 ^ (8 * b) + (r * 2 ^ o + q * 256)
        = N / 2 ^ (8 * b) + r * 2 ^ o + q * 256 from by ring,
      Nat.add_mul_div_right _ _ (show (0 : Nat) < 256 from by norm_num),
      Nat.div_eq_of_lt hsum, Nat.zero_add]
  rw [hNz, hrhs, hvq, Nat.zero_mod, Nat.zero_or]

/-- For bit depths up to 10 every pixel's bit window fits in two bytes:
`i·d mod 8 + d ≤ 16` (for `d = 10` the offsets are always even). -/
theorem off_add_le_16 (d i : Nat) (hd : d ≤ 10) : i * d % 8 + d ≤ 16 := by
  have hm := Nat.mod_lt (i * d) (show 0 < 8 by norm_num)
  rcases Nat.lt_or_ge d 10 with h | h
  · omega
  · have hd10 : d = 10 := by omega
    subst hd10
    have h1 : i * 10 % 8 = 2 * (i * 5 % 4) := by
      rw [show i * 10 = 2 * (i * 5) from by ring, show (8 : Nat) = 2 * 4 from rfl,
        Nat.mul_mod_mul_left]
    have h2 : i * 5 % 4 < 4 := Nat.mod_lt _ (by norm_num)
    omega

/-- For palette depths (`d ≤ 2`) the pixel's bits never straddle a byte
boundary: `i·d mod 8 + d ≤ 8`. -/
theorem off_add_le_8 (d i : Nat) (hd2 : d ≤ 2) : i * d % 8 + d ≤ 8 := by
  have hm := Nat.mod_lt (i * d) (show 0 < 8 by norm_num)
  rcases Nat.lt_or_ge d 2 with h | h
  · omega
  · have hd : d = 2 := by omega
    subst hd
    have h1 : i * 2 % 8 = 2 * (i % 4) := by
      rw [show i * 2 = 2 * i from by ring, show (8 : Nat) = 2 * 4 from rfl,
        Nat.mul_mod_mul_left]
    have h2 : i % 4 < 4 := Nat.mod_lt _ (by norm_num)
    omega

/-- When the packer skips the high-byte write because the bitmap has no next
byte, the pixel's bits in fact fit entirely inside the low byte. -/
theorem off_add_le_8_of_last (d i : Nat) (hi : i < 1024)
    (hb : ¬ i * d / 8 + 1 < d * 128) : i * d % 8 + d ≤ 8 := by
  have hdm := Nat.div_add_mod (i * d) 8
  have hmlt := Nat.mod_lt (i * d) (show 0 < 8 by norm_num)
  have hmul : (i + 1) * d ≤ 1024 * d := Nat.mul_le_mul_right d (by omega)
  have he1 : (i + 1) * d = i * d + d := by ring
  have he2 : 1024 * d = 8 * (d * 128) := by ring
  omega

/-- One raw bitmap write: on the byte decomposition of a packed number `N`
whose bits stop below position `i·d`, writing a value `v < 2^d` for pixel `i`
produces the decomposition of `N + v·2^(i·d)` — as long as the value's window
`i·d mod 8 + d` does not exceed the 16 bits the packer can reach. -/
theorem writeRawByte_step (d i v N : Nat) (hd : 1 ≤ d) (hd10 : d ≤ 10)
    (hi : i < 1024) (hv : v < 2 ^ d) (hN : N < 2 ^ (i * d)) :
    writeRawByte (byteListOf N (d * 128)) d i v
      = byteListOf (N + v * 2 ^ (i * d)) (d * 128) := by
  simp only [writeRawByte]
  obtain ⟨b, o, hb, ho⟩ : ∃ b o, i * d / 8 = b ∧ i * d % 8 = o := ⟨_, _, rfl, rfl⟩
  rw [hb, ho]
  have hbo : i * d = 8 * b + o := by
    rw [← hb, ← ho]
    exact (Nat.div_add_mod (i * d) 8).symm
  have ho7 : o ≤ 7 := by
    rw [← ho]
    have := Nat.mod_lt (i * d) (show 0 < 8 by norm_num)
    omega
  have hblt : b < d * 128 := by
    rw [← hb]
    exact bitmap_read_bound d hd i (by omega)
  have hNo : N < 2 ^ (8 * b + o) := by
    rw [← hbo]
    exact hN
  have hN2 : N + v * 2 ^ (i * d) = N + v * 2 ^ (8 * b + o) := by rw [hbo]
  have hod16 : o + d ≤ 16 := by
    have := off_add_le_16 d i hd10
    omega
  have hN'lt : N + v * 2 ^ (8 * b + o) < 2 ^ (8 * b + o) * 2 ^ d := by
    calc N + v * 2 ^ (8 * b + o) < 2 ^ (8 * b + o) + v * 2 ^ (8 * b + o) := by omega
      _ = 2 ^ (8 * b + o) * (1 + v) := by ring
      _ ≤ 2 ^ (8 * b + o) * 2 ^ d := Nat.mul_le_mul_left _ (by omega)
  rw [hN2, byteListOf_get? N (d * 128) b hblt]
  simp only [Option.getD_some]
  rw [byte_update_low N v b o ho7 hNo]
  simp only [List.length_set, byteListOf_length]
  by_cases hc : b + 1 < d * 128
  · rw [if_pos hc,
      List.get?_set_ne _ _ (show b ≠ b + 1 from by omega),
      byteListOf_get? N (d * 128) (b + 1) hc]
    simp only [Option.getD_some]
    rw [byte_update_high N v b o ho7 hNo]
    apply List.ext_get?
    intro k
    by_cases hk2 : k = b + 1
    · subst hk2
      rw [List.get?_set_eq, List.get?_set_ne _ _ (show b ≠ b + 1 from by omega),
        byteListOf_get? N (d * 128) (b + 1) hc,
        byteListOf_get? _ (d * 128) (b + 1) hc]
      rfl
    · rw [List.get?_set_ne _ _ (fun h => hk2 h.symm)]
      by_cases hk1 : k = b
      · subst hk1
        rw [List.get?_set_eq, byteListOf_get? N (d * 128) k hblt,
          byteListOf_get? _ (d * 128) k hblt]
        rfl
      · rw [List.get?_set_ne _ _ (fun h => hk1 h.symm)]
        by_cases hkL : k < d * 128
        · rw [byteListOf_get? N (d * 128) k hkL, byteListOf_get? _ (d * 128) k hkL]
          rcases Nat.lt_or_ge k b with hkb | hkb
          · rw [show N + v * 2 ^ (8 * b + o) = N + v * 2 ^ o * 2 ^ (8 * b) from by
              rw [pow_add]
              ring]
            rw [byte_low_unchanged N (v * 2 ^ o) k b (by omega)]
          · have hkb2 : b + 2 ≤ k := by omega
            have hz1 : N / 2 ^ (8 * k) = 0 :=
              Nat.div_eq_of_lt (lt_of_lt_of_le hNo
                (Nat.pow_le_pow_right (by norm_num) (by omega)))
            have hz2 : (N + v * 2 ^ (8 * b + o)) / 2 ^ (8 * k) = 0 := by
              apply Nat.div_eq_of_lt
              calc N + v * 2 ^ (8 * b + o) < 2 ^ (8 * b + o) * 2 ^ d := hN'lt
                _ = 2 ^ (8 * b + o + d) := by rw [← pow_add]
                _ ≤ 2 ^ (8 * k) := Nat.pow_le_pow_right (by norm_num) (by omega)
            rw [hz1, hz2]
        · rw [byteListOf_get?_ge N (d * 128) k (by omega),
            byteListOf_get?_ge _ (d * 128) k (by omega)]
  · rw [if_neg hc]
    have hod8 : o + d ≤ 8 := by
      have := off_add_le_8_of_last d i hi (by rw [hb]; exact hc)
      omega
    apply List.ext_get?
    intro k
    by_cases hk1 : k = b
    · subst hk1
      rw [List.get?_set_eq, byteListOf_get? N (d * 128) k hblt,
        byteListOf_get? _ (d * 128) k hblt]
      rfl
    · rw [List.get?_set_ne _ _ (fun h => hk1 h.symm)]
      by_cases hkL : k < d * 128
      · have hkb : k < b := by omega
        rw [byteListOf_get? N (d * 128) k hkL, byteListOf_get? _ (d * 128) k hkL,
          show N + v * 2 ^ (8 * b + o) = N + v * 2 ^ o * 2 ^ (8 * b) from by
            rw [pow_add]
            ring,
          byte_low_unchanged N (v * 2 ^ o) k b (by omega)]
      · rw [byteListOf_get?_ge N (d * 128) k (by omega),
          byteListOf_get?_ge _ (d * 128) k (by omega)]

/-- The number packed from a value list at base pixel `m`:
`packFrom d m [v₀, v₁, …] = v₀·2^(m·d) + v₁·2^((m+1)·d) + ⋯`. -/
def packFrom (d : Nat) : Nat → List Nat → Nat
  | _, [] => 0
  | m, v :: vs => v * 2 ^ (m * d) + packFrom d (m + 1) vs

theorem packFrom_dvd (d : Nat) : ∀ (vs : List Nat) (m : Nat),
    2 ^ (m * d) ∣ packFrom d m vs
  | [], m => by
    simp [packFrom]
  | v :: vs, m => by
    rw [packFrom]
    exact Nat.dvd_add (dvd_mul_left _ v)
      (dvd_trans (pow_dvd_pow 2 (Nat.mul_le_mul_right d (by omega)))
        (packFrom_dvd d vs (m + 1)))

theorem packFrom_add_le (d : Nat) : ∀ (vs : List Nat) (m : Nat),
    (∀ v ∈ vs, v < 2 ^ d) →
    packFrom d m vs + 2 ^ (m * d) ≤ 2 ^ ((m + vs.length) * d)
  | [], m, _ => by
    rw [packFrom]
    simp
  | v :: vs, m, hv => by
    rw [packFrom]
    have ih := packFrom_add_le d vs (m + 1) fun x hx => hv x (List.mem_cons_of_mem v hx)
    have h1 : (v + 1) * 2 ^ (m * d) ≤ 2 ^ d * 2 ^ (m * d) :=
      Nat.mul_le_mul_right _ (hv v (List.mem_cons_self v vs))
    have h2 : (2 : Nat) ^ d * 2 ^ (m * d) = 2 ^ ((m + 1) * d) := by
      rw [← pow_add]
      congr 1
      ring
    have h3 : ((m + 1) + vs.length) * d = (m + (v :: vs).length) * d := by
      simp only [List.length_cons]
      ring
    rw [← h3]
    have h4 : (v + 1) * 2 ^ (m * d) = v * 2 ^ (m * d) + 2 ^ (m * d) := by ring
    omega

theorem packFrom_lt (d : Nat) (vs : List Nat) (m : Nat) (hv : ∀ v ∈ vs, v < 2 ^ d)
    (hN : 0 < 2 ^ (m * d)) : packFrom d m vs < 2 ^ ((m + vs.length) * d) := by
  have := packFrom_add_le d vs m hv
  omega

/-- Reading value `i` back off the packed number. -/
theorem packFrom_get (d : Nat) : ∀ (vs : List Nat) (m i v : Nat),
    (∀ x ∈ vs, x < 2 ^ d) → vs.get? i = some v →
    packFrom d m vs / 2 ^ ((m + i) * d) % 2 ^ d = v
  | [], _, i, _, _, h => by simp at h
  | x :: vs, m, 0, v, hx, h => by
    rw [List.get?_cons_zero, Option.some.injEq] at h
    subst h
    obtain ⟨Q, hQ⟩ := packFrom_dvd d vs (m + 1)
    rw [Nat.add_zero, packFrom, hQ,
      show x * 2 ^ (m * d) + 2 ^ ((m + 1) * d) * Q = (x + 2 ^ d * Q) * 2 ^ (m * d) from by
        rw [show ((m + 1) * d) = d + m * d from by ring, pow_add]
        ring,
      Nat.mul_div_cancel _ (Nat.two_pow_pos (m * d)),
      Nat.add_mul_mod_self_left,
      Nat.mod_eq_of_lt (hx x (List.mem_cons_self x vs))]
  | x :: vs, m, i + 1, v, hx, h => by
    rw [List.get?_cons_succ] at h
    have ih := packFrom_get d vs (m + 1) i v
      (fun y hy => hx y (List.mem_cons_of_mem x hy)) h
    obtain ⟨Q, hQ⟩ := packFrom_dvd d vs (m + 1)
    have hxz : x / 2 ^ d = 0 := Nat.div_eq_of_lt (hx x (List.mem_cons_self x vs))
    have hiq : packFrom d (m + 1) vs / 2 ^ ((m + 1 + i) * d) = Q / 2 ^ (i * d) := by
      rw [hQ, show ((m + 1 + i) * d) = (m + 1) * d + i * d from by ring, pow_add,
        ← Nat.div_div_eq_div_mul, Nat.mul_div_cancel_left _ (Nat.two_pow_pos _)]
    have hlq : packFrom d m (x :: vs) / 2 ^ ((m + (i + 1)) * d) = Q / 2 ^ (i * d) := by
      rw [packFrom, hQ,
        show x * 2 ^ (m * d) + 2 ^ ((m + 1) * d) * Q = (x + 2 ^ d * Q) * 2 ^ (m * d) from by
          rw [show ((m + 1) * d) = d + m * d from by ring, pow_add]
          ring,
        show ((m + (i + 1)) * d) = (d + i * d) + m * d from by ring, pow_add,
        Nat.mul_div_mul_right _ _ (Nat.two_pow_pos (m * d)),
        pow_add, ← Nat.div_div_eq_div_mul,
        Nat.add_mul_div_left _ _ (Nat.two_pow_pos d), hxz, Nat.zero_add]
    rw [hlq, ← hiq, ih]

/-- The all-zero bitmap is the decomposition of 0. -/
theorem byteListOf_zero (len : Nat) : byteListOf 0 len = List.replicate len 0 := by
  unfold byteListOf
  rw [List.eq_replicate_iff]
  refine ⟨by rw [List.length_map, List.length_range], ?_⟩
  intro b hb
  obtain ⟨j, hj, rfl⟩ := List.mem_map.mp hb
  simp

/-- The raw-bitmap packing loop, starting at pixel `m` on the decomposition
of `N`, produces the decomposition of `N + packFrom d m vs`. -/
theorem foldl_writeRawByte (d : Nat) (hd : 1 ≤ d) (hd10 : d ≤ 10) :
    ∀ (vs : List Nat) (m N : Nat), (∀ v ∈ vs, v < 2 ^ d) → m + vs.length ≤ 1024 →
      N < 2 ^ (m * d) →
      (List.enumFrom m vs).foldl (fun bm pa => writeRawByte bm d pa.1 pa.2)
          (byteListOf N (d * 128))
        = byteListOf (N + packFrom d m vs) (d * 128)
  | [], m, N, _, _, _ => by
    simp [packFrom]
  | v :: vs, m, N, hv, hm, hN => by
    rw [List.enumFrom_cons, List.foldl_cons]
    have hstep : writeRawByte (byteListOf N (d * 128)) d m v
        = byteListOf (N + v * 2 ^ (m * d)) (d * 128) := by
      exact writeRawByte_step d m v N hd hd10 (by
        have := List.length_cons v vs
        omega) (hv v (List.mem_cons_self v vs)) hN
    have hN' : N + v * 2 ^ (m * d) < 2 ^ ((m + 1) * d) := by
      have h1 : (v + 1) * 2 ^ (m * d) ≤ 2 ^ d * 2 ^ (m * d) :=
        Nat.mul_le_mul_right _ (hv v (List.mem_cons_self v vs))
      have h2 : (2 : Nat) ^ d * 2 ^ (m * d) = 2 ^ ((m + 1) * d) := by
        rw [← pow_add]
        congr 1
        ring
      have h3 : (v + 1) * 2 ^ (m * d) = v * 2 ^ (m * d) + 2 ^ (m * d) := by ring
      omega
    rw [hstep, foldl_writeRawByte d hd hd10 vs (m + 1) (N + v * 2 ^ (m * d))
      (fun x hx => hv x (List.mem_cons_of_mem v hx)) (by
        have := List.length_cons v vs
        omega) hN']
    rw [packFrom]
    ring_nf

/-- Reading a pixel out of the decomposition of a packed number: the
`extractBits` window of pixel `i` is `N / 2^(i·d) mod 2^d`. -/
theorem extractBits_byteListOf (N d i : Nat) (hd : 1 ≤ d) (hd10 : d ≤ 10)
    (hi : i < 1024) :
    extractBits (byteListOf N (d * 128)) d i = N / 2 ^ (i * d) % 2 ^ d := by
  simp only [extractBits]
  obtain ⟨b, o, hb, ho⟩ : ∃ b o, i * d / 8 = b ∧ i * d % 8 = o := ⟨_, _, rfl, rfl⟩
  rw [hb, ho]
  have hbo : i * d = 8 * b + o := by
    rw [← hb, ← ho]
    exact (Nat.div_add_mod (i * d) 8).symm
  have ho7 : o ≤ 7 := by
    rw [← ho]
    have := Nat.mod_lt (i * d) (show 0 < 8 by norm_num)
    omega
  have hblt : b < d * 128 := by
    rw [← hb]
    exact bitmap_read_bound d hd i (by omega)
  have hdiv : N / 2 ^ (8 * b) / 2 ^ o = N / 2 ^ (i * d) := by
    rw [Nat.div_div_eq_div_mul, ← pow_add, hbo]
  rw [byteListOf_length, byteListOf_get? N (d * 128) b hblt]
  simp only [Option.getD_some]
  by_cases hc : b + 1 < d * 128
  · have hod16 : o + d ≤ 16 := by
      have := off_add_le_16 d i hd10
      omega
    rw [if_pos hc, byteListOf_get? N (d * 128) (b + 1) hc]
    simp only [Option.getD_some]
    have hx : N / 2 ^ (8 * b) % 256 + 256 * (N / 2 ^ (8 * (b + 1)) % 256)
        = N / 2 ^ (8 * b) % 65536 := by
      rw [show 8 * (b + 1) = 8 * b + 8 from by ring,
        show (2 : Nat) ^ (8 * b + 8) = 2 ^ (8 * b) * 2 ^ 8 from pow_add 2 (8 * b) 8,
        ← Nat.div_div_eq_div_mul,
        show (65536 : Nat) = 256 * 256 from by norm_num, Nat.mod_mul,
        show (2 : Nat) ^ 8 = 256 from by norm_num]
    rw [hx, Nat.shiftRight_eq_div_pow, Nat.and_pow_two_sub_one_eq_mod,
      show (65536 : Nat) = 2 ^ o * 2 ^ (16 - o) from by
        rw [← pow_add, show o + (16 - o) = 16 from by omega]
        norm_num,
      Nat.mod_mul_right_div_self, hdiv,
      Nat.mod_mod_of_dvd _ (pow_dvd_pow 2 (by omega))]
  · have hod8 : o + d ≤ 8 := by
      have := off_add_le_8_of_last d i hi (by rw [hb]; exact hc)
      omega
    rw [if_neg hc, Nat.add_zero, Nat.shiftRight_eq_div_pow,
      Nat.and_pow_two_sub_one_eq_mod,
      show (256 : Nat) = 2 ^ o * 2 ^ (8 - o) from by
        rw [← pow_add, show o + (8 - o) = 8 from by omega]
        norm_num,
      Nat.mod_mul_right_div_self, hdiv,
      Nat.mod_mod_of_dvd _ (pow_dvd_pow 2 (by omega))]

/-! ## The three branches of `encode_gdm_block` round-trip through
`decode_gdm_block` -/

/-- In a `≤`-sorted list every element is bounded by the last one. -/
theorem sorted_le_getLast : ∀ (l : List Nat), l.Sorted (· ≤ ·) →
    ∀ v ∈ l, v ≤ l.getLast?.getD 0
  | [], _, v, hv => absurd hv (List.not_mem_nil v)
  | [a], _, v, hv => by
    rw [List.mem_singleton] at hv
    subst hv
    rfl
  | a :: b :: l, hs, v, hv => by
    rw [List.sorted_cons] at hs
    rw [List.getLast?_cons_cons]
    rcases List.mem_cons.mp hv with rfl | hv2
    · exact le_trans (hs.1 b (List.mem_cons_self b l))
        (sorted_le_getLast (b :: l) hs.2 b (List.mem_cons_self b l))
    · exact sorted_le_getLast (b :: l) hs.2 v hv2

theorem length_flatMap_u16le (l : List Nat) : (l.flatMap u16le).length = 2 * l.length := by
  induction l with
  | nil => rfl
  | cons v l ih =>
    rw [List.flatMap_cons, List.length_append, ih]
    simp [u16le]
    ring

theorem flatMap_u16le_get? : ∀ (l : List Nat) (j : Nat), j < l.length →
    (l.flatMap u16le).get? (2 * j) = some (((l.get? j).getD 0) % 256) ∧
    (l.flatMap u16le).get? (2 * j + 1) = some (((l.get? j).getD 0) / 256 % 256)
  | [], j, hj => by simp at hj
  | v :: l, 0, _ => by
    constructor <;> rfl
  | v :: l, j + 1, hj => by
    have ih := flatMap_u16le_get? l j (by
      rw [List.length_cons] at hj
      omega)
    rw [show (v :: l).flatMap u16le = v % 256 :: v / 256 % 256 :: l.flatMap u16le from rfl,
      show 2 * (j + 1) = 2 * j + 1 + 1 from by ring]
    rw [List.get?_cons_succ, List.get?_cons_succ, List.get?_cons_succ, List.get?_cons_succ,
      List.get?_cons_succ]
    exact ih

/-- For palette depths the index write coincides with the raw write: the
cross-byte branch never fires, and the raw high-byte write ORs a zero. -/
theorem writeIdxByte_eq_writeRawByte (bm : List Nat) (d i idx : Nat)
    (hd2 : d ≤ 2) (hidx : idx < 2 ^ d) :
    writeIdxByte bm d i idx = writeRawByte bm d i idx := by
  have ho8 : i * d % 8 + d ≤ 8 := off_add_le_8 d i hd2
  have hlt : idx < 256 := by
    have h1 : (2 : Nat) ^ d ≤ 2 ^ 2 := Nat.pow_le_pow_right (by norm_num) hd2
    have h2 : (2 : Nat) ^ 2 = 4 := by norm_num
    omega
  have hmod : idx % 256 = idx := Nat.mod_eq_of_lt hlt
  have hz : idx >>> (8 - i * d % 8) = 0 := by
    rw [Nat.shiftRight_eq_div_pow]
    apply Nat.div_eq_of_lt
    calc idx < 2 ^ d := hidx
      _ ≤ 2 ^ (8 - i * d % 8) := Nat.pow_le_pow_right (by norm_num) (by omega)
  simp only [writeIdxByte, writeRawByte, hmod]
  rw [if_neg (by
    rintro ⟨h8, -⟩
    omega)]
  rw [hz]
  generalize bm.set (i * d / 8) ((bm.get? (i * d / 8)).getD 0 ||| idx <<< (i * d % 8) % 256)
    = bm1
  by_cases hc : i * d / 8 + 1 < bm1.length
  · rw [if_pos hc, show (0 : Nat) % 256 = 0 from rfl, Nat.or_zero, set_get_self]
  · rw [if_neg hc]

/-- A list is the range-indexed map of its own entries. -/
theorem map_range_get? (l : List Nat) :
    (List.range l.length).map (fun i => (l.get? i).getD 0) = l := by
  apply List.ext_get?
  intro k
  rw [List.get?_eq_getElem?, List.getElem?_map]
  by_cases hk : k < l.length
  · rw [List.getElem?_range hk]
    simp only [Option.map_some']
    rw [List.get?_eq_getElem?, List.getElem?_eq_getElem hk]
    rfl
  · rw [List.getElem?_eq_none (by rw [List.length_range]; omega),
      List.get?_eq_getElem?, List.getElem?_eq_none (by omega)]
    rfl

/-- A chunk with one distinct value round-trips through its uniform block. -/
theorem block_roundtrip_uniform (vs : List Nat) (u0 : Nat) (suffix : List Nat)
    (hlen : vs.length = 1024) (hu : uniqueSorted vs = [u0]) (hv : u0 < 65536) :
    decode_gdm_block (encode_gdm_block vs 32 ++ suffix) 0 32
      = some (vs, (encode_gdm_block vs 32).length) := by
  have hrep : vs = List.replicate 1024 u0 := by
    rw [List.eq_replicate_iff]
    refine ⟨hlen, fun x hx => ?_⟩
    have hm := (mem_uniqueSorted x vs).mpr hx
    rw [hu, List.mem_singleton] at hm
    exact hm
  have henc : encode_gdm_block vs 32 = [0, 1, u0 % 256, u0 / 256 % 256] := by
    simp only [encode_gdm_block]
    rw [hu]
    rfl
  rw [henc,
    show ([0, 1, u0 % 256, u0 / 256 % 256] : List Nat) ++ suffix
      = 0 :: 1 :: ([u0 % 256, u0 / 256 % 256] ++ suffix) from rfl,
    decode_gdm_block_uniform u0 suffix hv 32,
    show (32 * 32 : Nat) = 1024 from rfl, ← hrep]
  rfl

/-- The palette-index packing loop coincides with the raw packing loop run on
the list of indices. -/
theorem foldl_writeIdx_as_raw (d : Nat) (u : List Nat) :
    ∀ (l : List Nat) (m : Nat) (bm : List Nat), d ≤ 2 →
      (∀ x ∈ l, List.indexOf x u < 2 ^ d) →
      (List.enumFrom m l).foldl (fun b pa => writeIdxByte b d pa.1 (List.indexOf pa.2 u)) bm
        = (List.enumFrom m (l.map fun x => List.indexOf x u)).foldl
            (fun b pa => writeRawByte b d pa.1 pa.2) bm
  | [], _, _, _, _ => rfl
  | x :: l, m, bm, hd2, hg => by
    rw [List.map_cons, List.enumFrom_cons, List.enumFrom_cons, List.foldl_cons,
      List.foldl_cons]
    rw [show writeIdxByte bm d m (List.indexOf x u) = writeRawByte bm d m (List.indexOf x u)
      from writeIdxByte_eq_writeRawByte bm d m (List.indexOf x u) hd2
        (hg x (List.mem_cons_self x l))]
    exact foldl_writeIdx_as_raw d u l (m + 1) _ hd2
      (fun y hy => hg y (List.mem_cons_of_mem x hy))

/-- A chunk with 2–4 distinct values round-trips through its palette block. -/
theorem block_roundtrip_palette (vs : List Nat) (suffix : List Nat)
    (hlen : vs.length = 1024) (hv16 : ∀ v ∈ vs, v < 65536)
    (h2 : 2 ≤ (uniqueSorted vs).length) (h4 : (uniqueSorted vs).length ≤ 4) :
    decode_gdm_block (encode_gdm_block vs 32 ++ suffix) 0 32
      = some (vs, (encode_gdm_block vs 32).length) := by
  obtain ⟨d, hd_def, hd1, hd2, hpcd⟩ :
      ∃ d, (if (uniqueSorted vs).length ≤ 2 then 1 else 2) = d
        ∧ 1 ≤ d ∧ d ≤ 2 ∧ (uniqueSorted vs).length ≤ 2 ^ d := by
    by_cases hpc2 : (uniqueSorted vs).length ≤ 2
    · exact ⟨1, if_pos hpc2, le_rfl, by norm_num, by simpa using hpc2⟩
    · exact ⟨2, if_neg hpc2, by norm_num, le_rfl, by simpa using h4⟩
  have hidx : ∀ x ∈ vs, List.indexOf x (uniqueSorted vs) < 2 ^ d := fun x hx =>
    lt_of_lt_of_le (List.indexOf_lt_length.mpr ((mem_uniqueSorted x vs).mpr hx)) hpcd
  have henc : encode_gdm_block vs 32
      = d :: (uniqueSorted vs).length ::
          ((uniqueSorted vs).flatMap u16le ++
            byteListOf (packFrom d 0 (vs.map fun x => List.indexOf x (uniqueSorted vs)))
              (d * 128)) := by
    simp only [encode_gdm_block]
    rw [if_neg (by omega), if_pos h4, hd_def,
      show (32 * 32 : Nat) = vs.length from by rw [hlen], List.take_length,
      List.enum_eq_enumFrom, ← byteListOf_zero,
      foldl_writeIdx_as_raw d (uniqueSorted vs) vs 0 _ hd2 hidx,
      foldl_writeRawByte d hd1 (by omega)
        (vs.map fun x => List.indexOf x (uniqueSorted vs)) 0 0
        (fun y hy => by
          obtain ⟨x, hx, rfl⟩ := List.mem_map.mp hy
          exact hidx x hx)
        (by rw [List.length_map, hlen]) (Nat.two_pow_pos (0 * d)),
      Nat.zero_add]
  have hbm : (byteListOf (packFrom d 0 (vs.map fun x => List.indexOf x (uniqueSorted vs)))
      (d * 128)).length = d * 128 := byteListOf_length _ _
  have hpb : ((uniqueSorted vs).flatMap u16le).length = 2 * (uniqueSorted vs).length :=
    length_flatMap_u16le _
  rw [henc,
    show (d :: (uniqueSorted vs).length ::
        ((uniqueSorted vs).flatMap u16le ++
          byteListOf (packFrom d 0 (vs.map fun x => List.indexOf x (uniqueSorted vs)))
            (d * 128))) ++ suffix
      = d :: (uniqueSorted vs).length ::
        ((uniqueSorted vs).flatMap u16le ++
          (byteListOf (packFrom d 0 (vs.map fun x => List.indexOf x (uniqueSorted vs)))
            (d * 128) ++ suffix)) from by simp,
    decode_gdm_block_palette d (uniqueSorted vs).length _ _ suffix hd1 hd2 (by omega)
      hpb hbm]
  have hpal : ((List.range (uniqueSorted vs).length).map fun j =>
      (((uniqueSorted vs).flatMap u16le).get? (2 * j)).getD 0
        + 256 * ((((uniqueSorted vs).flatMap u16le).get? (2 * j + 1)).getD 0))
      = uniqueSorted vs := by
    apply List.ext_get?
    intro k
    rw [List.get?_eq_getElem?, List.getElem?_map]
    by_cases hk : k < (uniqueSorted vs).length
    · rw [List.getElem?_range hk]
      simp only [Option.map_some']
      obtain ⟨heven, hodd⟩ := flatMap_u16le_get? (uniqueSorted vs) k hk
      rw [heven, hodd]
      simp only [Option.getD_some]
      obtain ⟨y, hy⟩ : ∃ y, (uniqueSorted vs).get? k = some y := by
        rw [List.get?_eq_getElem?, List.getElem?_eq_getElem hk]
        exact ⟨_, rfl⟩
      have hy16 : y < 65536 :=
        hv16 y ((mem_uniqueSorted y vs).mp (List.get?_mem hy))
      rw [hy]
      simp only [Option.getD_some]
      congr 1
      omega
    · rw [List.getElem?_eq_none (by rw [List.length_range]; omega),
        List.get?_eq_getElem?, List.getElem?_eq_none (by omega)]
      rfl
  rw [hpal]
  have hpix : ((List.range 1024).map fun i =>
      ((uniqueSorted vs).get?
        (extractBits
          (byteListOf (packFrom d 0 (vs.map fun x => List.indexOf x (uniqueSorted vs)))
            (d * 128)) d i)).getD 0)
      = vs := by
    have hmapc : ∀ i ∈ List.range 1024,
        (((uniqueSorted vs).get?
          (extractBits
            (byteListOf (packFrom d 0 (vs.map fun x => List.indexOf x (uniqueSorted vs)))
              (d * 128)) d i)).getD 0)
          = (vs.get? i).getD 0 := by
      intro i hi
      have hilt : i < 1024 := List.mem_range.mp hi
      obtain ⟨x, hx⟩ : ∃ x, vs.get? i = some x := by
        rw [List.get?_eq_getElem?, List.getElem?_eq_getElem (by omega)]
        exact ⟨_, rfl⟩
      have hext : extractBits
          (byteListOf (packFrom d 0 (vs.map fun x => List.indexOf x (uniqueSorted vs)))
            (d * 128)) d i = List.indexOf x (uniqueSorted vs) := by
        rw [extractBits_byteListOf _ d i hd1 (by omega) hilt,
          show i * d = (0 + i) * d from by ring,
          packFrom_get d (vs.map fun x => List.indexOf x (uniqueSorted vs)) 0 i
            (List.indexOf x (uniqueSorted vs))
            (fun y hy => by
              obtain ⟨z, hz, rfl⟩ := List.mem_map.mp hy
              exact hidx z hz)
            (by rw [List.get?_map, hx]; rfl)]
      rw [hext, hx, Option.getD_some]
      have hxmem : x ∈ uniqueSorted vs := (mem_uniqueSorted x vs).mpr (List.get?_mem hx)
      rw [List.get?_eq_getElem?,
        List.getElem?_eq_getElem (List.indexOf_lt_length.mpr hxmem)]
      rw [List.getElem_indexOf]
      rfl
    rw [List.map_congr_left hmapc, ← hlen, map_range_get?]
  rw [hpix]
  have hlen2 : (d :: (uniqueSorted vs).length ::
      ((uniqueSorted vs).flatMap u16le ++
        byteListOf (packFrom d 0 (vs.map fun x => List.indexOf x (uniqueSorted vs)))
          (d * 128))).length = 2 + 2 * (uniqueSorted vs).length + d * 128 := by
    simp only [List.length_cons, List.length_append, hpb, hbm]
    ring
  rw [hlen2]

/-- A chunk with at least 5 distinct values round-trips through its raw
block, as long as the value range needs at most 10 bits. -/
theorem block_roundtrip_raw (vs : List Nat) (suffix : List Nat) (b : Nat)
    (hlen : vs.length = 1024) (hb1 : 1 ≤ b) (hb10 : b ≤ 10)
    (hvals : ∀ v ∈ vs, v < 2 ^ b) (h5 : 5 ≤ (uniqueSorted vs).length) :
    decode_gdm_block (encode_gdm_block vs 32 ++ suffix) 0 32
      = some (vs, (encode_gdm_block vs 32).length) := by
  have hne : uniqueSorted vs ≠ [] := by
    intro h
    rw [h] at h5
    simp at h5
  obtain ⟨mv, hmv⟩ : ∃ mv, ((uniqueSorted vs).getLast?).getD 0 = mv := ⟨_, rfl⟩
  have hmv_mem : mv ∈ vs := by
    apply (mem_uniqueSorted mv vs).mp
    rw [← hmv, List.getLast?_eq_getLast _ hne, Option.getD_some]
    exact List.getLast_mem hne
  obtain ⟨d, hd_def⟩ : ∃ d, max (if mv = 0 then 0 else Nat.log2 mv + 1) 1 = d := ⟨_, rfl⟩
  have hd1 : 1 ≤ d := by
    rw [← hd_def]
    exact Nat.le_max_right _ _
  have hmvd : mv < 2 ^ d := by
    by_cases h0 : mv = 0
    · subst h0
      exact Nat.two_pow_pos d
    · have h1 : mv < 2 ^ (Nat.log2 mv + 1) := (Nat.log2_lt h0).mp (by omega)
      apply lt_of_lt_of_le h1
      apply Nat.pow_le_pow_right (by norm_num)
      rw [← hd_def, if_neg h0]
      exact Nat.le_max_left _ _
  have hd10 : d ≤ 10 := by
    rw [← hd_def]
    by_cases h0 : mv = 0
    · rw [if_pos h0]
      omega
    · rw [if_neg h0]
      have h1 : Nat.log2 mv < b := (Nat.log2_lt h0).mpr (hvals mv hmv_mem)
      omega
  have hvd : ∀ v ∈ vs, v < 2 ^ d := by
    intro v hv
    have h1 : v ≤ mv := by
      rw [← hmv]
      exact sorted_le_getLast (uniqueSorted vs) (uniqueSorted_sorted vs) v
        ((mem_uniqueSorted v vs).mpr hv)
    omega
  have henc : encode_gdm_block vs 32
      = d :: 0 :: byteListOf (packFrom d 0 vs) (d * 128) := by
    simp only [encode_gdm_block]
    rw [if_neg (by omega), if_neg (by omega), hmv, hd_def,
      show (32 * 32 : Nat) = vs.length from by rw [hlen], List.take_length,
      List.enum_eq_enumFrom, ← byteListOf_zero,
      foldl_writeRawByte d hd1 hd10 vs 0 0 hvd (by rw [hlen]) (Nat.two_pow_pos (0 * d)),
      Nat.zero_add]
  rw [henc,
    show (d :: 0 :: byteListOf (packFrom d 0 vs) (d * 128)) ++ suffix
      = d :: 0 :: (byteListOf (packFrom d 0 vs) (d * 128) ++ suffix) from by simp,
    decode_gdm_block_raw d _ suffix hd1 (byteListOf_length _ _)]
  have hpix : ((List.range 1024).map fun i =>
      extractBits (byteListOf (packFrom d 0 vs) (d * 128)) d i) = vs := by
    have hmapc : ∀ i ∈ List.range 1024,
        extractBits (byteListOf (packFrom d 0 vs) (d * 128)) d i = (vs.get? i).getD 0 := by
      intro i hi
      have hilt : i < 1024 := List.mem_range.mp hi
      obtain ⟨x, hx⟩ : ∃ x, vs.get? i = some x := by
        rw [List.get?_eq_getElem?, List.getElem?_eq_getElem (by omega)]
        exact ⟨_, rfl⟩
      rw [extractBits_byteListOf _ d i hd1 hd10 hilt,
        show i * d = (0 + i) * d from by ring,
        packFrom_get d vs 0 i x hvd hx, hx, Option.getD_some]
    rw [List.map_congr_left hmapc, ← hlen, map_range_get?]
  rw [hpix]
  have hlen2 : (d :: 0 :: byteListOf (packFrom d 0 vs) (d * 128)).length
      = 2 + d * 128 := by
    simp only [List.length_cons, byteListOf_length]
    ring
  rw [hlen2]

/-- Any 32×32 chunk of values needing at most 10 bits round-trips through
its PACKED-DENSITY block, with the block length reported as the size. -/
theorem block_roundtrip (vs : List Nat) (suffix : List Nat) (b : Nat)
    (hlen : vs.length = 1024) (hb1 : 1 ≤ b) (hb10 : b ≤ 10)
    (hvals : ∀ v ∈ vs, v < 2 ^ b) :
    decode_gdm_block (encode_gdm_block vs 32 ++ suffix) 0 32
      = some (vs, (encode_gdm_block vs 32).length) := by
  have hv16 : ∀ v ∈ vs, v < 65536 := by
    intro v hv
    have h1 := hvals v hv
    have h2 : (2 : Nat) ^ b ≤ 2 ^ 10 := Nat.pow_le_pow_right (by norm_num) hb10
    have h3 : (2 : Nat) ^ 10 = 1024 := by norm_num
    omega
  have hne : uniqueSorted vs ≠ [] := by
    have h0 : vs ≠ [] := by
      intro h
      rw [h] at hlen
      simp at hlen
    obtain ⟨x, hx⟩ := List.exists_mem_of_ne_nil vs h0
    intro hemp
    have hm := (mem_uniqueSorted x vs).mpr hx
    rw [hemp] at hm
    exact List.not_mem_nil x hm
  rcases Nat.lt_or_ge (uniqueSorted vs).length 2 with h2 | h2
  · have h1 : (uniqueSorted vs).length = 1 := by
      have h0 : (uniqueSorted vs).length ≠ 0 := fun h => hne (List.length_eq_zero.mp h)
      omega
    obtain ⟨u0, hu⟩ := List.length_eq_one.mp h1
    have hu0 : u0 < 65536 := by
      apply hv16
      apply (mem_uniqueSorted u0 vs).mp
      rw [hu]
      exact List.mem_singleton_self u0
    exact block_roundtrip_uniform vs u0 suffix hlen hu hu0
  · rcases le_or_lt (uniqueSorted vs).length 4 with h4 | h4
    · exact block_roundtrip_palette vs suffix hlen hv16 h2 h4
    · exact block_roundtrip_raw vs suffix b hlen hb1 hb10 hvals (by omega)

/-! ## File-level GDM decoding -/

/-- The block decoder only looks at the stream from `pos` on. -/
theorem decode_gdm_block_shift (data : List Nat) (pos cs : Nat) :
    decode_gdm_block data pos cs = decode_gdm_block (data.drop pos) 0 cs := by
  have h2 : (2 ≤ data.length - pos) ↔ (pos + 2 ≤ data.length) := by omega
  have h3 : ∀ ps : Nat, (2 + ps ≤ data.length - pos) ↔ (pos + 2 + ps ≤ data.length) := by
    intro ps
    omega
  have h4 : ∀ ps bs : Nat,
      (2 + ps + bs ≤ data.length - pos) ↔ (pos + 2 + ps + bs ≤ data.length) := by
    intro ps bs
    omega
  unfold decode_gdm_block
  simp only [List.get?_drop, List.length_drop, List.drop_drop, Nat.zero_add, Nat.add_zero,
    ← Nat.add_assoc, h2, h3, h4]

/-- `block_roundtrip` relocated to an arbitrary stream position. -/
theorem block_roundtrip_at (data : List Nat) (pos : Nat) (vs suffix : List Nat) (b : Nat)
    (hdrop : data.drop pos = encode_gdm_block vs 32 ++ suffix)
    (hlen : vs.length = 1024) (hb1 : 1 ≤ b) (hb10 : b ≤ 10)
    (hvals : ∀ v ∈ vs, v < 2 ^ b) :
    decode_gdm_block data pos 32 = some (vs, (encode_gdm_block vs 32).length) := by
  rw [decode_gdm_block_shift, hdrop]
  exact block_roundtrip vs suffix b hlen hb1 hb10 hvals

/-- Every encoded block starts with its two header bytes. -/
theorem two_le_encode_gdm_block_length (vs : List Nat) (cs : Nat) :
    2 ≤ (encode_gdm_block vs cs).length := by
  simp only [encode_gdm_block]
  split
  · simp [u16le]
  · split
    · simp only [List.length_cons]
      omega
    · simp only [List.length_cons]
      omega

/-- The per-range masked value lists of a chunk: what the encoder packs and
the decoder recovers, range by range. -/
def rangeVals (cv : List Nat) : List Nat → Nat → List (List Nat)
  | [], _ => []
  | b :: rest, shift =>
    (cv.map fun v => (v >>> shift) &&& (2 ^ b - 1)) :: rangeVals cv rest (shift + b)

theorem mask_lt (v s b : Nat) : (v >>> s) &&& (2 ^ b - 1) < 2 ^ b := by
  rw [Nat.and_pow_two_sub_one_eq_mod]
  exact Nat.mod_lt _ (Nat.two_pow_pos b)

/-- The `as u16` cast in the encoder's range masking is the identity for
ranges of at most 10 bits. -/
theorem mask_mod_65536 (v s b : Nat) (hb : b ≤ 10) :
    ((v >>> s) &&& ((1 <<< b) - 1)) % 65536 = (v >>> s) &&& (2 ^ b - 1) := by
  rw [Nat.one_shiftLeft]
  apply Nat.mod_eq_of_lt
  calc (v >>> s) &&& (2 ^ b - 1) < 2 ^ b := mask_lt v s b
    _ ≤ 2 ^ 10 := Nat.pow_le_pow_right (by norm_num) hb
    _ < 65536 := by norm_num

/-- The range-block loop of the decoder inverts `encodeRanges`, recovering
the masked value lists and advancing the cursor by the encoded length. -/
theorem decodeRangeBlocks_ranges (data cv : List Nat) (hcv : cv.length = 1024) :
    ∀ (bits : List Nat) (shift pos : Nat) (suffix : List Nat),
      (∀ x ∈ bits, 1 ≤ x ∧ x ≤ 10) →
      data.drop pos = encodeRanges cv 32 bits shift ++ suffix →
      decodeRangeBlocks data 32 bits.length pos
        = .ok (rangeVals cv bits shift, pos + (encodeRanges cv 32 bits shift).length)
  | [], shift, pos, suffix, _, hdrop => by
    simp [decodeRangeBlocks, rangeVals, encodeRanges]
  | bf :: rest, shift, pos, suffix, hb, hdrop => by
    have hbf := hb bf (List.mem_cons_self bf rest)
    have hmask : (cv.map fun v => ((v >>> shift) &&& ((1 <<< bf) - 1)) % 65536)
        = cv.map fun v => (v >>> shift) &&& (2 ^ bf - 1) :=
      List.map_congr_left fun v _ => mask_mod_65536 v shift bf hbf.2
    have hdrop' : data.drop pos
        = encode_gdm_block (cv.map fun v => (v >>> shift) &&& (2 ^ bf - 1)) 32
          ++ (encodeRanges cv 32 rest (shift + bf) ++ suffix) := by
      rw [hdrop]
      show (encode_gdm_block (cv.map fun v => ((v >>> shift) &&& ((1 <<< bf) - 1)) % 65536) 32
          ++ encodeRanges cv 32 rest (shift + bf)) ++ suffix = _
      rw [hmask, List.append_assoc]
    have hlen2 : data.length ≥ pos + 2 := by
      have h1 := congrArg List.length hdrop'
      rw [List.length_drop, List.length_append] at h1
      have h2 := two_le_encode_gdm_block_length
        (cv.map fun v => (v >>> shift) &&& (2 ^ bf - 1)) 32
      omega
    have hdec : decode_gdm_block data pos 32
        = some (cv.map fun v => (v >>> shift) &&& (2 ^ bf - 1),
            (encode_gdm_block (cv.map fun v => (v >>> shift) &&& (2 ^ bf - 1)) 32).length) :=
      block_roundtrip_at data pos _ _ bf hdrop' (by rw [List.length_map, hcv]) hbf.1 hbf.2
        (fun v hv => by
          obtain ⟨x, hx, rfl⟩ := List.mem_map.mp hv
          exact mask_lt x shift bf)
    have hdrop2 : data.drop
        (pos + (encode_gdm_block (cv.map fun v => (v >>> shift) &&& (2 ^ bf - 1)) 32).length)
        = encodeRanges cv 32 rest (shift + bf) ++ suffix := by
      rw [← List.drop_drop, hdrop', List.drop_left]
    have ih := decodeRangeBlocks_ranges data cv hcv rest (shift + bf)
      (pos + (encode_gdm_block (cv.map fun v => (v >>> shift) &&& (2 ^ bf - 1)) 32).length)
      suffix (fun x hx => hb x (List.mem_cons_of_mem bf hx)) hdrop2
    rw [show (bf :: rest).length = rest.length + 1 from List.length_cons bf rest]
    rw [decodeRangeBlocks, if_neg (by omega), hdec]
    dsimp only
    rw [ih]
    rw [show rangeVals cv (bf :: rest) shift
        = (cv.map fun v => (v >>> shift) &&& (2 ^ bf - 1)) :: rangeVals cv rest (shift + bf)
      from rfl]
    rw [show encodeRanges cv 32 (bf :: rest) shift
        = encode_gdm_block (cv.map fun v => ((v >>> shift) &&& ((1 <<< bf) - 1)) % 65536) 32
          ++ encodeRanges cv 32 rest (shift + bf) from rfl,
      hmask, List.length_append, ← Nat.add_assoc]

/-- Recombining the masked range lists restores bits `s` and above of the
pixel value (the bits below `s` were consumed by earlier ranges). -/
theorem combineRanges_rangeVals (cv : List Nat) (i v : Nat) (hv : cv.get? i = some v) :
    ∀ (bits : List Nat) (s : Nat),
      combineRanges ((rangeVals cv bits s).zip bits) i s
        = v / 2 ^ s % 2 ^ bits.sum * 2 ^ s
  | [], s => by
    simp [rangeVals, combineRanges, Nat.mod_one]
  | b :: rest, s => by
    have ih := combineRanges_rangeVals cv i v hv rest (s + b)
    rw [show rangeVals cv (b :: rest) s
        = (cv.map fun x => (x >>> s) &&& (2 ^ b - 1)) :: rangeVals cv rest (s + b) from rfl,
      List.zip_cons_cons]
    simp only [combineRanges]
    rw [ih, List.get?_map, hv]
    simp only [Option.map_some', Option.getD_some]
    rw [Nat.shiftRight_eq_div_pow, Nat.and_pow_two_sub_one_eq_mod, Nat.shiftLeft_eq]
    have ha : v / 2 ^ s % 2 ^ b * 2 ^ s < 2 ^ (s + b) := by
      have h1 : v / 2 ^ s % 2 ^ b < 2 ^ b := Nat.mod_lt _ (Nat.two_pow_pos b)
      calc v / 2 ^ s % 2 ^ b * 2 ^ s ≤ (2 ^ b - 1) * 2 ^ s :=
            Nat.mul_le_mul_right _ (by omega)
        _ < 2 ^ b * 2 ^ s := (Nat.mul_lt_mul_right (Nat.two_pow_pos s)).mpr (by
            have h2 : (1 : Nat) ≤ 2 ^ b := Nat.one_le_two_pow
            omega)
        _ = 2 ^ (s + b) := by rw [← pow_add, Nat.add_comm]
    rw [lor_mul_two_pow (s + b) _ _ ha]
    rw [List.sum_cons,
      show (2 : Nat) ^ (b + rest.sum) = 2 ^ b * 2 ^ rest.sum from pow_add 2 _ _,
      Nat.mod_mul,
      show v / 2 ^ s / 2 ^ b = v / 2 ^ (s + b) from by
        rw [Nat.div_div_eq_div_mul, ← pow_add]]
    rw [show (v / 2 ^ s % 2 ^ b + 2 ^ b * (v / 2 ^ (s + b) % 2 ^ rest.sum)) * 2 ^ s
        = v / 2 ^ s % 2 ^ b * 2 ^ s + v / 2 ^ (s + b) % 2 ^ rest.sum * (2 ^ b * 2 ^ s) from by
      ring,
      show (2 : Nat) ^ b * 2 ^ s = 2 ^ (s + b) from by rw [← pow_add, Nat.add_comm]]

/-- Bytes per pixel of the decoder's image buffer. -/
def bppOf (useRgb : Bool) : Nat := if useRgb then 3 else 1

theorem writePixel_length (useRgb : Bool) (dim : Nat) (img : List Nat) (x y c : Nat) :
    (writePixel useRgb dim img x y c).length = img.length := by
  cases useRgb
  · rw [show writePixel false dim img x y c = img.set (y * dim + x) (c % 256) from rfl,
      List.length_set]
  · rw [show writePixel true dim img x y c
        = ((img.set ((y * dim + x) * 3) (c % 256)).set ((y * dim + x) * 3 + 1)
            (c / 256 % 256)).set ((y * dim + x) * 3 + 2) (c / 65536 % 256) from rfl,
      List.length_set, List.length_set, List.length_set]

theorem writePixel_get?_ne (useRgb : Bool) (dim : Nat) (img : List Nat) (x y c q : Nat)
    (hq : ∀ t, t < bppOf useRgb → q ≠ (y * dim + x) * bppOf useRgb + t) :
    (writePixel useRgb dim img x y c).get? q = img.get? q := by
  cases useRgb
  · have hq' : ∀ t, t < 1 → q ≠ (y * dim + x) * 1 + t := hq
    rw [show writePixel false dim img x y c = img.set (y * dim + x) (c % 256) from rfl,
      List.get?_set_ne _ _ (fun h => hq' 0 (by norm_num) (by omega))]
  · have hq' : ∀ t, t < 3 → q ≠ (y * dim + x) * 3 + t := hq
    have h0 := hq' 0 (by norm_num)
    have h1 := hq' 1 (by norm_num)
    have h2 := hq' 2 (by norm_num)
    rw [show writePixel true dim img x y c
        = ((img.set ((y * dim + x) * 3) (c % 256)).set ((y * dim + x) * 3 + 1)
            (c / 256 % 256)).set ((y * dim + x) * 3 + 2) (c / 65536 % 256) from rfl,
      List.get?_set_ne _ _ (by omega), List.get?_set_ne _ _ (by omega),
      List.get?_set_ne _ _ (by omega)]

theorem writePixel_get?_hit (useRgb : Bool) (dim : Nat) (img : List Nat) (x y c q t : Nat)
    (ht : t < bppOf useRgb) (hq : q = (y * dim + x) * bppOf useRgb + t)
    (hlen : q < img.length) :
    (writePixel useRgb dim img x y c).get? q = some (c / 256 ^ t % 256) := by
  cases useRgb
  · have ht1 : t < 1 := ht
    have hq' : q = (y * dim + x) * 1 + t := hq
    have ht0 : t = 0 := by omega
    subst ht0
    rw [show writePixel false dim img x y c = img.set (y * dim + x) (c % 256) from rfl,
      show (y * dim + x) = q from by omega, List.get?_set_eq_of_lt _ hlen,
      pow_zero, Nat.div_one]
  · have ht3 : t < 3 := ht
    have hq' : q = (y * dim + x) * 3 + t := hq
    rw [show writePixel true dim img x y c
        = ((img.set ((y * dim + x) * 3) (c % 256)).set ((y * dim + x) * 3 + 1)
            (c / 256 % 256)).set ((y * dim + x) * 3 + 2) (c / 65536 % 256) from rfl]
    interval_cases t
    · rw [List.get?_set_ne _ _ (by omega), List.get?_set_ne _ _ (by omega),
        show (y * dim + x) * 3 = q from by omega, List.get?_set_eq_of_lt _ hlen,
        pow_zero, Nat.div_one]
    · rw [List.get?_set_ne _ _ (by omega),
        show (y * dim + x) * 3 + 1 = q from by omega,
        List.get?_set_eq_of_lt _ (by rw [List.length_set]; omega), pow_one]
    · rw [show (y * dim + x) * 3 + 2 = q from by omega,
        List.get?_set_eq_of_lt _ (by rw [List.length_set, List.length_set]; omega)]
      norm_num

theorem foldl_writePixel_length (useRgb : Bool) (dim cs : Nat) (baseX baseY : Nat)
    (rv : List (List Nat × Nat)) :
    ∀ (l : List Nat) (img : List Nat),
      (l.foldl (fun im pixel_idx =>
          writePixel useRgb dim im (baseX + pixel_idx % cs) (baseY + pixel_idx / cs)
            (combineRanges rv pixel_idx 0)) img).length = img.length
  | [], _ => rfl
  | p :: l, img => by
    rw [List.foldl_cons, foldl_writePixel_length useRgb dim cs baseX baseY rv l _,
      writePixel_length]

theorem foldl_writePixel_get?_ne (useRgb : Bool) (dim cs : Nat) (baseX baseY : Nat)
    (rv : List (List Nat × Nat)) (q : Nat) :
    ∀ (l : List Nat) (img : List Nat),
      (∀ pi ∈ l, ∀ t, t < bppOf useRgb →
        q ≠ ((baseY + pi / cs) * dim + (baseX + pi % cs)) * bppOf useRgb + t) →
      (l.foldl (fun im pixel_idx =>
          writePixel useRgb dim im (baseX + pixel_idx % cs) (baseY + pixel_idx / cs)
            (combineRanges rv pixel_idx 0)) img).get? q = img.get? q
  | [], _, _ => rfl
  | p :: l, img, hmiss => by
    rw [List.foldl_cons,
      foldl_writePixel_get?_ne useRgb dim cs baseX baseY rv q l _
        (fun pi hpi => hmiss pi (List.mem_cons_of_mem p hpi)),
      writePixel_get?_ne useRgb dim img _ _ _ q (hmiss p (List.mem_cons_self p l))]

theorem writeChunk_length (useRgb : Bool) (dim cs : Nat) (img : List Nat)
    (baseX baseY : Nat) (rv : List (List Nat × Nat)) :
    (writeChunk useRgb dim cs img baseX baseY rv).length = img.length := by
  unfold writeChunk
  exact foldl_writePixel_length useRgb dim cs baseX baseY rv _ img

theorem writeChunk_get?_ne (useRgb : Bool) (dim cs : Nat) (img : List Nat)
    (baseX baseY : Nat) (rv : List (List Nat × Nat)) (q : Nat)
    (hmiss : ∀ pi, pi < cs * cs → ∀ t, t < bppOf useRgb →
      q ≠ ((baseY + pi / cs) * dim + (baseX + pi % cs)) * bppOf useRgb + t) :
    (writeChunk useRgb dim cs img baseX baseY rv).get? q = img.get? q := by
  unfold writeChunk
  exact foldl_writePixel_get?_ne useRgb dim cs baseX baseY rv q _ img
    (fun pi hpi => hmiss pi (List.mem_range.mp hpi))

/-- Distinct pixels of a chunk hit distinct image cells. -/
theorem chunk_index_inj (dim cs : Nat) (baseX baseY pi pj : Nat) (hcs : 1 ≤ cs)
    (hX : baseX + cs ≤ dim) (hne : pj ≠ pi) :
    (baseY + pj / cs) * dim + (baseX + pj % cs)
      ≠ (baseY + pi / cs) * dim + (baseX + pi % cs) := by
  intro h
  have hxi : baseX + pi % cs < dim := by
    have := Nat.mod_lt pi (show 0 < cs by omega)
    omega
  have hxj : baseX + pj % cs < dim := by
    have := Nat.mod_lt pj (show 0 < cs by omega)
    omega
  rcases Nat.lt_trichotomy (baseY + pj / cs) (baseY + pi / cs) with hy | hy | hy
  · have h1 : (baseY + pj / cs + 1) * dim = (baseY + pj / cs) * dim + dim := by ring
    have h2 : (baseY + pj / cs + 1) * dim ≤ (baseY + pi / cs) * dim :=
      Nat.mul_le_mul_right dim (by omega)
    omega
  · have hdiv : pj / cs = pi / cs := by omega
    have heq : (baseY + pj / cs) * dim = (baseY + pi / cs) * dim := by rw [hdiv]
    have hmod : pj % cs = pi % cs := by omega
    have hj := Nat.div_add_mod pj cs
    have hi := Nat.div_add_mod pi cs
    have hc : cs * (pj / cs) = cs * (pi / cs) := by rw [hdiv]
    omega
  · have h1 : (baseY + pi / cs + 1) * dim = (baseY + pi / cs) * dim + dim := by ring
    have h2 : (baseY + pi / cs + 1) * dim ≤ (baseY + pj / cs) * dim :=
      Nat.mul_le_mul_right dim (by omega)
    omega

/-- The byte written for pixel `pi` of a chunk holds the combined value's
byte `t`. -/
theorem writeChunk_get?_hit (useRgb : Bool) (dim cs : Nat) (img : List Nat)
    (baseX baseY : Nat) (rv : List (List Nat × Nat)) (pi t q : Nat)
    (hcs : 1 ≤ cs) (hX : baseX + cs ≤ dim)
    (hpi : pi < cs * cs) (ht : t < bppOf useRgb)
    (hq : q = ((baseY + pi / cs) * dim + (baseX + pi % cs)) * bppOf useRgb + t)
    (hlen : q < img.length) :
    (writeChunk useRgb dim cs img baseX baseY rv).get? q
      = some (combineRanges rv pi 0 / 256 ^ t % 256) := by
  unfold writeChunk
  have hsplit : List.range (cs * cs)
      = List.range' 0 pi ++ (pi :: List.range' (pi + 1) (cs * cs - pi - 1)) := by
    rw [List.range_eq_range']
    conv_lhs => rw [show cs * cs = cs * cs - pi + pi from by omega]
    rw [← List.range'_append 0 pi (cs * cs - pi) 1,
      show 0 + 1 * pi = pi from by omega]
    congr 1
    rw [show cs * cs - pi = cs * cs - pi - 1 + 1 from by omega, List.range'_succ]
    congr 2
  rw [hsplit, List.foldl_append, List.foldl_cons]
  rw [foldl_writePixel_get?_ne useRgb dim cs baseX baseY rv q _ _ (by
    intro pj hpj t' ht' hq'
    have hpj2 := List.mem_range'_1.mp hpj
    have hgne := chunk_index_inj dim cs baseX baseY pi pj hcs hX (by omega)
    have hbpp : 1 ≤ bppOf useRgb := by
      cases useRgb
      · exact le_rfl
      · norm_num [bppOf]
    rcases Nat.lt_trichotomy ((baseY + pj / cs) * dim + (baseX + pj % cs))
        ((baseY + pi / cs) * dim + (baseX + pi % cs)) with hlt | heq | hgt
    · have := Nat.mul_le_mul_right (bppOf useRgb)
        (show (baseY + pj / cs) * dim + (baseX + pj % cs) + 1
          ≤ (baseY + pi / cs) * dim + (baseX + pi % cs) from by omega)
      have hexp : ((baseY + pj / cs) * dim + (baseX + pj % cs) + 1) * bppOf useRgb
          = ((baseY + pj / cs) * dim + (baseX + pj % cs)) * bppOf useRgb + bppOf useRgb := by
        ring
      omega
    · exact hgne heq
    · have := Nat.mul_le_mul_right (bppOf useRgb)
        (show (baseY + pi / cs) * dim + (baseX + pi % cs) + 1
          ≤ (baseY + pj / cs) * dim + (baseX + pj % cs) from by omega)
      have hexp : ((baseY + pi / cs) * dim + (baseX + pi % cs) + 1) * bppOf useRgb
          = ((baseY + pi / cs) * dim + (baseX + pi % cs)) * bppOf useRgb + bppOf useRgb := by
        ring
      omega)]
  rw [writePixel_get?_hit useRgb dim _ _ _ _ q t ht hq (by
    rw [foldl_writePixel_length]
    exact hlen)]

/-! ## Byte/chunk geometry of the decoded image -/

/-- Every in-range byte of the image belongs to some pixel of the chunk the
byte's cell lies in. -/
theorem byte_geometry (cpd bpp q c : Nat) (hbpp : 1 ≤ bpp)
    (hq : q < 32 * cpd * (32 * cpd) * bpp)
    (hc : q / bpp / (32 * cpd) / 32 * cpd + q / bpp % (32 * cpd) / 32 = c) :
    ∃ pi t, pi < 32 * 32 ∧ t < bpp ∧
      q = ((c / cpd * 32 + pi / 32) * (32 * cpd) + (c % cpd * 32 + pi % 32)) * bpp + t := by
  have hcpd : 1 ≤ cpd := by
    by_contra h
    have h0 : cpd = 0 := by omega
    subst h0
    simp at hq
  obtain ⟨G, hGdef⟩ : ∃ G, q / bpp = G := ⟨_, rfl⟩
  obtain ⟨t, htdef⟩ : ∃ t, q % bpp = t := ⟨_, rfl⟩
  obtain ⟨y, hydef⟩ : ∃ y, G / (32 * cpd) = y := ⟨_, rfl⟩
  obtain ⟨x, hxdef⟩ : ∃ x, G % (32 * cpd) = x := ⟨_, rfl⟩
  have hG : G < 32 * cpd * (32 * cpd) := by
    rw [← hGdef, Nat.div_lt_iff_lt_mul (by omega)]
    omega
  have hx : x < 32 * cpd := by
    rw [← hxdef]
    exact Nat.mod_lt _ (by omega)
  have hy : y < 32 * cpd := by
    rw [← hydef, Nat.div_lt_iff_lt_mul (by omega)]
    omega
  have hGyx : y * (32 * cpd) + x = G := by
    have h1 := Nat.div_add_mod G (32 * cpd)
    have h2 : y * (32 * cpd) = (32 * cpd) * y := Nat.mul_comm _ _
    rw [← hydef, ← hxdef] at *
    omega
  have hqGt : q = G * bpp + t := by
    have h1 := Nat.div_add_mod q bpp
    have h2 : G * bpp = bpp * G := Nat.mul_comm _ _
    rw [← hGdef, ← htdef] at *
    omega
  have hc' : y / 32 * cpd + x / 32 = c := by
    rw [← hc, hGdef, hydef, hxdef]
  have hxd : x / 32 < cpd := by
    rw [Nat.div_lt_iff_lt_mul (by norm_num)]
    omega
  have e1 : c / cpd = y / 32 := by
    rw [← hc', show y / 32 * cpd + x / 32 = cpd * (y / 32) + x / 32 from by ring,
      Nat.mul_add_div (by omega), Nat.div_eq_of_lt hxd, Nat.add_zero]
  have e2 : c % cpd = x / 32 := by
    rw [← hc', show y / 32 * cpd + x / 32 = cpd * (y / 32) + x / 32 from by ring,
      Nat.mul_add_mod, Nat.mod_eq_of_lt hxd]
  have hym : y % 32 < 32 := Nat.mod_lt _ (by norm_num)
  have hxm : x % 32 < 32 := Nat.mod_lt _ (by norm_num)
  refine ⟨y % 32 * 32 + x % 32, t, by omega, by rw [← htdef]; exact Nat.mod_lt _ (by omega), ?_⟩
  have e3 : (y % 32 * 32 + x % 32) / 32 = y % 32 := by
    rw [show y % 32 * 32 + x % 32 = 32 * (y % 32) + x % 32 from by ring,
      Nat.mul_add_div (by norm_num), Nat.div_eq_of_lt hxm, Nat.add_zero]
  have e4 : (y % 32 * 32 + x % 32) % 32 = x % 32 := by
    rw [show y % 32 * 32 + x % 32 = 32 * (y % 32) + x % 32 from by ring,
      Nat.mul_add_mod, Nat.mod_eq_of_lt hxm]
  rw [e1, e2, e3, e4,
    show y / 32 * 32 + y % 32 = y from by
      have h1 := Nat.div_add_mod y 32
      have h2 : y / 32 * 32 = 32 * (y / 32) := Nat.mul_comm _ _
      omega,
    show x / 32 * 32 + x % 32 = x from by
      have h1 := Nat.div_add_mod x 32
      have h2 : x / 32 * 32 = 32 * (x / 32) := Nat.mul_comm _ _
      omega,
    hGyx]
  exact hqGt

/-- Every in-range byte's chunk index is a real chunk. -/
theorem chunkOfByte_lt (cpd bpp q : Nat) (hbpp : 1 ≤ bpp) (hcpd : 1 ≤ cpd)
    (hq : q < 32 * cpd * (32 * cpd) * bpp) :
    q / bpp / (32 * cpd) / 32 * cpd + q / bpp % (32 * cpd) / 32 < cpd * cpd := by
  have hG : q / bpp < 32 * cpd * (32 * cpd) := by
    rw [Nat.div_lt_iff_lt_mul (by omega)]
    omega
  have hy : q / bpp / (32 * cpd) < 32 * cpd := by
    rw [Nat.div_lt_iff_lt_mul (by omega)]
    omega
  have hyd : q / bpp / (32 * cpd) / 32 < cpd := by
    rw [Nat.div_lt_iff_lt_mul (by norm_num)]
    omega
  have hx : q / bpp % (32 * cpd) < 32 * cpd := Nat.mod_lt _ (by omega)
  have hxd : q / bpp % (32 * cpd) / 32 < cpd := by
    rw [Nat.div_lt_iff_lt_mul (by norm_num)]
    omega
  have h1 : (q / bpp / (32 * cpd) / 32 + 1) * cpd ≤ cpd * cpd :=
    Nat.mul_le_mul_right cpd (by omega)
  have h2 : (q / bpp / (32 * cpd) / 32 + 1) * cpd
      = q / bpp / (32 * cpd) / 32 * cpd + cpd := by ring
  omega

/-- A write of chunk `c` never lands on a byte of another chunk (or outside
the image). -/
theorem chunk_write_miss (cpd bpp q c pi t : Nat) (hbpp : 1 ≤ bpp) (hcpd : 1 ≤ cpd)
    (hc : c < cpd * cpd) (hpi : pi < 32 * 32) (ht : t < bpp)
    (hne : ¬(q < 32 * cpd * (32 * cpd) * bpp
      ∧ q / bpp / (32 * cpd) / 32 * cpd + q / bpp % (32 * cpd) / 32 = c)) :
    q ≠ ((c / cpd * 32 + pi / 32) * (32 * cpd) + (c % cpd * 32 + pi % 32)) * bpp + t := by
  intro hq
  apply hne
  have hcd : c / cpd < cpd := by
    rw [Nat.div_lt_iff_lt_mul (by omega)]
    omega
  have hcm : c % cpd < cpd := Nat.mod_lt _ (by omega)
  have hpid : pi / 32 < 32 := by
    rw [Nat.div_lt_iff_lt_mul (by norm_num)]
    omega
  have hpim : pi % 32 < 32 := Nat.mod_lt _ (by norm_num)
  have hy : c / cpd * 32 + pi / 32 < 32 * cpd := by
    have h1 : (c / cpd + 1) * 32 ≤ cpd * 32 := Nat.mul_le_mul_right 32 (by omega)
    have h2 : (c / cpd + 1) * 32 = c / cpd * 32 + 32 := by ring
    have h3 : cpd * 32 = 32 * cpd := by ring
    omega
  have hx : c % cpd * 32 + pi % 32 < 32 * cpd := by
    have h1 : (c % cpd + 1) * 32 ≤ cpd * 32 := Nat.mul_le_mul_right 32 (by omega)
    have h2 : (c % cpd + 1) * 32 = c % cpd * 32 + 32 := by ring
    have h3 : cpd * 32 = 32 * cpd := by ring
    omega
  have hGlt : (c / cpd * 32 + pi / 32) * (32 * cpd) + (c % cpd * 32 + pi % 32)
      < 32 * cpd * (32 * cpd) := by
    have h1 : (c / cpd * 32 + pi / 32 + 1) * (32 * cpd) ≤ 32 * cpd * (32 * cpd) :=
      Nat.mul_le_mul_right (32 * cpd) (by omega)
    have h2 : (c / cpd * 32 + pi / 32 + 1) * (32 * cpd)
        = (c / cpd * 32 + pi / 32) * (32 * cpd) + 32 * cpd := by ring
    omega
  have hqlt : q < 32 * cpd * (32 * cpd) * bpp := by
    have h1 : ((c / cpd * 32 + pi / 32) * (32 * cpd) + (c % cpd * 32 + pi % 32) + 1) * bpp
        ≤ 32 * cpd * (32 * cpd) * bpp := Nat.mul_le_mul_right bpp (by omega)
    have h2 : ((c / cpd * 32 + pi / 32) * (32 * cpd) + (c % cpd * 32 + pi % 32) + 1) * bpp
        = ((c / cpd * 32 + pi / 32) * (32 * cpd) + (c % cpd * 32 + pi % 32)) * bpp + bpp := by
      ring
    omega
  refine ⟨hqlt, ?_⟩
  have hqd : q / bpp = (c / cpd * 32 + pi / 32) * (32 * cpd) + (c % cpd * 32 + pi % 32) := by
    rw [hq, show ((c / cpd * 32 + pi / 32) * (32 * cpd) + (c % cpd * 32 + pi % 32)) * bpp + t
        = bpp * ((c / cpd * 32 + pi / 32) * (32 * cpd) + (c % cpd * 32 + pi % 32)) + t
      from by ring,
      Nat.mul_add_div (by omega), Nat.div_eq_of_lt ht, Nat.add_zero]
  have hGd : q / bpp / (32 * cpd) = c / cpd * 32 + pi / 32 := by
    rw [hqd, show (c / cpd * 32 + pi / 32) * (32 * cpd) + (c % cpd * 32 + pi % 32)
        = (32 * cpd) * (c / cpd * 32 + pi / 32) + (c % cpd * 32 + pi % 32) from by ring,
      Nat.mul_add_div (by omega), Nat.div_eq_of_lt hx, Nat.add_zero]
  have hGm : q / bpp % (32 * cpd) = c % cpd * 32 + pi % 32 := by
    rw [hqd, show (c / cpd * 32 + pi / 32) * (32 * cpd) + (c % cpd * 32 + pi % 32)
        = (32 * cpd) * (c / cpd * 32 + pi / 32) + (c % cpd * 32 + pi % 32) from by ring,
      Nat.mul_add_mod, Nat.mod_eq_of_lt hx]
  have hyd : (c / cpd * 32 + pi / 32) / 32 = c / cpd := by
    rw [show c / cpd * 32 + pi / 32 = 32 * (c / cpd) + pi / 32 from by ring,
      Nat.mul_add_div (by norm_num), Nat.div_eq_of_lt hpid, Nat.add_zero]
  have hxd : (c % cpd * 32 + pi % 32) / 32 = c % cpd := by
    rw [show c % cpd * 32 + pi % 32 = 32 * (c % cpd) + pi % 32 from by ring,
      Nat.mul_add_div (by norm_num), Nat.div_eq_of_lt hpim, Nat.add_zero]
  rw [hGd, hGm, hyd, hxd]
  have h1 := Nat.div_add_mod c cpd
  have h2 : c / cpd * cpd = cpd * (c / cpd) := Nat.mul_comm _ _
  omega

theorem one_le_bppOf (useRgb : Bool) : 1 ≤ bppOf useRgb := by
  cases useRgb <;> decide

theorem gatherChunk_length (values : List Nat) (dim cs baseX baseY : Nat) :
    (gatherChunk values dim cs baseX baseY).length = cs * cs := by
  unfold gatherChunk
  rw [List.length_map, List.length_range]

theorem gatherChunk_get? (values : List Nat) (dim cs baseX baseY pi : Nat)
    (hpi : pi < cs * cs) :
    (gatherChunk values dim cs baseX baseY).get? pi
      = some ((values.get? ((baseY + pi / cs) * dim + (baseX + pi % cs))).getD 0) := by
  unfold gatherChunk
  rw [List.get?_eq_getElem?, List.getElem?_map, List.getElem?_range hpi]
  rfl

/-- The chunk loop of the decoder: processing chunks `c, …, c+n-1` of the
encoded stream writes each of their combined values into the image and
leaves every other byte alone. -/
theorem decodeGdmChunksAux_spec (data V : List Nat) (useRgb : Bool) (cpd : Nat)
    (bits : List Nat) (hcpd : 1 ≤ cpd)
    (hbits : ∀ x ∈ bits, 1 ≤ x ∧ x ≤ 10)
    (hV : ∀ v ∈ V, v < 2 ^ bits.sum)
    (hVlen : V.length = 32 * cpd * (32 * cpd)) :
    ∀ (n c pos : Nat) (img suffix : List Nat),
      c + n = cpd * cpd →
      data.drop pos = (List.range' c n).flatMap
          (fun ci => encodeRanges (gatherChunk V (32 * cpd) 32 (ci % cpd * 32) (ci / cpd * 32))
            32 bits 0) ++ suffix →
      img.length = 32 * cpd * (32 * cpd) * bppOf useRgb →
      ∃ img' pos',
        decodeGdmChunksAux data 32 (32 * cpd) useRgb bits cpd n pos c img
          = .ok (img', pos')
        ∧ img'.length = img.length
        ∧ ∀ q, img'.get? q
            = if q < 32 * cpd * (32 * cpd) * bppOf useRgb
                ∧ c ≤ q / bppOf useRgb / (32 * cpd) / 32 * cpd
                    + q / bppOf useRgb % (32 * cpd) / 32 then
                some ((V.get? (q / bppOf useRgb)).getD 0 / 256 ^ (q % bppOf useRgb) % 256)
              else img.get? q
  | 0, c, pos, img, suffix, hcn, hdrop, himg => by
    refine ⟨img, pos, rfl, rfl, fun q => ?_⟩
    rw [if_neg ?_]
    rintro ⟨hq, hcq⟩
    have := chunkOfByte_lt cpd (bppOf useRgb) q (one_le_bppOf useRgb) hcpd hq
    omega
  | n + 1, c, pos, img, suffix, hcn, hdrop, himg => by
    have hclt : c < cpd * cpd := by omega
    have hcv : (gatherChunk V (32 * cpd) 32 (c % cpd * 32) (c / cpd * 32)).length = 1024 := by
      rw [gatherChunk_length]
    have hdrop1 : data.drop pos
        = encodeRanges (gatherChunk V (32 * cpd) 32 (c % cpd * 32) (c / cpd * 32)) 32 bits 0
          ++ ((List.range' (c + 1) n).flatMap
              (fun ci => encodeRanges
                (gatherChunk V (32 * cpd) 32 (ci % cpd * 32) (ci / cpd * 32)) 32 bits 0)
            ++ suffix) := by
      rw [hdrop, List.range'_succ, List.flatMap_cons, List.append_assoc]
    have hrb := decodeRangeBlocks_ranges data
      (gatherChunk V (32 * cpd) 32 (c % cpd * 32) (c / cpd * 32)) hcv bits 0 pos _
      hbits hdrop1
    have hdrop2 : data.drop (pos + (encodeRanges
        (gatherChunk V (32 * cpd) 32 (c % cpd * 32) (c / cpd * 32)) 32 bits 0).length)
        = (List.range' (c + 1) n).flatMap
            (fun ci => encodeRanges
              (gatherChunk V (32 * cpd) 32 (ci % cpd * 32) (ci / cpd * 32)) 32 bits 0)
          ++ suffix := by
      rw [← List.drop_drop, hdrop1, List.drop_left]
    have himg2 : (writeChunk useRgb (32 * cpd) 32 img (c % cpd * 32) (c / cpd * 32)
        ((rangeVals (gatherChunk V (32 * cpd) 32 (c % cpd * 32) (c / cpd * 32)) bits 0).zip
          bits)).length = 32 * cpd * (32 * cpd) * bppOf useRgb := by
      rw [writeChunk_length]
      exact himg
    obtain ⟨img', pos', hrun, hlen', hspec⟩ := decodeGdmChunksAux_spec data V useRgb cpd
      bits hcpd hbits hV hVlen n (c + 1)
      (pos + (encodeRanges
        (gatherChunk V (32 * cpd) 32 (c % cpd * 32) (c / cpd * 32)) 32 bits 0).length)
      (writeChunk useRgb (32 * cpd) 32 img (c % cpd * 32) (c / cpd * 32)
        ((rangeVals (gatherChunk V (32 * cpd) 32 (c % cpd * 32) (c / cpd * 32)) bits 0).zip
          bits))
      suffix (by omega) hdrop2 himg2
    refine ⟨img', pos', ?_, ?_, ?_⟩
    · simp only [decodeGdmChunksAux]
      rw [hrb]
      dsimp only
      exact hrun
    · rw [hlen', writeChunk_length]
    · intro q
      have hXb : c % cpd * 32 + 32 ≤ 32 * cpd := by
        have h0 : c % cpd < cpd := Nat.mod_lt _ (by omega)
        have h1 : (c % cpd + 1) * 32 ≤ cpd * 32 := Nat.mul_le_mul_right 32 (by omega)
        have h2 : (c % cpd + 1) * 32 = c % cpd * 32 + 32 := by ring
        have h3 : cpd * 32 = 32 * cpd := by ring
        omega
      by_cases hq1 : q < 32 * cpd * (32 * cpd) * bppOf useRgb
        ∧ c ≤ q / bppOf useRgb / (32 * cpd) / 32 * cpd + q / bppOf useRgb % (32 * cpd) / 32
      · rw [if_pos hq1]
        by_cases hq2 : c + 1
            ≤ q / bppOf useRgb / (32 * cpd) / 32 * cpd + q / bppOf useRgb % (32 * cpd) / 32
        · rw [hspec q, if_pos ⟨hq1.1, hq2⟩]
        · have hceq : q / bppOf useRgb / (32 * cpd) / 32 * cpd
              + q / bppOf useRgb % (32 * cpd) / 32 = c := by omega
          rw [hspec q, if_neg (by
            rintro ⟨-, hcontra⟩
            omega)]
          obtain ⟨pi, t, hpi, ht, hqe⟩ :=
            byte_geometry cpd (bppOf useRgb) q c (one_le_bppOf useRgb) hq1.1 hceq
          have hqdiv : q / bppOf useRgb
              = (c / cpd * 32 + pi / 32) * (32 * cpd) + (c % cpd * 32 + pi % 32) := by
            rw [hqe, show ((c / cpd * 32 + pi / 32) * (32 * cpd)
                  + (c % cpd * 32 + pi % 32)) * bppOf useRgb + t
                = bppOf useRgb * ((c / cpd * 32 + pi / 32) * (32 * cpd)
                  + (c % cpd * 32 + pi % 32)) + t from by ring,
              Nat.mul_add_div (by have := one_le_bppOf useRgb; omega),
              Nat.div_eq_of_lt ht, Nat.add_zero]
          have hqmod : q % bppOf useRgb = t := by
            rw [hqe, show ((c / cpd * 32 + pi / 32) * (32 * cpd)
                  + (c % cpd * 32 + pi % 32)) * bppOf useRgb + t
                = bppOf useRgb * ((c / cpd * 32 + pi / 32) * (32 * cpd)
                  + (c % cpd * 32 + pi % 32)) + t from by ring,
              Nat.mul_add_mod, Nat.mod_eq_of_lt ht]
          rw [writeChunk_get?_hit useRgb (32 * cpd) 32 img (c % cpd * 32) (c / cpd * 32)
            _ pi t q (by norm_num) hXb hpi ht hqe (by rw [himg]; exact hq1.1)]
          obtain ⟨v, hvget⟩ : ∃ v, V.get? ((c / cpd * 32 + pi / 32) * (32 * cpd)
              + (c % cpd * 32 + pi % 32)) = some v := by
            rw [List.get?_eq_getElem?, List.getElem?_eq_getElem (by
              rw [hVlen]
              have h1 : q / bppOf useRgb < 32 * cpd * (32 * cpd) := by
                rw [Nat.div_lt_iff_lt_mul (by have := one_le_bppOf useRgb; omega)]
                exact hq1.1
              omega)]
            exact ⟨_, rfl⟩
          have hcvget : (gatherChunk V (32 * cpd) 32 (c % cpd * 32) (c / cpd * 32)).get? pi
              = some v := by
            rw [gatherChunk_get? V (32 * cpd) 32 _ _ pi hpi, hvget]
            rfl
          rw [combineRanges_rangeVals
            (gatherChunk V (32 * cpd) 32 (c % cpd * 32) (c / cpd * 32)) pi v hcvget bits 0]
          rw [pow_zero, Nat.div_one, Nat.mul_one,
            Nat.mod_eq_of_lt (hV v (List.get?_mem hvget)),
            hqdiv, hqmod, hvget]
          rfl
      · rw [if_neg hq1, hspec q, if_neg (by
          rintro ⟨h1, h2⟩
          exact hq1 ⟨h1, by omega⟩)]
        rw [writeChunk_get?_ne useRgb (32 * cpd) 32 img (c % cpd * 32) (c / cpd * 32) _ q
          (fun pi hpi t ht =>
            chunk_write_miss cpd (bppOf useRgb) q c pi t (one_le_bppOf useRgb) hcpd hclt
              hpi ht (fun hcontra => hq1 ⟨hcontra.1, by omega⟩))]

/-! ## The encoder run and the full GDM round trip -/

theorem tzAux_two_pow : ∀ (k fuel : Nat), k < fuel → tzAux fuel (2 ^ k) = k
  | 0, fuel + 1, _ => by
    simp [tzAux]
  | k + 1, fuel + 1, h => by
    rw [tzAux, if_neg (by
      rw [pow_succ, Nat.mul_mod_left]
      omega),
      show (2 : Nat) ^ (k + 1) / 2 = 2 ^ k from by
        rw [pow_succ, Nat.mul_div_cancel _ (by norm_num)],
      tzAux_two_pow k fuel (by omega)]

theorem trailing_zeros_two_pow (k : Nat) : trailing_zeros (2 ^ k) = k := by
  unfold trailing_zeros
  rw [if_neg (Nat.two_pow_pos k).ne', tzAux_two_pow k (2 ^ k) (Nat.lt_two_pow k)]

/-- Rebuilding the combined values from the encoder's RGB byte stream. -/
theorem rgbTriples_flatMap (V : List Nat) (hV : ∀ v ∈ V, v < 16777216) :
    rgbTriples (V.flatMap fun v => [v % 256, v / 256 % 256, v / 65536 % 256]) = V := by
  induction V with
  | nil => rfl
  | cons v V ih =>
    rw [List.flatMap_cons]
    rw [show ([v % 256, v / 256 % 256, v / 65536 % 256]
          ++ V.flatMap fun v => [v % 256, v / 256 % 256, v / 65536 % 256])
        = v % 256 :: v / 256 % 256 :: v / 65536 % 256
          :: V.flatMap fun v => [v % 256, v / 256 % 256, v / 65536 % 256] from rfl]
    rw [show rgbTriples (v % 256 :: v / 256 % 256 :: v / 65536 % 256
          :: V.flatMap fun v => [v % 256, v / 256 % 256, v / 65536 % 256])
        = (v % 256 + 256 * (v / 256 % 256) + 65536 * (v / 65536 % 256))
          :: rgbTriples (V.flatMap fun v => [v % 256, v / 256 % 256, v / 65536 % 256])
      from rfl]
    rw [ih (fun x hx => hV x (List.mem_cons_of_mem v hx))]
    congr 1
    have := hV v (List.mem_cons_self v V)
    omega

theorem length_flatMap_triple (V : List Nat) :
    (V.flatMap fun v => [v % 256, v / 256 % 256, v / 65536 % 256]).length
      = 3 * V.length := by
  induction V with
  | nil => rfl
  | cons v V ih =>
    rw [List.flatMap_cons, List.length_append, ih, List.length_cons]
    simp only [List.length_cons, List.length_nil]
    ring

theorem flatMap_triple_get? :
    ∀ (V : List Nat) (q : Nat), q < 3 * V.length →
      (V.flatMap fun v => [v % 256, v / 256 % 256, v / 65536 % 256]).get? q
        = some ((V.get? (q / 3)).getD 0 / 256 ^ (q % 3) % 256)
  | [], q, hq => by simp at hq
  | v :: V, 0, _ => by norm_num
  | v :: V, 1, _ => by norm_num
  | v :: V, 2, _ => by norm_num
  | v :: V, q + 3, hq => by
    have ih := flatMap_triple_get? V q (by
      rw [List.length_cons] at hq
      omega)
    rw [List.flatMap_cons,
      show ([v % 256, v / 256 % 256, v / 65536 % 256]
            ++ V.flatMap fun v => [v % 256, v / 256 % 256, v / 65536 % 256])
          = v % 256 :: v / 256 % 256 :: v / 65536 % 256
            :: V.flatMap fun v => [v % 256, v / 256 % 256, v / 65536 % 256] from rfl,
      show q + 3 = q + 1 + 1 + 1 from by ring,
      List.get?_cons_succ, List.get?_cons_succ, List.get?_cons_succ, ih,
      show q + 1 + 1 + 1 = q + 3 from by ring,
      Nat.add_div_right q (by norm_num), Nat.add_mod_right q 3,
      List.get?_cons_succ]

/-- `bppOf` through the decidable coercion. -/
theorem bppOf_decide (P : Prop) [Decidable P] :
    bppOf (decide P) = if P then 3 else 1 := by
  by_cases h : P
  · rw [if_pos h, show decide P = true from by simp [h]]
    rfl
  · rw [if_neg h, show decide P = false from by simp [h]]
    rfl

/-- A successful `convert_png_to_gdm` run on a power-of-two square input. -/
theorem convert_png_to_gdm_run (ct : ColorType) (pixels V : List Nat) (n nc : Nat)
    (cc : Option Nat)
    (hcv : channel_values ct pixels (2 ^ (n + 5)) (2 ^ (n + 5)) = some V) :
    convert_png_to_gdm ct pixels (2 ^ (n + 5)) (2 ^ (n + 5)) nc cc
      = .ok (gdmHeader n nc (match cc with | some _ => 2 | none => 1)
          ++ ((match cc with | some c => [c % 256] | none => [])
            ++ encodeChunks V (2 ^ (n + 5)) 32 (2 ^ n)
                (match cc with | some c => [c, nc - c] | none => [nc]))) := by
  unfold convert_png_to_gdm
  rw [if_neg (fun h => h rfl), trailing_zeros_two_pow (n + 5),
    show n + 5 - 5 + 5 = n + 5 from by omega, Nat.one_shiftLeft,
    if_neg (fun h => h rfl), hcv,
    show n + 5 - 5 = n from by omega,
    show (2 : Nat) ^ (n + 5) / 32 = 2 ^ n from by
      rw [pow_add, show ((2 : Nat) ^ 5) = 32 from by norm_num,
        Nat.mul_div_cancel _ (by norm_num)]]
  dsimp only
  rw [List.append_assoc]

/-- A successful `gdmDecodeBody` run on a well-formed encoded stream: the
image holds byte `t` of pixel `q/bpp`'s combined value at byte `q`. -/
theorem gdmDecodeBody_run (data V bits : List Nat) (n nc nr : Nat)
    (hdata : data.length ≥ 16 + (nr - 1))
    (hbits_read : bitsFromBoundaries nr (gdmBoundaries data 16 nr nc) = bits)
    (hdrop : data.drop (16 + (if 1 < nr then nr - 1 else 0))
      = encodeChunks V (2 ^ (n + 5)) 32 (2 ^ n) bits)
    (hbits : ∀ x ∈ bits, 1 ≤ x ∧ x ≤ 10)
    (hsum : bits.sum = nc)
    (hvals : ∀ v ∈ V, v < 2 ^ nc)
    (hVlen : V.length = 2 ^ (n + 5) * 2 ^ (n + 5)) :
    ∃ img, gdmDecodeBody data (n, 5, nc, nr, 16)
        = .ok (2 ^ (n + 5), decide (8 < nc), img)
      ∧ img.length = 2 ^ (n + 5) * 2 ^ (n + 5) * bppOf (decide (8 < nc))
      ∧ ∀ q, img.get? q
          = if q < 2 ^ (n + 5) * 2 ^ (n + 5) * bppOf (decide (8 < nc)) then
              some ((V.get? (q / bppOf (decide (8 < nc)))).getD 0
                / 256 ^ (q % bppOf (decide (8 < nc))) % 256)
            else none := by
  have h32 : (2 : Nat) ^ (n + 5) = 32 * 2 ^ n := by
    rw [pow_add, show ((2 : Nat) ^ 5) = 32 from by norm_num, Nat.mul_comm]
  have hdrop' : data.drop (16 + (if 1 < nr then nr - 1 else 0))
      = (List.range' 0 (2 ^ n * 2 ^ n)).flatMap
          (fun ci => encodeRanges (gatherChunk V (32 * 2 ^ n) 32 (ci % 2 ^ n * 32)
            (ci / 2 ^ n * 32)) 32 bits 0) ++ [] := by
    rw [List.append_nil, hdrop]
    unfold encodeChunks
    rw [List.range_eq_range']
    simp only [h32]
  have himg0 : (List.replicate (32 * 2 ^ n * (32 * 2 ^ n) * (if 8 < nc then 3 else 1))
      0).length = 32 * 2 ^ n * (32 * 2 ^ n) * bppOf (decide (8 < nc)) := by
    rw [List.length_replicate, bppOf_decide]
  obtain ⟨img', pos', hrun, hlen', hspec⟩ := decodeGdmChunksAux_spec data V
    (decide (8 < nc)) (2 ^ n) bits Nat.one_le_two_pow hbits
    (fun v hv => by
      rw [hsum]
      exact hvals v hv)
    (by rw [hVlen, h32])
    (2 ^ n * 2 ^ n) 0 (16 + (if 1 < nr then nr - 1 else 0))
    (List.replicate (32 * 2 ^ n * (32 * 2 ^ n) * (if 8 < nc then 3 else 1)) 0) []
    (Nat.zero_add _) hdrop' himg0
  refine ⟨img', ?_, ?_, ?_⟩
  · simp only [gdmDecodeBody]
    rw [if_neg (by omega)]
    simp only [Nat.one_shiftLeft, show ((2 : Nat) ^ 5) = 32 from by norm_num,
      hbits_read, h32,
      show (32 * 2 ^ n / 32 : Nat) = 2 ^ n from Nat.mul_div_cancel_left _ (by norm_num)]
    rw [hrun]
  · rw [hlen', List.length_replicate, bppOf_decide, h32]
  · intro q
    rw [hspec q]
    have hA : 32 * 2 ^ n * (32 * 2 ^ n) * bppOf (decide (8 < nc))
        = 2 ^ (n + 5) * 2 ^ (n + 5) * bppOf (decide (8 < nc)) := by rw [h32]
    by_cases hq : q < 2 ^ (n + 5) * 2 ^ (n + 5) * bppOf (decide (8 < nc))
    · rw [if_pos (show _ ∧ _ from by
        rw [hA]
        exact ⟨hq, Nat.zero_le _⟩), if_pos hq]
    · rw [if_neg (by
        rw [hA]
        rintro ⟨h, -⟩
        exact hq h), if_neg hq,
        List.get?_eq_getElem?, List.getElem?_eq_none (by
          rw [List.length_replicate, ← bppOf_decide, hA]
          omega)]

/-- On a `"MDF` version-0 file the decoder reads the five header fields and
runs the body. -/
theorem convert_gdm_header (a b c : Nat) (rest : List Nat) :
    convert_gdm_to_png (34 :: 77 :: 68 :: 70 :: 0 :: 0 :: 0 :: 0
        :: a :: 5 :: 2 :: b :: c :: 0 :: 0 :: 0 :: rest)
      = gdmDecodeBody (34 :: 77 :: 68 :: 70 :: 0 :: 0 :: 0 :: 0
          :: a :: 5 :: 2 :: b :: c :: 0 :: 0 :: 0 :: rest) (a, 5, b, c, 16) := by
  unfold convert_gdm_to_png
  rw [if_neg (by
      simp only [List.length_cons]
      omega),
    if_neg (fun h => h.1 rfl), if_pos (by rfl), if_neg (fun h => h rfl)]
  rfl

/-- A grayscale image whose bytes follow the decoded-byte spec is the value
buffer itself. -/
theorem img_eq_gray (V img : List Nat) (T : Nat) (hT : T = V.length)
    (hvals : ∀ v ∈ V, v < 256)
    (hspec : ∀ q, img.get? q
      = if q < T then some ((V.get? (q / 1)).getD 0 / 256 ^ (q % 1) % 256) else none) :
    img = V := by
  apply List.ext_get?
  intro q
  rw [hspec q]
  by_cases hq : q < V.length
  · rw [if_pos (by omega)]
    obtain ⟨v, hv⟩ : ∃ v, V.get? q = some v := by
      rw [List.get?_eq_getElem?, List.getElem?_eq_getElem hq]
      exact ⟨_, rfl⟩
    rw [Nat.div_one, Nat.mod_one, pow_zero, Nat.div_one, hv, Option.getD_some,
      Nat.mod_eq_of_lt (hvals v (List.get?_mem hv))]
  · rw [if_neg (by omega), eq_comm, List.get?_eq_getElem?,
      List.getElem?_eq_none (by omega)]

/-- An RGB image whose bytes follow the decoded-byte spec is exactly the
encoder's R/G/B byte stream. -/
theorem img_eq_rgb (V img : List Nat) (T : Nat) (hT : T = 3 * V.length)
    (hspec : ∀ q, img.get? q
      = if q < T then some ((V.get? (q / 3)).getD 0 / 256 ^ (q % 3) % 256) else none) :
    img = V.flatMap fun v => [v % 256, v / 256 % 256, v / 65536 % 256] := by
  apply List.ext_get?
  intro q
  rw [hspec q]
  by_cases hq : q < T
  · rw [if_pos hq, flatMap_triple_get? V q (by omega)]
  · rw [if_neg hq, eq_comm, List.get?_eq_getElem?,
      List.getElem?_eq_none (by
        rw [length_flatMap_triple]
        omega)]

/-- **C2 (corrected).**  The PACKED-DENSITY round trip holds when every
compression range spans at most 10 bits.  For any side `2^(n+5)` with
`n ≤ 255` (the header stores one byte), `1 ≤ numChannels ≤ 24`, a layout
that is a single range (`nc ≤ 10`) or a split `cc / nc - cc` with both
parts in `1..10`, and any combined-value buffer `V` of `dim²` values
`< 2^nc`: encoding the PNG representation of `V` (grayscale bytes for
`nc ≤ 8`, R/G/B byte triples for `nc > 8`) to a `.gdm` byte stream and
decoding that stream returns exactly the dimension, color mode and PNG
pixel bytes that went in. -/
theorem gdm_roundtrip (n nc : Nat) (layout : Option Nat) (V : List Nat)
    (hn : n ≤ 255) (hnc1 : 1 ≤ nc) (hnc24 : nc ≤ 24)
    (hlen : V.length = 2 ^ (n + 5) * 2 ^ (n + 5))
    (hvals : ∀ v ∈ V, v < 2 ^ nc)
    (hlay : match layout with
      | none => nc ≤ 10
      | some cc => 1 ≤ cc ∧ cc < nc ∧ cc ≤ 10 ∧ nc - cc ≤ 10) :
    ∃ data,
      convert_png_to_gdm (if 8 < nc then .rgb else .grayscale)
          (if 8 < nc then V.flatMap fun v => [v % 256, v / 256 % 256, v / 65536 % 256]
            else V)
          (2 ^ (n + 5)) (2 ^ (n + 5)) nc layout = .ok data
      ∧ convert_gdm_to_png data
          = .ok (2 ^ (n + 5), 8 < nc,
              if 8 < nc then V.flatMap fun v => [v % 256, v / 256 % 256, v / 65536 % 256]
              else V) := by
  have hcv : channel_values (if 8 < nc then ColorType.rgb else ColorType.grayscale)
      (if 8 < nc then V.flatMap fun v => [v % 256, v / 256 % 256, v / 65536 % 256] else V)
      (2 ^ (n + 5)) (2 ^ (n + 5)) = some V := by
    by_cases hrgb : 8 < nc
    · rw [if_pos hrgb, if_pos hrgb]
      unfold channel_values
      rw [rgbTriples_flatMap V (fun v hv => by
        have h1 := hvals v hv
        have h2 : (2 : Nat) ^ nc ≤ 2 ^ 24 := Nat.pow_le_pow_right (by norm_num) hnc24
        have h3 : (2 : Nat) ^ 24 = 16777216 := by norm_num
        omega)]
    · rw [if_neg hrgb, if_neg hrgb]
      unfold channel_values
      rw [show (2 : Nat) ^ (n + 5) * 2 ^ (n + 5) = V.length from hlen.symm, List.take_length]
  have hfinish : ∀ img : List Nat,
      (∀ q, img.get? q
        = if q < 2 ^ (n + 5) * 2 ^ (n + 5) * bppOf (decide (8 < nc)) then
            some ((V.get? (q / bppOf (decide (8 < nc)))).getD 0
              / 256 ^ (q % bppOf (decide (8 < nc))) % 256)
          else none) →
      img = (if 8 < nc then V.flatMap fun v => [v % 256, v / 256 % 256, v / 65536 % 256]
        else V) := by
    intro img hspec
    by_cases hrgb : 8 < nc
    · rw [if_pos hrgb]
      have hd : decide (8 < nc) = true := by simp [hrgb]
      simp only [hd, show bppOf true = 3 from rfl] at hspec
      exact img_eq_rgb V img _ (by rw [hlen]; ring) hspec
    · rw [if_neg hrgb]
      have hd : decide (8 < nc) = false := by simp [hrgb]
      simp only [hd, show bppOf false = 1 from rfl] at hspec
      refine img_eq_gray V img _ (by rw [hlen, Nat.mul_one]) (fun v hv => by
        have h1 := hvals v hv
        have h2 : (2 : Nat) ^ nc ≤ 2 ^ 8 := Nat.pow_le_pow_right (by norm_num) (by omega)
        have h3 : (2 : Nat) ^ 8 = 256 := by norm_num
        omega) hspec
  rcases layout with - | cc
  · have h10 : nc ≤ 10 := hlay
    have henc := convert_png_to_gdm_run _ _ V n nc none hcv
    dsimp only at henc
    refine ⟨_, henc, ?_⟩
    have hshape : gdmHeader n nc 1 ++ ([] ++ encodeChunks V (2 ^ (n + 5)) 32 (2 ^ n) [nc])
        = 34 :: 77 :: 68 :: 70 :: 0 :: 0 :: 0 :: 0 :: n :: 5 :: 2 :: nc :: 1 :: 0 :: 0 :: 0
          :: encodeChunks V (2 ^ (n + 5)) 32 (2 ^ n) [nc] := by
      unfold gdmHeader
      rw [Nat.mod_eq_of_lt (show n < 256 by omega),
        Nat.mod_eq_of_lt (show nc < 256 by omega)]
      rfl
    rw [hshape, convert_gdm_header n nc 1 _]
    obtain ⟨img, hdec, hilen, hispec⟩ := gdmDecodeBody_run
      (34 :: 77 :: 68 :: 70 :: 0 :: 0 :: 0 :: 0 :: n :: 5 :: 2 :: nc :: 1 :: 0 :: 0 :: 0
        :: encodeChunks V (2 ^ (n + 5)) 32 (2 ^ n) [nc]) V [nc] n nc 1
      (by
        simp only [List.length_cons]
        omega)
      (by rfl)
      (by rfl)
      (by
        intro x hx
        rw [List.mem_singleton] at hx
        omega)
      (by simp)
      hvals hlen
    rw [hdec, hfinish img hispec]
  · obtain ⟨hcc1, hccnc, hcc10, hncc10⟩ := hlay
    have henc := convert_png_to_gdm_run _ _ V n nc (some cc) hcv
    dsimp only at henc
    refine ⟨_, henc, ?_⟩
    have hshape : gdmHeader n nc 2
          ++ ([cc % 256] ++ encodeChunks V (2 ^ (n + 5)) 32 (2 ^ n) [cc, nc - cc])
        = 34 :: 77 :: 68 :: 70 :: 0 :: 0 :: 0 :: 0 :: n :: 5 :: 2 :: nc :: 2 :: 0 :: 0 :: 0
          :: cc :: encodeChunks V (2 ^ (n + 5)) 32 (2 ^ n) [cc, nc - cc] := by
      unfold gdmHeader
      rw [Nat.mod_eq_of_lt (show n < 256 by omega),
        Nat.mod_eq_of_lt (show nc < 256 by omega),
        Nat.mod_eq_of_lt (show cc < 256 by omega)]
      rfl
    rw [hshape, convert_gdm_header n nc 2 _]
    obtain ⟨img, hdec, hilen, hispec⟩ := gdmDecodeBody_run
      (34 :: 77 :: 68 :: 70 :: 0 :: 0 :: 0 :: 0 :: n :: 5 :: 2 :: nc :: 2 :: 0 :: 0 :: 0
        :: cc :: encodeChunks V (2 ^ (n + 5)) 32 (2 ^ n) [cc, nc - cc]) V [cc, nc - cc]
      n nc 2
      (by
        simp only [List.length_cons]
        omega)
      (by rfl)
      (by rfl)
      (by
        intro x hx
        rcases List.mem_cons.mp hx with rfl | hx2
        · omega
        · rw [List.mem_singleton] at hx2
          omega)
      (by
        simp only [List.sum_cons, List.sum_nil]
        omega)
      hvals hlen
    rw [hdec, hfinish img hispec]

/-- Witness for C2 at the 32×32 all-zero single-range grayscale file. -/
theorem gdm_roundtrip_witness :
    ∃ data,
      convert_png_to_gdm (if 8 < 1 then .rgb else .grayscale)
          (if 8 < 1 then (List.replicate 1024 0).flatMap
              fun v => [v % 256, v / 256 % 256, v / 65536 % 256]
            else List.replicate 1024 0)
          (2 ^ (0 + 5)) (2 ^ (0 + 5)) 1 none = .ok data
      ∧ convert_gdm_to_png data
          = .ok (2 ^ (0 + 5), 8 < 1,
              if 8 < 1 then (List.replicate 1024 0).flatMap
                  fun v => [v % 256, v / 256 % 256, v / 65536 % 256]
              else List.replicate 1024 0) :=
  gdm_roundtrip 0 1 none (List.replicate 1024 0) (by norm_num) (by norm_num) (by norm_num)
    (by
      rw [List.length_replicate]
      norm_num)
    (fun v hv => by
      rw [List.eq_of_mem_replicate hv]
      norm_num)
    (show (1 : Nat) ≤ 10 from by norm_num)

/-! ## C2 counterexample machinery: the 11-bit raw block loses bits -/

theorem writeRawByte_length (bm : List Nat) (d i v : Nat) :
    (writeRawByte bm d i v).length = bm.length := by
  simp only [writeRawByte]
  split
  · rw [List.length_set, List.length_set]
  · rw [List.length_set]

theorem writeRawByte_noop (bm : List Nat) (d i v : Nat)
    (hlow : (v <<< (i * d % 8)) % 256 = 0)
    (hhigh : (v >>> (8 - i * d % 8)) % 256 = 0) :
    writeRawByte bm d i v = bm := by
  simp only [writeRawByte, hlow, hhigh, Nat.or_zero, set_get_self]
  split <;> rfl

theorem writeRawByte_zero (bm : List Nat) (d i : Nat) : writeRawByte bm d i 0 = bm :=
  writeRawByte_noop bm d i 0 (by rw [Nat.zero_shiftLeft]) (by rw [Nat.zero_shiftRight])

theorem foldl_writeRawByte_zeros (d : Nat) :
    ∀ (k m : Nat) (bm : List Nat),
      (List.enumFrom m (List.replicate k 0)).foldl
        (fun b pa => writeRawByte b d pa.1 pa.2) bm = bm
  | 0, _, _ => rfl
  | k + 1, m, bm => by
    rw [List.replicate_succ, List.enumFrom_cons, List.foldl_cons, writeRawByte_zero]
    exact foldl_writeRawByte_zeros d k (m + 1) bm

/-- A raw write leaves byte `q` alone when the bits it would OR there are
zero (in particular when `q` is outside the write's two bytes). -/
theorem writeRawByte_get?_pres (bm : List Nat) (d i v q : Nat)
    (hlow : q = i * d / 8 → (v <<< (i * d % 8)) % 256 = 0)
    (hhigh : q = i * d / 8 + 1 → (v >>> (8 - i * d % 8)) % 256 = 0) :
    (writeRawByte bm d i v).get? q = bm.get? q := by
  simp only [writeRawByte]
  by_cases hb : q = i * d / 8
  · rw [hlow hb, Nat.or_zero, set_get_self]
    split
    · rw [List.get?_set_ne _ _ (by omega)]
    · rfl
  · by_cases hb1 : q = i * d / 8 + 1
    · split
      · rw [hhigh hb1, Nat.or_zero, set_get_self,
          List.get?_set_ne _ _ (fun h => hb h.symm)]
      · rw [List.get?_set_ne _ _ (fun h => hb h.symm)]
    · split
      · rw [List.get?_set_ne _ _ (fun h => hb1 h.symm),
          List.get?_set_ne _ _ (fun h => hb h.symm)]
      · rw [List.get?_set_ne _ _ (fun h => hb h.symm)]

set_option maxRecDepth 4000 in
/-- **C2 counterexample.**  The claim as stated (every `numChannels ≤ 24`
layout round-trips) is false: with an 11-bit range the raw bitmap packing
drops bits.  For the 32×32 buffer `[0,1,2,3,4,1024,0,…]` (six distinct
values, bit depth 11) pixel 5 starts at bit offset 7; both `as u8` casts of
the value 1024 are zero, so nothing of it reaches the bitmap and the block
decodes pixel 5 as 0, not 1024. -/
theorem gdm_roundtrip_counterexample :
    (decode_gdm_block
        (encode_gdm_block ([0, 1, 2, 3, 4, 1024] ++ List.replicate 1018 0) 32) 0 32).map
        Prod.fst
      ≠ some ([0, 1, 2, 3, 4, 1024] ++ List.replicate 1018 0) := by
  have hlenA : ([0, 1, 2, 3, 4, 1024] ++ List.replicate 1018 0 : List Nat).length = 1024 := by
    rw [List.length_append, List.length_replicate]
    rfl
  have huniq : uniqueSorted ([0, 1, 2, 3, 4, 1024] ++ List.replicate 1018 0)
      = [0, 1, 2, 3, 4, 1024] := by
    apply List.eq_of_perm_of_sorted _ (uniqueSorted_sorted _) (by decide)
    rw [List.perm_ext_iff_of_nodup (uniqueSorted_nodup _) (by decide)]
    intro a
    rw [mem_uniqueSorted, List.mem_append, List.mem_replicate]
    constructor
    · rintro (h | ⟨-, rfl⟩)
      · exact h
      · decide
    · intro h
      exact Or.inl h
  have hlog : Nat.log2 1024 = 10 := by
    rw [show (1024 : Nat) = 2 ^ 10 from by norm_num, Nat.log2_two_pow]
  have henc : encode_gdm_block ([0, 1, 2, 3, 4, 1024] ++ List.replicate 1018 0) 32
      = 11 :: 0 ::
        (List.enum ([0, 1, 2, 3, 4, 1024] ++ List.replicate 1018 0)).foldl
          (fun bm pa => writeRawByte bm 11 pa.1 pa.2) (List.replicate (11 * 128) 0) := by
    simp only [encode_gdm_block]
    rw [huniq, if_neg (by decide), if_neg (by decide),
      show (([0, 1, 2, 3, 4, 1024] : List Nat).getLast?).getD 0 = 1024 from rfl, hlog,
      show max (if (1024 : Nat) = 0 then 0 else 10 + 1) 1 = 11 from by decide,
      show (32 * 32 : Nat)
          = ([0, 1, 2, 3, 4, 1024] ++ List.replicate 1018 0 : List Nat).length from by
        rw [hlenA],
      List.take_length]
  have hsplit : (List.enum ([0, 1, 2, 3, 4, 1024] ++ List.replicate 1018 0)).foldl
      (fun bm pa => writeRawByte bm 11 pa.1 pa.2) (List.replicate (11 * 128) 0)
      = writeRawByte (writeRawByte (writeRawByte (writeRawByte
          (List.replicate (11 * 128) 0) 11 1 1) 11 2 2) 11 3 3) 11 4 4 := by
    rw [List.enum_eq_enumFrom, List.enumFrom_append, List.foldl_append,
      foldl_writeRawByte_zeros,
      show List.enumFrom 0 [0, 1, 2, 3, 4, 1024]
        = [(0, 0), (1, 1), (2, 2), (3, 3), (4, 4), (5, 1024)] from rfl]
    simp only [List.foldl_cons, List.foldl_nil]
    rw [writeRawByte_zero, writeRawByte_noop _ 11 5 1024 (by decide) (by decide)]
  have hlen1408 : (writeRawByte (writeRawByte (writeRawByte (writeRawByte
      (List.replicate (11 * 128) 0) 11 1 1) 11 2 2) 11 3 3) 11 4 4).length = 11 * 128 := by
    rw [writeRawByte_length, writeRawByte_length, writeRawByte_length, writeRawByte_length,
      List.length_replicate]
  have hg6 : (writeRawByte (writeRawByte (writeRawByte (writeRawByte
      (List.replicate (11 * 128) 0) 11 1 1) 11 2 2) 11 3 3) 11 4 4).get? 6 = some 0 := by
    rw [writeRawByte_get?_pres _ 11 4 4 6 (fun h => absurd h (by decide)) (fun _ => by decide),
      writeRawByte_get?_pres _ 11 3 3 6 (fun h => absurd h (by decide))
        (fun h => absurd h (by decide)),
      writeRawByte_get?_pres _ 11 2 2 6 (fun h => absurd h (by decide))
        (fun h => absurd h (by decide)),
      writeRawByte_get?_pres _ 11 1 1 6 (fun h => absurd h (by decide))
        (fun h => absurd h (by decide))]
    rfl
  have hg7 : (writeRawByte (writeRawByte (writeRawByte (writeRawByte
      (List.replicate (11 * 128) 0) 11 1 1) 11 2 2) 11 3 3) 11 4 4).get? 7 = some 0 := by
    rw [writeRawByte_get?_pres _ 11 4 4 7 (fun h => absurd h (by decide))
        (fun h => absurd h (by decide)),
      writeRawByte_get?_pres _ 11 3 3 7 (fun h => absurd h (by decide))
        (fun h => absurd h (by decide)),
      writeRawByte_get?_pres _ 11 2 2 7 (fun h => absurd h (by decide))
        (fun h => absurd h (by decide)),
      writeRawByte_get?_pres _ 11 1 1 7 (fun h => absurd h (by decide))
        (fun h => absurd h (by decide))]
    rfl
  have hext : extractBits (writeRawByte (writeRawByte (writeRawByte (writeRawByte
      (List.replicate (11 * 128) 0) 11 1 1) 11 2 2) 11 3 3) 11 4 4) 11 5 = 0 := by
    simp only [extractBits]
    rw [hlen1408, show (5 * 11 / 8 : Nat) = 6 from by norm_num,
      show (6 + 1 : Nat) = 7 from rfl,
      if_pos (show (7 : Nat) < 11 * 128 from by norm_num), hg6, hg7]
    decide
  have hdec : decode_gdm_block
      (encode_gdm_block ([0, 1, 2, 3, 4, 1024] ++ List.replicate 1018 0) 32) 0 32
      = some ((List.range 1024).map fun i =>
          extractBits (writeRawByte (writeRawByte (writeRawByte (writeRawByte
            (List.replicate (11 * 128) 0) 11 1 1) 11 2 2) 11 3 3) 11 4 4) 11 i,
          2 + 11 * 128) := by
    rw [henc, hsplit,
      show (11 :: 0 :: writeRawByte (writeRawByte (writeRawByte (writeRawByte
            (List.replicate (11 * 128) 0) 11 1 1) 11 2 2) 11 3 3) 11 4 4 : List Nat)
          = 11 :: 0 :: (writeRawByte (writeRawByte (writeRawByte (writeRawByte
            (List.replicate (11 * 128) 0) 11 1 1) 11 2 2) 11 3 3) 11 4 4 ++ []) from by
        rw [List.append_nil],
      decode_gdm_block_raw 11 _ [] (by norm_num) hlen1408]
  intro hcontra
  rw [hdec, Option.map_some'] at hcontra
  dsimp only at hcontra
  have hlist := Option.some.inj hcontra
  have h5 : ((List.range 1024).map fun i =>
      extractBits (writeRawByte (writeRawByte (writeRawByte (writeRawByte
        (List.replicate (11 * 128) 0) 11 1 1) 11 2 2) 11 3 3) 11 4 4) 11 i).get? 5
      = ([0, 1, 2, 3, 4, 1024] ++ List.replicate 1018 0 : List Nat).get? 5 := by
    rw [hlist]
  rw [List.get?_eq_getElem?, List.getElem?_map, List.getElem?_range (by norm_num)] at h5
  simp only [Option.map_some'] at h5
  rw [hext] at h5
  exact absurd h5 (by decide)

end GrleConvert
